import Mathlib

/-!
# Huffman coder (`huff.cpp`): shallow embedding and verification

The program computes symbol probabilities of a message (`calc_probas`), merges
leaves through a `std::priority_queue` (`tree_create`), reads the codes off the
tree (`traverse_tree`), encodes (`encode_msg`), writes the tree as text
(`save_tree`), reads it back (`load_tree`) and decodes (`decode_huff`).

Modelling conventions.

* `double` weights are exact rationals (`ℚ`); the text `operator<<` prints for a weight
  and the value `std::stod` reads back are parameters (`fmt`, `stod`).
* `char` is `Char`, `std::string` is `List Char`, a file is the list of its characters.
  Map keys are compared by code point, the order of `char` on 7-bit text.
* `node*` is the inductive type `node`; `node.null` is `nullptr`.  The program
  never shares a node between two parents, so a pointer is the tree it points to.
* `std::map<char, β>` is the list of its entries in key order (`CharMap β`).
* `std::priority_queue<node*, vector<node*>, node_comp>` is its underlying vector,
  with `push`/`pop` performing the libstdc++ `std::push_heap`/`std::pop_heap`
  (the file includes `bits/stdc++.h`); this fixes the pop order on ties.
* `(int) msg.length()` is the value reduced to 32 bits, two's complement.
* A run that reaches undefined behaviour or throws ends in `Except.error` with the
  `Failure` that names what happened.
-/

namespace Huff

/-! ## Outcomes -/

/-- Ways a run can end without a result.  The first six are the typed failures of the
specification's error design; no statement of `huff.cpp` raises them.  `invalid_argument`
stands for the exceptions `std::stod` throws (`std::invalid_argument` when no number can be
read, `std::out_of_range` when the number read is outside the range of `double`).  The last
four are undefined behaviour the source can reach: dereferencing a null `node*`,
dereferencing the `end()` iterator returned by `std::map::find`, calling `top()`/`pop()` on
an empty queue, and indexing a string out of range. -/
inductive Failure where
  | EmptyInputError
  | DegenerateAlphabetError
  | UnknownSymbolError
  | CorruptTreeFileError
  | MalformedBitstreamError
  | TruncatedStreamError
  | invalid_argument
  | null_dereference
  | end_iterator_dereference
  | empty_queue
  | index_out_of_range
  deriving DecidableEq, Repr

deriving instance DecidableEq for Except

/-- The failures that are undefined behaviour in C++ (no defined outcome at all). -/
def Failure.isUndefinedBehaviour : Failure → Bool
  | .null_dereference => true
  | .end_iterator_dereference => true
  | .empty_queue => true
  | .index_out_of_range => true
  | _ => false

/-- The failures that are typed errors of the specification. -/
def Failure.isTypedError : Failure → Bool
  | .EmptyInputError => true
  | .DegenerateAlphabetError => true
  | .UnknownSymbolError => true
  | .CorruptTreeFileError => true
  | .MalformedBitstreamError => true
  | .TruncatedStreamError => true
  | _ => false

/-! ## Data model -/

/-- A `node*`: either `nullptr` or a node with its weight, character and two child
pointers (`struct node`, lines 15-31). -/
inductive node where
  | null : node
  | mk (proba : ℚ) (c : Char) (left right : node) : node
  deriving DecidableEq, Repr

instance : Inhabited node := ⟨node.null⟩

/-- The constructor `node()`: weight `0.0`, character `'$'`, no children (line 22). -/
def node.default : node := node.mk 0 '$' node.null node.null

/-- The constructor `node(p, cc)`: no children (lines 24-30). -/
def node.leaf (p : ℚ) (cc : Char) : node := node.mk p cc node.null node.null

/-- Test `nd == nullptr`. -/
def node.isNull : node → Bool
  | .null => true
  | .mk _ _ _ _ => false

/-- Field `nd->proba` of a non-null pointer (`0` stands in for the null case, which the
callers below exclude before reading). -/
def node.proba : node → ℚ
  | .null => 0
  | .mk p _ _ _ => p

/-- Field `nd->c` of a non-null pointer. -/
def node.c : node → Char
  | .null => '$'
  | .mk _ c _ _ => c

/-- Field `nd->left` of a non-null pointer. -/
def node.left : node → node
  | .null => .null
  | .mk _ _ l _ => l

/-- Field `nd->right` of a non-null pointer. -/
def node.right : node → node
  | .null => .null
  | .mk _ _ _ r => r

/-- The comparator `node_comp` (lines 40-46): `a->proba > b->proba`. -/
def node_comp (a b : node) : Bool := decide (a.proba > b.proba)

/-- The conversion `(int) n` of a `size_t`: the low 32 bits read as two's complement (what
GCC does, and what the language fixes since C++20). -/
@[irreducible] def to_int (n : Nat) : Int :=
  if n % 4294967296 < 2147483648 then ((n % 4294967296 : Nat) : Int)
  else ((n % 4294967296 : Nat) : Int) - 4294967296

/-! ## `std::map<char, β>` -/

/-- A `std::map<char, β>`, given by its entries in increasing key order. -/
abbrev CharMap (β : Type) := List (Char × β)

/-- Lookup `m.find(k)`; `none` is the `end()` iterator. -/
def CharMap.find {β : Type} : CharMap β → Char → Option β
  | [], _ => none
  | (k', v) :: rest, k => if k = k' then some v else CharMap.find rest k

/-- Insertion `m.insert(std::pair(k, v))`: an existing entry for `k` is kept unchanged,
otherwise the new entry takes its place in key order. -/
def CharMap.insert {β : Type} : CharMap β → Char → β → CharMap β
  | [], k, v => [(k, v)]
  | (k', v') :: rest, k, v =>
    if k < k' then (k, v) :: (k', v') :: rest
    else if k = k' then (k', v') :: rest
    else (k', v') :: CharMap.insert rest k v

/-- The statement `m[k]++` on a `std::map<char, double>`: `operator[]` creates the entry
with value `0.0` when it is missing, then the value is incremented. -/
def CharMap.incr : CharMap ℚ → Char → CharMap ℚ
  | [], k => [(k, 0 + 1)]
  | (k', v') :: rest, k =>
    if k < k' then (k, 0 + 1) :: (k', v') :: rest
    else if k = k' then (k', v' + 1) :: rest
    else (k', v') :: CharMap.incr rest k

/-! ## `std::priority_queue` over a vector (libstdc++ `bits/stl_heap.h`) -/

/-- The loop of `std::__push_heap`: the hole climbs while its parent compares before
`value`; then `value` is stored in the hole.  The first argument bounds the number of
iterations; `holeIndex` iterations always suffice because the hole index decreases. -/
def push_heap_loop : Nat → List node → Nat → Nat → node → List node
  | 0, first, holeIndex, _, value => first.set holeIndex value
  | fuel + 1, first, holeIndex, topIndex, value =>
    let parent := (holeIndex - 1) / 2
    if holeIndex > topIndex && node_comp (first.getD parent node.null) value then
      push_heap_loop fuel (first.set holeIndex (first.getD parent node.null)) parent topIndex value
    else
      first.set holeIndex value

/-- The function `std::__push_heap(first, holeIndex, topIndex, value, comp)`. -/
def push_heap_at (first : List node) (holeIndex topIndex : Nat) (value : node) : List node :=
  push_heap_loop holeIndex first holeIndex topIndex value

/-- The function `std::push_heap(first, last, comp)` on the whole vector: the last
element is the one being pushed. -/
def push_heap (c : List node) : List node :=
  push_heap_at c (c.length - 1) 0 (c.getD (c.length - 1) node.null)

/-- The first loop of `std::__adjust_heap`: the hole sinks to the child that does not
compare before its sibling.  Returns the vector, the hole index and `secondChild`.  The
first argument bounds the number of iterations; `len` always suffices. -/
def adjust_heap_loop : Nat → List node → Nat → Nat → Nat → List node × Nat × Nat
  | 0, first, holeIndex, secondChild, _ => (first, holeIndex, secondChild)
  | fuel + 1, first, holeIndex, secondChild, len =>
    if secondChild < (len - 1) / 2 then
      let sc := 2 * (secondChild + 1)
      let sc := if node_comp (first.getD sc node.null) (first.getD (sc - 1) node.null)
                then sc - 1 else sc
      adjust_heap_loop fuel (first.set holeIndex (first.getD sc node.null)) sc sc len
    else
      (first, holeIndex, secondChild)

/-- The function `std::__adjust_heap(first, holeIndex, len, value, comp)`. -/
def adjust_heap (first : List node) (holeIndex len : Nat) (value : node) : List node :=
  let topIndex := holeIndex
  let (first, holeIndex, secondChild) := adjust_heap_loop len first holeIndex holeIndex len
  let (first, holeIndex) :=
    if len % 2 = 0 ∧ secondChild = (len - 2) / 2 then
      let sc := 2 * (secondChild + 1)
      (first.set holeIndex (first.getD (sc - 1) node.null), sc - 1)
    else (first, holeIndex)
  push_heap_at first holeIndex topIndex value

/-- The function `std::pop_heap(first, last, comp)` on the whole vector: the top is moved
to the last slot and the former last element is sifted down from the root. -/
def pop_heap (c : List node) : List node :=
  if c.length > 1 then
    let last := c.length - 1
    let value := c.getD last node.null
    let c := c.set last (c.getD 0 node.null)
    adjust_heap c 0 last value
  else c

/-- The call `pq.push(x)`: `c.push_back(x); std::push_heap(c.begin(), c.end(), comp)`. -/
def pq_push (pq : List node) (x : node) : List node := push_heap (pq ++ [x])

/-- The call `pq.top()`: `c.front()`, undefined on an empty queue. -/
def pq_top : List node → Except Failure node
  | [] => .error .empty_queue
  | x :: _ => .ok x

/-- The call `pq.pop()`: `std::pop_heap(c.begin(), c.end(), comp); c.pop_back()`,
undefined on an empty queue. -/
def pq_pop : List node → Except Failure (List node)
  | [] => .error .empty_queue
  | x :: xs => .ok (pop_heap (x :: xs)).dropLast

/-! ## The functions of `huff.cpp` -/

/-- The function `calc_probas` (lines 49-58): count the first `msgLen` characters, then
divide every entry of the table by `1.0 * msgLen`.  (When `msgLen` is `0` and the table was
empty on entry there is no entry to divide; a division by `0.0` of an entry present on entry
would give `inf` in `double` and gives `0` here.) -/
def calc_probas (msg : List Char) (charWeights : CharMap ℚ) : CharMap ℚ :=
  let msgLen : Int := to_int msg.length
  let counted := (msg.take msgLen.toNat).foldl CharMap.incr charWeights
  counted.map (fun elem => (elem.1, elem.2 / (1 * (msgLen : ℚ))))

/-- One pass of the `while (pq.size() > 1)` loop of `tree_create` (lines 73-83).  The
test `newNode->right == one` compares pointers; `right` is `one` exactly when
`one->proba > two->proba`, so the left child is `two` in that case and `one` otherwise. -/
def tree_create_step (pq : List node) : Except Failure (List node) := do
  let one ← pq_top pq
  let pq ← pq_pop pq
  let two ← pq_top pq
  let pq ← pq_pop pq
  let proba := one.proba + two.proba
  let right := if one.proba > two.proba then one else two
  let left := if one.proba > two.proba then two else one
  pure (pq_push pq (node.mk proba '$' left right))

/-- The `while (pq.size() > 1)` loop of `tree_create`.  The first argument bounds the
number of passes; `pq.length` passes always suffice because every pass removes one
element. -/
def tree_create_loop : Nat → List node → Except Failure (List node)
  | 0, pq => pure pq
  | fuel + 1, pq =>
    if pq.length > 1 then do
      let pq ← tree_create_step pq
      tree_create_loop fuel pq
    else pure pq

/-- The function `tree_create` (lines 60-85): push one leaf per table entry, in key order,
then merge until at most one node is left. -/
def tree_create (pq : List node) (charWeights : CharMap ℚ) : Except Failure (List node) :=
  let pq := charWeights.foldl (fun pq elem => pq_push pq (node.leaf elem.2 elem.1)) pq
  tree_create_loop pq.length pq

/-- The function `traverse_tree` (lines 87-95). -/
def traverse_tree : node → List Char → CharMap (List Char) → CharMap (List Char)
  | .null, _, encodedChars => encodedChars
  | .mk _ c left right, s, encodedChars =>
    let encodedChars := if c ≠ '$' then encodedChars.insert c s else encodedChars
    let encodedChars := traverse_tree left (s ++ ['0']) encodedChars
    traverse_tree right (s ++ ['1']) encodedChars

/-- The function `encode_msg` (lines 97-107): `find(ch)->second` dereferences `end()` when
`ch` has no entry.  That is undefined behaviour: the model stops there with the outcome
`end_iterator_dereference` and says nothing about what a compiled program does from there
on (it may well carry on and return a bitstring). -/
def encode_msg (msg : List Char) (encodedChars : CharMap (List Char)) :
    Except Failure (List Char) :=
  (msg.take (to_int msg.length).toNat).foldlM
    (fun st ch =>
      match encodedChars.find ch with
      | some code => pure (st ++ code)
      | none => throw Failure.end_iterator_dereference)
    []

/-- The function `save_tree` (lines 122-130), returning the stream with the written
records appended.  `fmt` is the text `operator<<` produces for a `double`.  The test
`nd->left != nullptr` dereferences `nd` even when it is null. -/
def save_tree (fmt : ℚ → List Char) : node → List Char → Except Failure (List Char)
  | .null, _ => throw Failure.null_dereference
  | .mk proba c left right, outFile => do
    let outFile := outFile ++ (fmt proba ++ [' ', c, '\n'])
    let outFile ← if left.isNull then pure outFile else save_tree fmt left outFile
    let outFile ← if right.isNull then pure outFile else save_tree fmt right outFile
    pure outFile

/-- The call `getline(inFile, s)`: `none` when the stream is exhausted, otherwise the
characters before the next `'\n'` and the stream after it. -/
def getline : List Char → Option (List Char × List Char)
  | [] => none
  | ch :: rest =>
    some ((ch :: rest).takeWhile (fun x => x ≠ '\n'),
      ((ch :: rest).dropWhile (fun x => x ≠ '\n')).tail)

/-- The function `load_tree` (lines 132-154).  Arguments: the pointer `nd` is bound to on
entry, the stream, the queue; result: `nd`, the stream and the queue on exit.  `stod` is
`std::stod`, `none` when it throws.  The queue stores the pointer `nd`, so the root pushed
at line 143 is seen with its children once they are linked.  The first argument bounds the
recursion depth; one more than the length of the stream always suffices because every
successful `getline` consumes a character. -/
def load_tree (stod : List Char → Option ℚ) :
    Nat → node → List Char → List node → Except Failure (node × List Char × List node)
  | 0, nd, inFile, pq => pure (nd, inFile, pq)
  | fuel + 1, nd, inFile, pq =>
    match getline inFile with
    | none => pure (nd, inFile, pq)
    | some (s, inFile) => do
      let proba ← match stod (s.takeWhile (fun x => x ≠ ' ')) with
        | some p => pure p
        | none => throw Failure.invalid_argument
      let c ← match s.getLast? with
        | some c => pure c
        | none => throw Failure.index_out_of_range
      if c = '$' then do
        let head := pq.isEmpty
        let pq := if head then pq_push pq (node.mk proba c node.null node.null) else pq
        let (left, inFile, pq) ← load_tree stod fuel node.null inFile pq
        let (right, inFile, pq) ← load_tree stod fuel node.null inFile pq
        let nd := node.mk proba c left right
        pure (nd, inFile, if head then [nd] else pq)
      else
        pure (node.mk proba c node.null node.null, inFile, pq)

/-- One pass of the loop of `decode_huff` (lines 161-169) on the character `ch`, with the
cursor `tnd` and the text printed so far. -/
def decode_step (nd : node) (st : node × List Char) (ch : Char) :
    Except Failure (node × List Char) := do
  let tnd := st.1
  let tnd ← if ch = '0' then
      (match tnd with
       | .null => throw Failure.null_dereference
       | .mk _ _ left _ => pure left)
    else pure tnd
  let tnd ← if ch = '1' then
      (match tnd with
       | .null => throw Failure.null_dereference
       | .mk _ _ _ right => pure right)
    else pure tnd
  match tnd with
  | .mk _ c .null .null => pure (nd, st.2 ++ [c])
  | _ => pure (tnd, st.2)

/-- The function `decode_huff` (lines 156-172): the text written to `cout`, the final
`'\n'` included. -/
def decode_huff (nd : node) (msg : List Char) : Except Failure (List Char) := do
  let st ← (msg.take (to_int msg.length).toNat).foldlM (decode_step nd) (nd, [])
  pure (st.2 ++ ['\n'])

/-- The root `pq.top()` that `main` reads after `tree_create(pq, charWeights)` on its
empty queue (lines 207, 210 and 223). -/
def tree_root (charWeights : CharMap ℚ) : Except Failure node := do
  let pq ← tree_create [] charWeights
  pq_top pq

/-- The code table `main` builds for the message `msg` (lines 204-210). -/
def code_table (msg : List Char) : Except Failure (CharMap (List Char)) := do
  let root ← tree_root (calc_probas msg [])
  pure (traverse_tree root [] [])

/-- The encode branch of `main` (lines 204-223) for the message `msg`: the code table, the
encoded message and the contents of `huffout.dat`. -/
def main_enc (fmt : ℚ → List Char) (msg : List Char) :
    Except Failure (CharMap (List Char) × List Char × List Char) := do
  let root ← tree_root (calc_probas msg [])
  let encodedChars := traverse_tree root [] []
  let encMsg ← encode_msg msg encodedChars
  let outFile ← save_tree fmt root []
  pure (encodedChars, encMsg, outFile)

/-- The decode branch of `main` (lines 238-244) for the file contents `inFile` and the
entered bitstring `decMsg`: the decoded text written to `cout`. -/
def main_dec (stod : List Char → Option ℚ) (inFile decMsg : List Char) :
    Except Failure (List Char) := do
  let (_, _, pq) ← load_tree stod (inFile.length + 1) node.null inFile []
  let root ← pq_top pq
  decode_huff root decMsg

/-! ## Specification vocabulary -/

/-- A node with no children: the test of line 165, `tnd != nullptr && tnd->left == nullptr
&& tnd->right == nullptr`. -/
def node.isLeaf : node → Bool
  | .null => false
  | .mk _ _ l r => l.isNull && r.isNull

/-- A strict binary tree: a non-null pointer under which every node has either no child
or two children. -/
def node.strict : node → Bool
  | .null => false
  | .mk _ _ l r => (l.isNull && r.isNull) || (l.strict && r.strict)

/-- The leaves under a pointer from left to right, each with its character and weight. -/
def node.leaves : node → List (Char × ℚ)
  | .null => []
  | .mk p c l r => if l.isNull && r.isNull then [(c, p)] else l.leaves ++ r.leaves

/-- Number of nodes without children. -/
def node.num_leaves : node → Nat
  | .null => 0
  | .mk _ _ l r => if l.isNull && r.isNull then 1 else l.num_leaves + r.num_leaves

/-- Number of nodes with at least one child. -/
def node.num_internal : node → Nat
  | .null => 0
  | .mk _ _ l r => if l.isNull && r.isNull then 0 else 1 + l.num_internal + r.num_internal

/-- Every node with a child carries the sentinel character `'$'`. -/
def node.sentinel_ok : node → Bool
  | .null => true
  | .mk _ c l r => ((l.isNull && r.isNull) || c == '$') && l.sentinel_ok && r.sentinel_ok

/-- Every node with a child has the weight `left->proba + right->proba`. -/
def node.weights_ok : node → Bool
  | .null => true
  | .mk p _ l r =>
    ((l.isNull && r.isNull) || decide (p = l.proba + r.proba)) && l.weights_ok && r.weights_ok

/-- What one pass of the merge loop builds from the two extracted nodes. -/
def merge (one two : node) : node :=
  node.mk (one.proba + two.proba) '$'
    (if one.proba > two.proba then two else one)
    (if one.proba > two.proba then one else two)

/-- The properties every node in the queue of `tree_create` has: strict, sentinel on the
inner nodes, weights adding up. -/
def node.built (t : node) : Bool := t.strict && t.sentinel_ok && t.weights_ok

/-- The keys of a map, in iteration order. -/
def CharMap.keys {β : Type} (m : CharMap β) : List Char := m.map Prod.fst

/-- The representation invariant of `std::map`: keys strictly increasing. -/
def CharMap.ordered {β : Type} (m : CharMap β) : Prop := m.keys.Pairwise (fun a b => a < b)

/-- The node reached from `t` by the steps of `q`: `'0'` to the left child, `'1'` to the
right child; `null` when a step leaves the tree or is not a bit. -/
def node.follow : node → List Char → node
  | t, [] => t
  | .null, _ :: _ => .null
  | .mk _ _ l r, ch :: q =>
    if ch = '0' then l.follow q else if ch = '1' then r.follow q else .null

/-- The visits of `traverse_tree` that reach line 92, in order: every node whose character
is not `'$'`, with the string accumulated on the way to it. -/
def node.codes : node → List Char → List (Char × List Char)
  | .null, _ => []
  | .mk _ c l r, s =>
    (if c ≠ '$' then [(c, s)] else []) ++ (l.codes (s ++ ['0']) ++ r.codes (s ++ ['1']))

/-- No code of the table is a proper or improper beginning of the code of another
symbol. -/
def prefix_free (table : CharMap (List Char)) : Prop :=
  ∀ c₁ c₂ p₁ p₂, table.find c₁ = some p₁ → table.find c₂ = some p₂ → c₁ ≠ c₂ → ¬ p₁ <+: p₂

/-- The string `encode_msg` concatenates for `msg`: the table's code of every character
(nothing for a character without entry). -/
def concat_codes (table : CharMap (List Char)) (msg : List Char) : List Char :=
  msg.flatMap (fun ch => (table.find ch).getD [])

/-- The text `save_tree` writes for the nodes under a pointer: one line per node, the node
before its left subtree, the left subtree before the right one. -/
def node.records (fmt : ℚ → List Char) : node → List Char
  | .null => []
  | .mk p c l r => (fmt p ++ [' ', c, '\n']) ++ (l.records fmt ++ r.records fmt)

/-- The same tree with every weight `p` replaced by `f p`. -/
def node.reweigh (f : ℚ → ℚ) : node → node
  | .null => .null
  | .mk p c l r => .mk (f p) c (l.reweigh f) (r.reweigh f)

/-- The weight read back from the text written for `p`: `stod` applied to the output of
`operator<<` (`0` if `stod` throws). -/
def reread (fmt : ℚ → List Char) (stod : List Char → Option ℚ) (p : ℚ) : ℚ :=
  (stod (fmt p)).getD 0

/-- The text written for a weight contains neither the separator `' '` nor a line end,
and `stod` accepts it. -/
def text_ok (fmt : ℚ → List Char) (stod : List Char → Option ℚ) : Prop :=
  ∀ p, (∀ ch ∈ fmt p, ch ≠ ' ' ∧ ch ≠ '\n') ∧ (stod (fmt p)).isSome = true

/-- The text `operator<<` prints for the weights `1`, `1/2` and `1/4`, the ones that
occur in the worked examples below (any other weight is not needed there and is printed
as `0`). -/
def fmt_sample (p : ℚ) : List Char :=
  if p = 1 then ['1']
  else if p = 1 / 2 then ['0', '.', '5']
  else if p = 1 / 4 then ['0', '.', '2', '5']
  else ['0']

/-- The value `std::stod` returns on the texts of `fmt_sample`; `none` (it throws) on any
other text, in particular on the empty string. -/
def stod_sample (s : List Char) : Option ℚ :=
  if s = ['1'] then some 1
  else if s = ['0', '.', '5'] then some (1 / 2)
  else if s = ['0', '.', '2', '5'] then some (1 / 4)
  else if s = ['0'] then some 0
  else none

/-- The characters on which `decode_huff` moves its cursor. -/
def is_bit (ch : Char) : Bool := ch == '0' || ch == '1'

/-- The non-null nodes under a pointer in pre-order: the node, then the nodes of its left
subtree, then the nodes of its right subtree. -/
def node.preorder : node → List node
  | .null => []
  | .mk p c l r => node.mk p c l r :: (l.preorder ++ r.preorder)

/-- The record `save_tree` writes for one node (line 125): the weight, a blank, the
character and a line end. -/
def record (fmt : ℚ → List Char) (nd : node) : List Char :=
  fmt nd.proba ++ [' ', nd.c, '\n']

/-- The queue of `tree_create` after its `for` loop (lines 65-70): one leaf pushed per entry
of the table, in key order. -/
def leaf_queue (pq : List node) (charWeights : CharMap ℚ) : List node :=
  charWeights.foldl (fun pq elem => pq_push pq (node.leaf elem.2 elem.1)) pq

/-- The weight of the node in slot `i` of the vector of the queue. -/
def slot_weight (c : List node) (i : Nat) : ℚ := (c.getD i node.null).proba

/-- The first `n` slots form a heap for `node_comp` (`std::is_heap`): no parent compares
before its child, that is, no parent is heavier than its child. -/
def is_heap (n : Nat) (c : List node) : Prop :=
  ∀ i, 0 < i → i < n → slot_weight c ((i - 1) / 2) ≤ slot_weight c i

/-- Every node with a child has a left child no heavier than its right child. -/
def node.left_not_heavier : node → Bool
  | .null => true
  | .mk _ _ l r =>
    ((l.isNull && r.isNull) || decide (l.proba ≤ r.proba))
      && l.left_not_heavier && r.left_not_heavier

/-- The Kraft sum of a list of depths: the sum of `2^(-d)`. -/
def kraft (ds : List Nat) : ℚ := (ds.map (fun d => (1 / 2 : ℚ) ^ d)).sum

/-- The cost of an assignment of depths to weights: the sum of weight times depth. -/
def weighted_depth (ps : List (ℚ × Nat)) : ℚ := (ps.map (fun p => p.1 * (p.2 : ℚ))).sum

/-- The sum of the weights of all nodes strictly below a pointer; for a tree whose inner
weights add up this is the sum over the leaves of weight times depth. -/
def node.cost : node → ℚ
  | .null => 0
  | .mk _ _ l r => l.cost + r.cost + l.proba + r.proba

/-- The leaves under a pointer from left to right, each with its depth, counted from
`d` at the pointer. -/
def node.leaf_depths : node → Nat → List ((Char × ℚ) × Nat)
  | .null, _ => []
  | .mk p c l r, d =>
    if l.isNull && r.isNull then [((c, p), d)] else l.leaf_depths (d + 1) ++ r.leaf_depths (d + 1)

/-- The tree cut off after its first `k` nodes in pre-order: the nodes after them are
missing (`null`).  The second component is what is left of `k` after the nodes of the
tree. -/
def node.cut : node → Nat → node × Nat
  | .null, k => (.null, k)
  | .mk _ _ _ _, 0 => (.null, 0)
  | .mk p c l r, k + 1 =>
    (.mk p c (l.cut k).1 (r.cut (l.cut k).2).1, (r.cut (l.cut k).2).2)

/-- Some node carrying `'$'` lacks a child. -/
def node.has_missing_child : node → Bool
  | .null => false
  | .mk _ c l r =>
    (c == '$' && (l.isNull || r.isNull)) || l.has_missing_child || r.has_missing_child

/-! ## Lists and counting -/

theorem count_set_add {α : Type} [DecidableEq α] (l : List α) (i : Nat) (a b d : α)
    (h : i < l.length) :
    (l.set i a).count b + (if l.getD i d = b then 1 else 0)
      = l.count b + (if a = b then 1 else 0) := by
  induction l generalizing i with
  | nil => simp at h
  | cons x xs ih =>
    cases i with
    | zero =>
      simp only [List.set_cons_zero, List.count_cons, List.getD_cons_zero, beq_iff_eq]
      omega
    | succ i =>
      have := ih i (by simpa using h)
      simp only [List.set_cons_succ, List.count_cons, List.getD_cons_succ, beq_iff_eq]
      omega

theorem getD_set_ne {α : Type} (l : List α) (i j : Nat) (a d : α) (h : i ≠ j) :
    (l.set i a).getD j d = l.getD j d := by
  simp [List.getD_eq_getElem?_getD, List.getElem?_set_ne h]

/-- Moving the element at `j` into slot `i` and then writing `v` at `j` rearranges the
list obtained by writing `v` at `i`. -/
theorem set_set_getD_perm {α : Type} [DecidableEq α] (l : List α) (i j : Nat) (v d : α)
    (hi : i < l.length) (hj : j < l.length) :
    List.Perm ((l.set i (l.getD j d)).set j v) (l.set i v) := by
  by_cases hij : i = j
  · subst hij; simp
  · rw [List.perm_iff_count]
    intro a
    have h1 := count_set_add (l.set i (l.getD j d)) j v a d (by simpa using hj)
    have h2 := count_set_add l i (l.getD j d) a d hi
    have h3 := count_set_add l i v a d hi
    rw [getD_set_ne _ _ _ _ _ hij] at h1
    omega

/-! ## The priority queue keeps its elements -/

theorem push_heap_loop_spec (fuel : Nat) :
    ∀ (first : List node) (holeIndex topIndex : Nat) (value : node),
      holeIndex < first.length →
      List.Perm (push_heap_loop fuel first holeIndex topIndex value) (first.set holeIndex value)
      ∧ (push_heap_loop fuel first holeIndex topIndex value).length = first.length
      ∧ ∀ k, holeIndex < k →
          (push_heap_loop fuel first holeIndex topIndex value).getD k node.null
            = first.getD k node.null := by
  induction fuel with
  | zero =>
    intro first holeIndex topIndex value _
    refine ⟨List.Perm.refl _, by simp [push_heap_loop], ?_⟩
    intro k hk
    simp only [push_heap_loop]
    exact getD_set_ne _ _ _ _ _ (by omega)
  | succ fuel ih =>
    intro first holeIndex topIndex value hlt
    simp only [push_heap_loop]
    split
    · have hp : (holeIndex - 1) / 2 < first.length := by omega
      obtain ⟨h1, h2, h3⟩ := ih (first.set holeIndex (first.getD ((holeIndex - 1) / 2) node.null))
        ((holeIndex - 1) / 2) topIndex value (by simpa using hp)
      refine ⟨h1.trans (set_set_getD_perm _ _ _ _ _ hlt hp), by simpa using h2, ?_⟩
      intro k hk
      rw [h3 k (by omega)]
      exact getD_set_ne _ _ _ _ _ (by omega)
    · refine ⟨List.Perm.refl _, by simp, ?_⟩
      intro k hk
      exact getD_set_ne _ _ _ _ _ (by omega)

theorem adjust_heap_loop_spec (fuel : Nat) :
    ∀ (first : List node) (holeIndex secondChild len : Nat),
      holeIndex < len → len ≤ first.length →
      (∀ v, List.Perm ((adjust_heap_loop fuel first holeIndex secondChild len).1.set
              (adjust_heap_loop fuel first holeIndex secondChild len).2.1 v)
            (first.set holeIndex v))
      ∧ (adjust_heap_loop fuel first holeIndex secondChild len).1.length = first.length
      ∧ (adjust_heap_loop fuel first holeIndex secondChild len).2.1 < len
      ∧ ∀ k, len ≤ k →
          (adjust_heap_loop fuel first holeIndex secondChild len).1.getD k node.null
            = first.getD k node.null := by
  induction fuel with
  | zero =>
    intro first holeIndex secondChild len hlt _
    exact ⟨fun v => List.Perm.refl _, rfl, hlt, fun k _ => rfl⟩
  | succ fuel ih =>
    intro first holeIndex secondChild len hlt hlen
    simp only [adjust_heap_loop]
    split
    · rename_i hsc
      generalize hsc2 : (if node_comp (first.getD (2 * (secondChild + 1)) node.null)
          (first.getD (2 * (secondChild + 1) - 1) node.null) = true
          then 2 * (secondChild + 1) - 1 else 2 * (secondChild + 1)) = sc
      have hscl : sc < len := by
        rw [← hsc2]; split <;> omega
      obtain ⟨h1, h2, h3, h4⟩ := ih (first.set holeIndex (first.getD sc node.null)) sc sc len
        hscl (by simpa using hlen)
      refine ⟨fun v => (h1 v).trans
          (set_set_getD_perm _ _ _ _ _ (by omega) (by omega)), by simpa using h2, h3, ?_⟩
      intro k hk
      rw [h4 k hk]
      exact getD_set_ne _ _ _ _ _ (by omega)
    · exact ⟨fun v => List.Perm.refl _, rfl, hlt, fun k _ => rfl⟩

theorem adjust_heap_spec (first : List node) (holeIndex len : Nat) (value : node)
    (hlt : holeIndex < len) (hlen : len ≤ first.length) :
    List.Perm (adjust_heap first holeIndex len value) (first.set holeIndex value)
    ∧ (adjust_heap first holeIndex len value).length = first.length
    ∧ ∀ k, len ≤ k →
        (adjust_heap first holeIndex len value).getD k node.null = first.getD k node.null := by
  obtain ⟨h1, h2, h3, h4⟩ := adjust_heap_loop_spec len first holeIndex holeIndex len hlt hlen
  unfold adjust_heap
  generalize adjust_heap_loop len first holeIndex holeIndex len = res at h1 h2 h3 h4
  obtain ⟨f1, hole1, sc1⟩ := res
  simp only at h1 h2 h3 h4 ⊢
  split
  · rename_i hc
    have hh : 2 * (sc1 + 1) - 1 < len := by omega
    obtain ⟨p1, p2, p3⟩ := push_heap_loop_spec (2 * (sc1 + 1) - 1)
      (f1.set hole1 (f1.getD (2 * (sc1 + 1) - 1) node.null)) (2 * (sc1 + 1) - 1) holeIndex value
      (by simp; omega)
    refine ⟨?_, ?_, ?_⟩
    · exact (p1.trans (set_set_getD_perm _ _ _ _ _ (by omega) (by omega))).trans (h1 value)
    · simpa [push_heap_at, h2] using p2
    · intro k hk
      simp only [push_heap_at]
      rw [p3 k (by omega), getD_set_ne _ _ _ _ _ (by omega), h4 k hk]
  · obtain ⟨p1, p2, p3⟩ := push_heap_loop_spec hole1 f1 hole1 holeIndex value (by omega)
    refine ⟨p1.trans (h1 value), by simpa [push_heap_at, h2] using p2, ?_⟩
    intro k hk
    simp only [push_heap_at]
    rw [p3 k (by omega), h4 k hk]

theorem set_getD_self {α : Type} (l : List α) (i : Nat) (d : α) (h : i < l.length) :
    l.set i (l.getD i d) = l := by
  induction l generalizing i with
  | nil => simp at h
  | cons x xs ih =>
    cases i with
    | zero => simp
    | succ i => simpa using ih i (by simpa using h)

/-- The call `std::pop_heap` rearranges the vector and leaves the former top in the last
slot. -/
theorem pop_heap_spec (c : List node) (hc : c ≠ []) :
    List.Perm (pop_heap c) c ∧ (pop_heap c).length = c.length
    ∧ (pop_heap c).getD (c.length - 1) node.null = c.getD 0 node.null := by
  have hpos : 0 < c.length := List.length_pos.mpr hc
  unfold pop_heap
  split
  · rename_i hgt
    obtain ⟨h1, h2, h3⟩ := adjust_heap_spec (c.set (c.length - 1) (c.getD 0 node.null)) 0
      (c.length - 1) (c.getD (c.length - 1) node.null) (by omega) (by simp)
    refine ⟨?_, by simpa using h2, ?_⟩
    · refine h1.trans ((set_set_getD_perm c (c.length - 1) 0 _ node.null (by omega) hpos).trans ?_)
      rw [set_getD_self c _ _ (by omega)]
    · simp only at h3 ⊢
      rw [h3 _ (le_refl _)]
      simp [List.getD_eq_getElem?_getD, List.getElem?_set, show c.length - 1 < c.length by omega]
  · have h1 : c.length = 1 := by omega
    simp [h1]

/-- The call `pq.pop()` succeeds on a non-empty queue and removes exactly the element
`pq.top()` returns. -/
theorem pq_pop_spec (x : node) (xs : List node) :
    ∃ ys, pq_pop (x :: xs) = .ok ys ∧ List.Perm ys xs := by
  refine ⟨(pop_heap (x :: xs)).dropLast, rfl, ?_⟩
  obtain ⟨h1, h2, h3⟩ := pop_heap_spec (x :: xs) (by simp)
  have hne : pop_heap (x :: xs) ≠ [] := by
    intro h; rw [h] at h2; simp at h2
  have hlast : (pop_heap (x :: xs)).getLast? = some x := by
    rw [List.getLast?_eq_getElem?, h2]
    have hlt : (x :: xs).length - 1 < (pop_heap (x :: xs)).length := by rw [h2]; simp
    rw [List.getD_eq_getElem _ _ hlt] at h3
    rw [List.getElem?_eq_getElem hlt, h3]
    simp
  have happ := List.dropLast_append_getLast? x hlast
  have h4 : List.Perm (x :: (pop_heap (x :: xs)).dropLast) (x :: xs) := by
    refine List.Perm.trans ?_ h1
    conv_rhs => rw [← happ]
    exact (List.perm_append_singleton x _).symm
  exact h4.cons_inv

/-- The call `pq.push(x)` adds exactly `x`. -/
theorem pq_push_perm (pq : List node) (x : node) : List.Perm (pq_push pq x) (x :: pq) := by
  unfold pq_push push_heap push_heap_at
  have hlen : (pq ++ [x]).length - 1 < (pq ++ [x]).length := by simp
  obtain ⟨h1, _, _⟩ := push_heap_loop_spec ((pq ++ [x]).length - 1) (pq ++ [x])
    ((pq ++ [x]).length - 1) 0 ((pq ++ [x]).getD ((pq ++ [x]).length - 1) node.null) hlen
  refine h1.trans ?_
  rw [set_getD_self _ _ _ hlen]
  exact List.perm_append_singleton x pq

/-! ## The merge loop -/

theorem strict_ne_null {t : node} (h : t.strict = true) : t.isNull = false := by
  cases t <;> simp_all [node.strict, node.isNull]

theorem built_leaf (p : ℚ) (c : Char) : (node.leaf p c).built = true := by
  simp [node.built, node.leaf, node.strict, node.sentinel_ok, node.weights_ok, node.isNull]

theorem leaves_leaf (p : ℚ) (c : Char) : (node.leaf p c).leaves = [(c, p)] := by
  simp [node.leaf, node.leaves, node.isNull]

theorem built_merge {one two : node} (h1 : one.built = true) (h2 : two.built = true) :
    (merge one two).built = true := by
  simp only [node.built, Bool.and_eq_true] at h1 h2 ⊢
  obtain ⟨⟨s1, e1⟩, w1⟩ := h1
  obtain ⟨⟨s2, e2⟩, w2⟩ := h2
  have n1 := strict_ne_null s1
  have n2 := strict_ne_null s2
  unfold merge
  by_cases h : one.proba > two.proba
  · simp [h, node.strict, node.sentinel_ok, node.weights_ok, s1, s2, e1, e2, w1, w2, n1, n2,
      add_comm]
  · simp [h, node.strict, node.sentinel_ok, node.weights_ok, s1, s2, e1, e2, w1, w2, n1, n2]

theorem leaves_merge {one two : node} (h1 : one.strict = true) (h2 : two.strict = true) :
    List.Perm (merge one two).leaves (one.leaves ++ two.leaves) := by
  have n1 := strict_ne_null h1
  have n2 := strict_ne_null h2
  unfold merge
  by_cases h : one.proba > two.proba
  · simp only [h, if_true, node.leaves, n1, n2, Bool.and_self, Bool.false_eq_true, if_false]
    exact List.perm_append_comm
  · simp only [h, if_false, node.leaves, n1, n2, Bool.and_self, Bool.false_eq_true]
    exact List.Perm.refl _

/-- One pass of the merge loop on a queue of at least two nodes: it succeeds, takes two
nodes out and puts their merge in. -/
theorem tree_create_step_spec (pq : List node) (h : 1 < pq.length) :
    ∃ one two rest pq', List.Perm pq (one :: two :: rest)
      ∧ tree_create_step pq = .ok pq' ∧ List.Perm pq' (merge one two :: rest) := by
  match pq, h with
  | x :: xs, h =>
    obtain ⟨ys, hys, pys⟩ := pq_pop_spec x xs
    have hlen : ys.length = xs.length := pys.length_eq
    match ys, hys, pys, hlen with
    | [], _, _, hlen => simp at h hlen; omega
    | y :: ys', hys, pys, _ =>
      obtain ⟨zs, hzs, pzs⟩ := pq_pop_spec y ys'
      refine ⟨x, y, zs, pq_push zs (merge x y), ?_, ?_, pq_push_perm _ _⟩
      · exact (List.Perm.cons x pys.symm).trans
          (List.Perm.cons x (List.Perm.cons y pzs.symm))
      · simp only [tree_create_step, pq_top, bind, Except.bind, hys, hzs, pure, Except.pure]
        rfl

theorem flatMap_leaves_perm {l₁ l₂ : List node} (h : List.Perm l₁ l₂) :
    List.Perm (l₁.flatMap node.leaves) (l₂.flatMap node.leaves) :=
  List.Perm.flatMap_right _ h

/-- The merge loop, run on a non-empty queue of built trees with enough passes allowed,
ends with a single built tree whose leaves are those of the initial queue. -/
theorem tree_create_loop_spec (fuel : Nat) :
    ∀ pq : List node, pq.length ≤ fuel → pq ≠ [] → (∀ t ∈ pq, t.built = true) →
      ∃ root, tree_create_loop fuel pq = .ok [root] ∧ root.built = true
        ∧ List.Perm root.leaves (pq.flatMap node.leaves) := by
  induction fuel with
  | zero =>
    intro pq hlen hne _
    cases pq with
    | nil => exact absurd rfl hne
    | cons x xs => simp at hlen
  | succ fuel ih =>
    intro pq hlen hne hb
    simp only [tree_create_loop]
    split
    · rename_i hgt
      obtain ⟨one, two, rest, pq', hp, hstep, hp'⟩ := tree_create_step_spec pq hgt
      have hb1 : one.built = true := hb one (hp.symm.subset (by simp))
      have hb2 : two.built = true := hb two (hp.symm.subset (by simp))
      have hlen' : pq'.length ≤ fuel := by
        have := hp'.length_eq
        have := hp.length_eq
        simp at *
        omega
      have hne' : pq' ≠ [] := by
        intro hnil
        have := hp'.length_eq
        rw [hnil] at this
        simp at this
      have hb' : ∀ t ∈ pq', t.built = true := by
        intro t ht
        have := hp'.subset ht
        rcases List.mem_cons.mp this with h | h
        · rw [h]; exact built_merge hb1 hb2
        · exact hb t (hp.symm.subset (by simp [h]))
      obtain ⟨root, hr, hbr, hpr⟩ := ih pq' hlen' hne' hb'
      refine ⟨root, ?_, hbr, ?_⟩
      · simp only [hstep, bind, Except.bind, hr]
      · refine hpr.trans ((flatMap_leaves_perm hp').trans ?_)
        refine List.Perm.trans ?_ (flatMap_leaves_perm hp).symm
        have s1 : one.strict = true := by
          simp only [node.built, Bool.and_eq_true] at hb1; exact hb1.1.1
        have s2 : two.strict = true := by
          simp only [node.built, Bool.and_eq_true] at hb2; exact hb2.1.1
        simp only [List.flatMap_cons]
        rw [← List.append_assoc]
        exact List.Perm.append_right _ (leaves_merge s1 s2)
    · rename_i hle
      match pq, hne, hle, hb with
      | [x], _, _, hb =>
        exact ⟨x, rfl, hb x (by simp), by simp⟩
      | _ :: _ :: _, _, hle, _ => simp at hle

theorem push_leaves_perm (charWeights : CharMap ℚ) :
    ∀ pq : List node,
      List.Perm (charWeights.foldl (fun pq elem => pq_push pq (node.leaf elem.2 elem.1)) pq)
        (pq ++ charWeights.map (fun elem => node.leaf elem.2 elem.1)) := by
  induction charWeights with
  | nil => intro pq; simp
  | cons e es ih =>
    intro pq
    simp only [List.foldl_cons, List.map_cons]
    refine (ih _).trans ?_
    refine (List.Perm.append_right _ (pq_push_perm pq _)).trans ?_
    simp only [List.cons_append]
    exact List.perm_middle.symm

/-- The function `tree_create`, started on an empty queue with a non-empty table, leaves
exactly one node in the queue: a strict tree with sentinel inner nodes and additive weights
whose leaves are the entries of the table. -/
theorem tree_create_spec (charWeights : CharMap ℚ) (hne : charWeights ≠ []) :
    ∃ root, tree_create [] charWeights = .ok [root] ∧ root.built = true
      ∧ List.Perm root.leaves charWeights := by
  have hp := push_leaves_perm charWeights []
  simp only [List.nil_append] at hp
  unfold tree_create
  generalize charWeights.foldl (fun pq elem => pq_push pq (node.leaf elem.2 elem.1)) [] = pq0
    at hp
  have hne0 : pq0 ≠ [] := by
    intro h
    rw [h] at hp
    have := hp.length_eq
    simp only [List.length_nil, List.length_map] at this
    exact hne (List.length_eq_zero.mp this.symm)
  have hb0 : ∀ t ∈ pq0, t.built = true := by
    intro t ht
    have := hp.subset ht
    obtain ⟨e, _, he⟩ := List.mem_map.mp this
    rw [← he]; exact built_leaf _ _
  obtain ⟨root, hr, hbr, hpr⟩ := tree_create_loop_spec pq0.length pq0 (le_refl _) hne0 hb0
  refine ⟨root, hr, hbr, hpr.trans ((flatMap_leaves_perm hp).trans ?_)⟩
  rw [List.flatMap_map]
  simp [leaves_leaf, List.flatMap_singleton' ]

/-! ## The frequency table -/

theorem to_int_of_lt {n : Nat} (h : n < 2147483648) : to_int n = (n : Int) := by
  unfold to_int
  split <;> omega

theorem to_int_toNat_le (n : Nat) : (to_int n).toNat ≤ n := by
  unfold to_int
  split <;> omega

theorem to_int_nonpos {n : Nat} (h : 2147483648 ≤ n % 4294967296) : to_int n ≤ 0 := by
  unfold to_int
  split <;> omega

theorem incr_keys (m : CharMap ℚ) (k c : Char) :
    c ∈ (m.incr k).keys ↔ c = k ∨ c ∈ m.keys := by
  induction m with
  | nil => simp [CharMap.incr, CharMap.keys]
  | cons e es ih =>
    obtain ⟨k', v'⟩ := e
    simp only [CharMap.incr]
    split
    · simp [CharMap.keys]
    · split
      · rename_i h; subst h; simp [CharMap.keys]
      · simp only [CharMap.keys, List.map_cons, List.mem_cons] at ih ⊢
        rw [ih]; tauto

theorem incr_ordered (m : CharMap ℚ) (k : Char) (h : m.ordered) : (m.incr k).ordered := by
  induction m with
  | nil => simp [CharMap.incr, CharMap.ordered, CharMap.keys]
  | cons e es ih =>
    obtain ⟨k', v'⟩ := e
    simp only [CharMap.ordered, CharMap.keys, List.map_cons, List.pairwise_cons] at h
    obtain ⟨h1, h2⟩ := h
    simp only [CharMap.incr]
    split
    · rename_i hlt
      simp only [CharMap.ordered, CharMap.keys, List.map_cons, List.pairwise_cons,
        List.mem_cons]
      refine ⟨?_, h1, h2⟩
      intro a ha
      rcases ha with ha | ha
      · rw [ha]; exact hlt
      · exact lt_trans hlt (h1 a ha)
    · split
      · simp only [CharMap.ordered, CharMap.keys, List.map_cons, List.pairwise_cons]
        exact ⟨h1, h2⟩
      · rename_i hnlt hne
        simp only [CharMap.ordered, CharMap.keys, List.map_cons, List.pairwise_cons]
        refine ⟨?_, ih h2⟩
        intro a ha
        rcases (incr_keys es k a).mp ha with ha | ha
        · rw [ha]
          exact lt_of_le_of_ne (not_lt.mp hnlt) (Ne.symm hne)
        · exact h1 a ha

theorem find_eq_none_of_not_mem {β : Type} (m : CharMap β) (c : Char) (h : c ∉ m.keys) :
    m.find c = none := by
  induction m with
  | nil => rfl
  | cons e es ih =>
    obtain ⟨k', v'⟩ := e
    simp only [CharMap.keys, List.map_cons, List.mem_cons, not_or] at h
    simp only [CharMap.find, h.1, if_false]
    exact ih h.2

theorem find_isSome_iff {β : Type} (m : CharMap β) (c : Char) :
    (m.find c).isSome = true ↔ c ∈ m.keys := by
  induction m with
  | nil => simp [CharMap.find, CharMap.keys]
  | cons e es ih =>
    obtain ⟨k', v'⟩ := e
    simp only [CharMap.find, CharMap.keys, List.map_cons, List.mem_cons]
    split
    · rename_i h; simp [h]
    · rename_i h
      simp only [CharMap.keys] at ih
      rw [ih]; simp [h]

/-- Value of an entry after `m[k]++` on a map with increasing keys. -/
theorem find_incr (m : CharMap ℚ) (k c : Char) (h : m.ordered) :
    (m.incr k).find c = if c = k then some ((m.find k).getD 0 + 1) else m.find c := by
  induction m with
  | nil =>
    simp only [CharMap.incr, CharMap.find]
    split <;> simp
  | cons e es ih =>
    obtain ⟨k', v'⟩ := e
    simp only [CharMap.ordered, CharMap.keys, List.map_cons, List.pairwise_cons] at h
    obtain ⟨h1, h2⟩ := h
    simp only [CharMap.incr]
    split
    · rename_i hlt
      have hk : k ≠ k' := ne_of_lt hlt
      have hnone : CharMap.find es k = none := by
        apply find_eq_none_of_not_mem
        intro hmem
        exact absurd (h1 k hmem) (not_lt.mpr (le_of_lt hlt))
      by_cases hc : c = k
      · subst hc; simp [CharMap.find, hk, hnone]
      · simp [CharMap.find, hk, hnone, hc]
    · split
      · rename_i _ heq
        subst heq
        by_cases hc : c = k
        · subst hc; simp [CharMap.find]
        · simp [CharMap.find, hc]
      · rename_i _ hne
        simp only [CharMap.find, hne, if_false]
        rw [ih h2]
        by_cases hc : c = k
        · subst hc; simp [hne]
        · simp [hc]

theorem sum_incr (m : CharMap ℚ) (k : Char) :
    ((m.incr k).map Prod.snd).sum = (m.map Prod.snd).sum + 1 := by
  induction m with
  | nil => simp [CharMap.incr]
  | cons e es ih =>
    obtain ⟨k', v'⟩ := e
    simp only [CharMap.incr]
    split
    · simp; ring
    · split
      · simp; ring
      · simp only [List.map_cons, List.sum_cons, ih]; ring

/-- The counting loop of `calc_probas`: keys, order, values and total after counting the
list `l` into the map `m`. -/
theorem count_loop_spec (l : List Char) :
    ∀ m : CharMap ℚ, m.ordered →
      (l.foldl CharMap.incr m).ordered
      ∧ (∀ c, c ∈ (l.foldl CharMap.incr m).keys ↔ c ∈ l ∨ c ∈ m.keys)
      ∧ (∀ c, ((l.foldl CharMap.incr m).find c).getD 0 = (m.find c).getD 0 + (l.count c : ℚ))
      ∧ ((l.foldl CharMap.incr m).map Prod.snd).sum = (m.map Prod.snd).sum + (l.length : ℚ) := by
  induction l with
  | nil => intro m hm; simp [hm]
  | cons x xs ih =>
    intro m hm
    obtain ⟨h1, h2, h3, h4⟩ := ih (m.incr x) (incr_ordered m x hm)
    simp only [List.foldl_cons]
    refine ⟨h1, ?_, ?_, ?_⟩
    · intro c
      rw [h2 c, incr_keys]
      simp only [List.mem_cons]
      tauto
    · intro c
      rw [h3 c, find_incr m x c hm, List.count_cons]
      by_cases hc : c = x
      · subst hc; simp; ring
      · have hc2 : ¬ (x = c) := fun h => hc h.symm
        simp [hc, hc2]
    · rw [h4, sum_incr]
      simp only [List.length_cons]
      push_cast
      ring

theorem keys_map_snd {β γ : Type} (m : CharMap β) (f : β → γ) :
    CharMap.keys (m.map (fun elem => (elem.1, f elem.2))) = m.keys := by
  simp [CharMap.keys, List.map_map, Function.comp_def]

theorem find_map_snd {β γ : Type} (m : CharMap β) (f : β → γ) (c : Char) :
    CharMap.find (m.map (fun elem => (elem.1, f elem.2))) c = (m.find c).map f := by
  induction m with
  | nil => rfl
  | cons e es ih =>
    obtain ⟨k', v'⟩ := e
    simp only [List.map_cons, CharMap.find]
    split
    · rfl
    · exact ih

theorem sum_map_div (l : List ℚ) (d : ℚ) : (l.map (fun v => v / d)).sum = l.sum / d := by
  induction l with
  | nil => simp
  | cons x xs ih => simp only [List.map_cons, List.sum_cons, ih]; ring

/-- The function `calc_probas` on an empty table: what it counts is the first
`(int) msg.length()` characters, and every count is divided by that number. -/
theorem calc_probas_eq (msg : List Char) :
    calc_probas msg [] =
      ((msg.take (to_int msg.length).toNat).foldl CharMap.incr []).map
        (fun elem => (elem.1, elem.2 / (1 * ((to_int msg.length : Int) : ℚ)))) := rfl

/-- The values of a non-empty table produced by `calc_probas` add up to one. -/
theorem calc_probas_sum (msg : List Char) (h : calc_probas msg [] ≠ []) :
    ((calc_probas msg []).map Prod.snd).sum = 1 := by
  rw [calc_probas_eq] at h ⊢
  have hle := to_int_toNat_le msg.length
  obtain ⟨_, _, _, h4⟩ := count_loop_spec (msg.take (to_int msg.length).toNat) []
    (by simp [CharMap.ordered, CharMap.keys])
  have hpos : 0 < (to_int msg.length).toNat := by
    rcases Nat.eq_zero_or_pos (to_int msg.length).toNat with h0 | h0
    · rw [h0] at h; simp at h
    · exact h0
  rw [List.map_map]
  have hfun : (Prod.snd ∘ fun elem : Char × ℚ =>
      (elem.1, elem.2 / (1 * ((to_int msg.length : Int) : ℚ))))
      = (fun v : ℚ => v / (1 * ((to_int msg.length : Int) : ℚ))) ∘ Prod.snd := by
    funext e; rfl
  rw [hfun, ← List.map_map, sum_map_div, h4]
  simp only [List.map_nil, List.sum_nil, zero_add, List.length_take, one_mul]
  rw [min_eq_left hle]
  have hcast : (((to_int msg.length).toNat : Nat) : ℚ) = ((to_int msg.length : Int) : ℚ) := by
    have : (((to_int msg.length).toNat : Nat) : Int) = to_int msg.length :=
      Int.toNat_of_nonneg (by omega)
    exact_mod_cast this
  rw [hcast]
  have hne : ((to_int msg.length : Int) : ℚ) ≠ 0 := by
    have : to_int msg.length ≠ 0 := by omega
    exact_mod_cast this
  exact div_self hne

/-- The function `calc_probas` on a message shorter than `2^31` characters: keys,
values and order of the table. -/
theorem calc_probas_spec (msg : List Char) (hlen : msg.length < 2147483648) :
    (calc_probas msg []).ordered
    ∧ (∀ c, c ∈ (calc_probas msg []).keys ↔ c ∈ msg)
    ∧ (∀ c, c ∈ msg →
        (calc_probas msg []).find c = some ((msg.count c : ℚ) / (msg.length : ℚ))) := by
  have hti : to_int msg.length = (msg.length : Int) := to_int_of_lt hlen
  rw [calc_probas_eq, hti]
  simp only [Int.toNat_ofNat, List.take_length, Int.cast_natCast, one_mul]
  obtain ⟨h1, h2, h3, _⟩ := count_loop_spec msg [] (by simp [CharMap.ordered, CharMap.keys])
  have hkeys := keys_map_snd (msg.foldl CharMap.incr []) (fun v : ℚ => v / (msg.length : ℚ))
  have hfind := find_map_snd (msg.foldl CharMap.incr []) (fun v : ℚ => v / (msg.length : ℚ))
  beta_reduce at hkeys hfind
  refine ⟨?_, ?_, ?_⟩
  · unfold CharMap.ordered
    rw [hkeys]
    exact h1
  · intro c
    rw [hkeys, h2 c]
    simp [CharMap.keys]
  · intro c hc
    rw [hfind]
    have hk : c ∈ (msg.foldl CharMap.incr []).keys := (h2 c).mpr (Or.inl hc)
    have hs := (find_isSome_iff _ c).mpr hk
    obtain ⟨v, hv⟩ := Option.isSome_iff_exists.mp hs
    have h3c := h3 c
    rw [hv] at h3c
    simp only [Option.getD_some, CharMap.find, Option.getD_none, zero_add] at h3c
    rw [hv, h3c]
    rfl

/-! ## Shape and weights of built trees -/

theorem num_leaves_eq (t : node) : t.num_leaves = t.leaves.length := by
  induction t with
  | null => rfl
  | mk p c l r ihl ihr =>
    simp only [node.num_leaves, node.leaves]
    split
    · rfl
    · simp [ihl, ihr]

theorem num_internal_succ (t : node) (h : t.strict = true) :
    t.num_internal + 1 = t.num_leaves := by
  induction t with
  | null => simp [node.strict] at h
  | mk p c l r ihl ihr =>
    simp only [node.num_leaves, node.num_internal]
    simp only [node.strict, Bool.or_eq_true, Bool.and_eq_true] at h
    split
    · rfl
    · rename_i hn
      rcases h with h | h
      · exact absurd (by simpa using h) hn
      · have := ihl h.1
        have := ihr h.2
        omega

theorem proba_eq_sum_leaves (t : node) (hs : t.strict = true) (hw : t.weights_ok = true) :
    t.proba = (t.leaves.map Prod.snd).sum := by
  induction t with
  | null => simp [node.strict] at hs
  | mk p c l r ihl ihr =>
    simp only [node.strict, Bool.or_eq_true, Bool.and_eq_true] at hs
    simp only [node.weights_ok, Bool.and_eq_true, Bool.or_eq_true, decide_eq_true_eq] at hw
    simp only [node.leaves, node.proba]
    split
    · simp
    · rename_i hn
      rcases hs with hs | hs
      · exact absurd (by simpa using hs) hn
      · rcases hw.1.1 with h | h
        · exact absurd (by simpa using h) hn
        · rw [h, ihl hs.1 hw.1.2, ihr hs.2 hw.2]
          simp

/-- Whenever `main` obtains a root from `tree_create`, the table was non-empty and the
root is a built tree over the entries of the table. -/
theorem tree_root_ok {charWeights : CharMap ℚ} {root : node}
    (h : tree_root charWeights = .ok root) :
    charWeights ≠ [] ∧ root.built = true ∧ List.Perm root.leaves charWeights := by
  by_cases hne : charWeights = []
  · subst hne
    simp [tree_root, tree_create, tree_create_loop, bind, Except.bind, pure, Except.pure,
      pq_top] at h
  · obtain ⟨r, hr, hb, hp⟩ := tree_create_spec charWeights hne
    simp only [tree_root, hr, bind, Except.bind, pq_top, Except.ok.injEq] at h
    subst h
    exact ⟨hne, hb, hp⟩

theorem tree_root_of_ne_nil {charWeights : CharMap ℚ} (hne : charWeights ≠ []) :
    ∃ root, tree_root charWeights = .ok root := by
  obtain ⟨r, hr, _, _⟩ := tree_create_spec charWeights hne
  exact ⟨r, by simp only [tree_root, hr, bind, Except.bind, pq_top]⟩

/-! ## The code table -/

theorem insert_keys {β : Type} (m : CharMap β) (k c : Char) (v : β) :
    c ∈ (m.insert k v).keys ↔ c = k ∨ c ∈ m.keys := by
  induction m with
  | nil => simp [CharMap.insert, CharMap.keys]
  | cons e es ih =>
    obtain ⟨k', v'⟩ := e
    simp only [CharMap.insert]
    split
    · simp [CharMap.keys]
    · split
      · rename_i h; subst h; simp [CharMap.keys]
      · simp only [CharMap.keys, List.map_cons, List.mem_cons] at ih ⊢
        rw [ih]; tauto

theorem insert_ordered {β : Type} (m : CharMap β) (k : Char) (v : β) (h : m.ordered) :
    (m.insert k v).ordered := by
  induction m with
  | nil => simp [CharMap.insert, CharMap.ordered, CharMap.keys]
  | cons e es ih =>
    obtain ⟨k', v'⟩ := e
    simp only [CharMap.ordered, CharMap.keys, List.map_cons, List.pairwise_cons] at h
    obtain ⟨h1, h2⟩ := h
    simp only [CharMap.insert]
    split
    · rename_i hlt
      simp only [CharMap.ordered, CharMap.keys, List.map_cons, List.pairwise_cons,
        List.mem_cons]
      refine ⟨?_, h1, h2⟩
      intro a ha
      rcases ha with ha | ha
      · rw [ha]; exact hlt
      · exact lt_trans hlt (h1 a ha)
    · split
      · simp only [CharMap.ordered, CharMap.keys, List.map_cons, List.pairwise_cons]
        exact ⟨h1, h2⟩
      · rename_i hnlt hne
        simp only [CharMap.ordered, CharMap.keys, List.map_cons, List.pairwise_cons]
        refine ⟨?_, ih h2⟩
        intro a ha
        rcases (insert_keys es k a v).mp ha with ha | ha
        · rw [ha]
          exact lt_of_le_of_ne (not_lt.mp hnlt) (Ne.symm hne)
        · exact h1 a ha

/-- Lookup after `insert` on a map with increasing keys: an existing entry wins. -/
theorem find_insert {β : Type} (m : CharMap β) (k c : Char) (v : β) (h : m.ordered) :
    (m.insert k v).find c =
      match m.find c with
      | some x => some x
      | none => if c = k then some v else none := by
  induction m with
  | nil => simp [CharMap.insert, CharMap.find]
  | cons e es ih =>
    obtain ⟨k', v'⟩ := e
    simp only [CharMap.ordered, CharMap.keys, List.map_cons, List.pairwise_cons] at h
    obtain ⟨h1, h2⟩ := h
    simp only [CharMap.insert]
    split
    · rename_i hlt
      have hk : k ≠ k' := ne_of_lt hlt
      have hnone : CharMap.find es k = none := by
        apply find_eq_none_of_not_mem
        intro hmem
        exact absurd (h1 k hmem) (not_lt.mpr (le_of_lt hlt))
      by_cases hc : c = k
      · subst hc; simp [CharMap.find, hk, hnone]
      · by_cases hc' : c = k'
        · simp [CharMap.find, hc, hc', Ne.symm hk]
        · simp only [CharMap.find, hc, hc', if_false]
          cases CharMap.find es c <;> simp [hc]
    · split
      · rename_i _ heq
        subst heq
        by_cases hc : c = k
        · subst hc; simp [CharMap.find]
        · simp only [CharMap.find, hc, if_false]
          cases CharMap.find es c <;> simp [hc]
      · rename_i _ hne
        by_cases hc' : c = k'
        · simp [CharMap.find, hc']
        · simp only [CharMap.find, hc', if_false]
          exact ih h2

/-- Lookup after a run of `insert`s: the map's own entry if there is one, otherwise the
first inserted entry with that key. -/
theorem find_foldl_insert {β : Type} (es : List (Char × β)) :
    ∀ (m : CharMap β), m.ordered → ∀ c,
      (es.foldl (fun m e => m.insert e.1 e.2) m).ordered
      ∧ (es.foldl (fun m e => m.insert e.1 e.2) m).find c =
        match m.find c with
        | some x => some x
        | none => CharMap.find es c := by
  induction es with
  | nil =>
    intro m hm c
    refine ⟨hm, ?_⟩
    cases h : CharMap.find m c <;> simp [CharMap.find, h]
  | cons e es ih =>
    intro m hm c
    obtain ⟨k, v⟩ := e
    obtain ⟨h1, h2⟩ := ih (m.insert k v) (insert_ordered m k v hm) c
    simp only [List.foldl_cons]
    refine ⟨h1, ?_⟩
    rw [h2, find_insert m k c v hm]
    cases h : CharMap.find m c with
    | some x => simp
    | none =>
      by_cases hc : c = k
      · simp [CharMap.find, hc]
      · simp [CharMap.find, hc]

/-- The function `traverse_tree` inserts its visits in order. -/
theorem traverse_tree_eq (t : node) :
    ∀ (s : List Char) (m : CharMap (List Char)),
      traverse_tree t s m = (t.codes s).foldl (fun m e => m.insert e.1 e.2) m := by
  induction t with
  | null => intro s m; rfl
  | mk p c l r ihl ihr =>
    intro s m
    simp only [traverse_tree, node.codes, List.foldl_append, ihl, ihr]
    split <;> simp

/-- The table `traverse_tree` fills from the empty map: increasing keys, and the entry of a
character is the string of its first visit. -/
theorem traverse_tree_find (t : node) (c : Char) :
    (traverse_tree t [] []).ordered
    ∧ (traverse_tree t [] []).find c = CharMap.find (t.codes []) c := by
  rw [traverse_tree_eq]
  have h := find_foldl_insert (t.codes []) [] (by simp [CharMap.ordered, CharMap.keys]) c
  simpa [CharMap.find] using h

theorem find_mem {β : Type} (m : CharMap β) (c : Char) (v : β) (h : m.find c = some v) :
    (c, v) ∈ m := by
  induction m with
  | nil => simp [CharMap.find] at h
  | cons e es ih =>
    obtain ⟨k', v'⟩ := e
    simp only [CharMap.find] at h
    split at h
    · rename_i hc
      simp only [Option.some.injEq] at h
      simp [hc, h]
    · exact List.mem_cons_of_mem _ (ih h)

theorem follow_null (q : List Char) : node.null.follow q = node.null := by
  cases q <;> rfl

theorem follow_nil (t : node) : t.follow [] = t := by
  cases t <;> rfl

theorem follow_append (t : node) (q₁ q₂ : List Char) :
    t.follow (q₁ ++ q₂) = (t.follow q₁).follow q₂ := by
  induction q₁ generalizing t with
  | nil => simp [follow_nil]
  | cons ch q ih =>
    cases t with
    | null => simp [node.follow, follow_null]
    | mk p c l r =>
      simp only [List.cons_append, node.follow]
      split
      · exact ih l
      · split
        · exact ih r
        · simp [follow_null]

/-- In a tree with sentinel inner nodes every visit recorded by `traverse_tree` is a leaf,
and its string is the accumulated string followed by the path to that leaf. -/
theorem codes_sound (t : node) (hs : t.sentinel_ok = true) :
    ∀ (s : List Char) (c : Char) (p : List Char), (c, p) ∈ t.codes s →
      ∃ q, p = s ++ q ∧ (t.follow q).isLeaf = true ∧ (t.follow q).c = c := by
  induction t with
  | null => intro s c p h; simp [node.codes] at h
  | mk w cc l r ihl ihr =>
    intro s c p h
    simp only [node.sentinel_ok, Bool.and_eq_true, Bool.or_eq_true, beq_iff_eq] at hs
    obtain ⟨⟨hs0, hsl⟩, hsr⟩ := hs
    simp only [node.codes, List.mem_append] at h
    rcases h with h | h | h
    · split at h
      · rename_i hcc
        simp only [List.mem_singleton, Prod.mk.injEq] at h
        rcases hs0 with hleaf | hd
        · exact ⟨[], by simp [h.2], by simpa [node.follow, node.isLeaf] using hleaf,
            by simp [node.follow, node.c, h.1]⟩
        · exact absurd hd hcc
      · simp at h
    · obtain ⟨q, hq, hl, hc⟩ := ihl hsl _ c p h
      exact ⟨'0' :: q, by simp [hq], by simpa [node.follow] using hl,
        by simpa [node.follow] using hc⟩
    · obtain ⟨q, hq, hl, hc⟩ := ihr hsr _ c p h
      exact ⟨'1' :: q, by simp [hq], by simpa [node.follow] using hl,
        by simpa [node.follow] using hc⟩

/-- Every leaf whose character is not `'$'` is visited, with the path to it. -/
theorem codes_complete (t : node) :
    ∀ (s q : List Char), (t.follow q).isLeaf = true → (t.follow q).c ≠ '$' →
      ((t.follow q).c, s ++ q) ∈ t.codes s := by
  induction t with
  | null => intro s q h; simp [follow_null, node.isLeaf] at h
  | mk w cc l r ihl ihr =>
    intro s q h hc
    cases q with
    | nil =>
      simp only [node.follow, node.c] at hc ⊢
      simp [node.codes, hc]
    | cons ch q =>
      simp only [node.follow] at h hc ⊢
      simp only [node.codes, List.mem_append]
      split at h
      · rename_i h0
        subst h0
        simp only [if_true] at hc ⊢
        right; left
        have := ihl (s ++ ['0']) q h hc
        simpa using this
      · split at h
        · rename_i _ h1
          subst h1
          simp only [if_true, Char.reduceEq, if_false] at hc ⊢
          right; right
          have := ihr (s ++ ['1']) q h hc
          simpa using this
        · simp [node.isLeaf] at h

theorem follow_leaf_cons (t : node) (h : t.isLeaf = true) (ch : Char) (q : List Char) :
    t.follow (ch :: q) = node.null := by
  cases t with
  | null => rfl
  | mk w c l r =>
    simp only [node.isLeaf, Bool.and_eq_true] at h
    cases l <;> cases r <;> simp [node.isNull] at h
    simp only [node.follow]
    split
    · exact follow_null q
    · split
      · exact follow_null q
      · rfl

/-- Two paths that both end on a leaf: if one begins the other they are the same path. -/
theorem leaf_paths_prefix (t : node) (q₁ q₂ : List Char) (h₁ : (t.follow q₁).isLeaf = true)
    (h₂ : (t.follow q₂).isLeaf = true) (hp : q₁ <+: q₂) : q₁ = q₂ := by
  obtain ⟨r, hr⟩ := hp
  subst hr
  cases r with
  | nil => simp
  | cons ch r =>
    rw [follow_append, follow_leaf_cons _ h₁] at h₂
    simp [node.isLeaf] at h₂

/-- The table read off a tree with sentinel inner nodes is free of beginnings. -/
theorem prefix_free_of_sentinel (t : node) (hs : t.sentinel_ok = true) :
    prefix_free (traverse_tree t [] []) := by
  intro c₁ c₂ p₁ p₂ h₁ h₂ hne hp
  rw [(traverse_tree_find t c₁).2] at h₁
  rw [(traverse_tree_find t c₂).2] at h₂
  obtain ⟨q₁, hq₁, hl₁, hc₁⟩ := codes_sound t hs [] c₁ p₁ (find_mem _ _ _ h₁)
  obtain ⟨q₂, hq₂, hl₂, hc₂⟩ := codes_sound t hs [] c₂ p₂ (find_mem _ _ _ h₂)
  simp only [List.nil_append] at hq₁ hq₂
  subst hq₁ hq₂
  have := leaf_paths_prefix t p₁ p₂ hl₁ hl₂ hp
  subst this
  exact hne (hc₁.symm.trans hc₂)

/-! ## Encoding and decoding -/

theorem isLeaf_eq_false_of_null : node.null.isLeaf = false := rfl

theorem decode_step_zero (root : node) (w : ℚ) (c : Char) (l r : node) (out : List Char) :
    decode_step root (node.mk w c l r, out) '0'
      = .ok (if l.isLeaf then (root, out ++ [l.c]) else (l, out)) := by
  cases l with
  | null => rfl
  | mk w' c' l' r' => cases l' <;> cases r' <;> rfl

theorem decode_step_one (root : node) (w : ℚ) (c : Char) (l r : node) (out : List Char) :
    decode_step root (node.mk w c l r, out) '1'
      = .ok (if r.isLeaf then (root, out ++ [r.c]) else (r, out)) := by
  cases r with
  | null => rfl
  | mk w' c' l' r' => cases l' <;> cases r' <;> rfl

theorem decode_step_other (root t : node) (out : List Char) (ch : Char) (h0 : ch ≠ '0')
    (h1 : ch ≠ '1') :
    decode_step root (t, out) ch
      = .ok (if t.isLeaf then (root, out ++ [t.c]) else (t, out)) := by
  cases t with
  | null => simp [decode_step, h0, h1, node.isLeaf, bind, Except.bind, pure, Except.pure]
  | mk w' c' l' r' =>
    cases l' <;> cases r' <;>
      simp [decode_step, h0, h1, node.isLeaf, node.isNull, node.c, bind, Except.bind, pure,
        Except.pure]

theorem decode_step_null_zero (root : node) (out : List Char) :
    decode_step root (node.null, out) '0' = .error Failure.null_dereference := rfl

theorem decode_step_null_one (root : node) (out : List Char) :
    decode_step root (node.null, out) '1' = .error Failure.null_dereference := rfl

/-- From a node that has a child, the bits of a path to a leaf make the loop of
`decode_huff` print that leaf's character and return the cursor to the root. -/
theorem decode_path (root : node) :
    ∀ (q : List Char) (t : node) (out rest : List Char),
      t.isLeaf = false → (t.follow q).isLeaf = true →
      List.foldlM (decode_step root) (t, out) (q ++ rest)
        = List.foldlM (decode_step root) (root, out ++ [(t.follow q).c]) rest := by
  intro q
  induction q with
  | nil =>
    intro t out rest h1 h2
    rw [follow_nil] at h2
    rw [h1] at h2
    exact absurd h2 (by simp)
  | cons ch q ih =>
    intro t out rest h1 h2
    cases t with
    | null => simp [node.follow, node.isLeaf] at h2
    | mk w c l r =>
      simp only [node.follow] at h2 ⊢
      simp only [List.cons_append, List.foldlM_cons]
      by_cases h0 : ch = '0'
      · subst h0
        simp only [if_true] at h2 ⊢
        rw [decode_step_zero]
        simp only [bind, Except.bind]
        by_cases hl : l.isLeaf = true
        · cases q with
          | nil => simp [hl, follow_nil]
          | cons ch' q' =>
            rw [follow_leaf_cons l hl] at h2
            simp [node.isLeaf] at h2
        · have hl' : l.isLeaf = false := by simpa using hl
          simp only [hl', Bool.false_eq_true, if_false]
          exact ih l out rest hl' h2
      · by_cases h1' : ch = '1'
        · subst h1'
          simp only [Char.reduceEq, if_false, if_true] at h2 ⊢
          rw [decode_step_one]
          simp only [bind, Except.bind]
          by_cases hr : r.isLeaf = true
          · cases q with
            | nil => simp [hr, follow_nil]
            | cons ch' q' =>
              rw [follow_leaf_cons r hr] at h2
              simp [node.isLeaf] at h2
          · have hr' : r.isLeaf = false := by simpa using hr
            simp only [hr', Bool.false_eq_true, if_false]
            exact ih r out rest hr' h2
        · simp [h0, h1', node.isLeaf] at h2

/-- The loop of `encode_msg` when every character has an entry. -/
theorem encode_loop_ok (table : CharMap (List Char)) :
    ∀ (l st : List Char), (∀ ch ∈ l, (table.find ch).isSome = true) →
      List.foldlM
        (fun st ch =>
          match table.find ch with
          | some code => (pure (st ++ code) : Except Failure (List Char))
          | none => throw Failure.end_iterator_dereference)
        st l
      = .ok (st ++ concat_codes table l) := by
  intro l
  induction l with
  | nil => intro st _; simp [concat_codes, pure, Except.pure]
  | cons x xs ih =>
    intro st h
    obtain ⟨code, hcode⟩ := Option.isSome_iff_exists.mp (h x (by simp))
    simp only [List.foldlM_cons, hcode, bind, Except.bind, pure, Except.pure]
    have := ih (st ++ code) (fun ch hch => h ch (List.mem_cons_of_mem _ hch))
    simp only [pure, Except.pure] at this
    rw [this]
    simp [concat_codes, hcode]

/-- The loop of `encode_msg` when some character has no entry: the `end()` iterator is
dereferenced. -/
theorem encode_loop_missing (table : CharMap (List Char)) :
    ∀ (l st : List Char), (∃ ch ∈ l, table.find ch = none) →
      List.foldlM
        (fun st ch =>
          match table.find ch with
          | some code => (pure (st ++ code) : Except Failure (List Char))
          | none => throw Failure.end_iterator_dereference)
        st l
      = .error Failure.end_iterator_dereference := by
  intro l
  induction l with
  | nil => intro st h; simp at h
  | cons x xs ih =>
    intro st h
    simp only [List.foldlM_cons]
    cases hx : table.find x with
    | none => rfl
    | some code =>
      obtain ⟨ch, hch, hnone⟩ := h
      have hmem : ch ∈ xs := by
        rcases List.mem_cons.mp hch with h' | h'
        · subst h'; rw [hx] at hnone; simp at hnone
        · exact h'
      simp only [bind, Except.bind, pure, Except.pure]
      exact ih (st ++ code) ⟨ch, hmem, hnone⟩

/-- Decoding a concatenation of leaf paths prints the characters of those leaves. -/
theorem decode_concat (root : node) (table : CharMap (List Char)) (hroot : root.isLeaf = false) :
    ∀ (msg out rest : List Char),
      (∀ ch ∈ msg, ∃ q, table.find ch = some q ∧ (root.follow q).isLeaf = true
        ∧ (root.follow q).c = ch) →
      List.foldlM (decode_step root) (root, out) (concat_codes table msg ++ rest)
        = List.foldlM (decode_step root) (root, out ++ msg) rest := by
  intro msg
  induction msg with
  | nil => intro out rest _; simp [concat_codes]
  | cons x xs ih =>
    intro out rest h
    obtain ⟨q, hq, hl, hc⟩ := h x (by simp)
    have hcc : concat_codes table (x :: xs) = q ++ concat_codes table xs := by
      simp [concat_codes, hq]
    rw [hcc, List.append_assoc, decode_path root q root out _ hroot hl, hc,
      ih (out ++ [x]) rest (fun ch hch => h ch (List.mem_cons_of_mem _ hch))]
    simp

theorem leaves_follow (t : node) :
    ∀ (c : Char) (w : ℚ), (c, w) ∈ t.leaves →
      ∃ q, (t.follow q).isLeaf = true ∧ (t.follow q).c = c := by
  induction t with
  | null => intro c w h; simp [node.leaves] at h
  | mk p cc l r ihl ihr =>
    intro c w h
    simp only [node.leaves] at h
    split at h
    · rename_i hleaf
      simp only [List.mem_singleton, Prod.mk.injEq] at h
      exact ⟨[], by simpa [follow_nil, node.isLeaf] using hleaf, by simp [follow_nil, node.c, h.1]⟩
    · rcases List.mem_append.mp h with h | h
      · obtain ⟨q, h1, h2⟩ := ihl c w h
        exact ⟨'0' :: q, by simpa [node.follow] using h1, by simpa [node.follow] using h2⟩
      · obtain ⟨q, h1, h2⟩ := ihr c w h
        exact ⟨'1' :: q, by simpa [node.follow] using h1, by simpa [node.follow] using h2⟩

theorem follow_leaves (t : node) :
    ∀ q, (t.follow q).isLeaf = true → ((t.follow q).c, (t.follow q).proba) ∈ t.leaves := by
  induction t with
  | null => intro q h; simp [follow_null, node.isLeaf] at h
  | mk p cc l r ihl ihr =>
    intro q h
    cases q with
    | nil =>
      rw [follow_nil] at h ⊢
      simp only [node.isLeaf] at h
      simp [node.leaves, h, node.c, node.proba]
    | cons ch q =>
      have hnl : (node.mk p cc l r).isLeaf = false := by
        by_contra hc
        rw [follow_leaf_cons _ (by simpa using hc)] at h
        simp [node.isLeaf] at h
      simp only [node.isLeaf] at hnl
      simp only [node.follow] at h ⊢
      simp only [node.leaves, hnl, Bool.false_eq_true, if_false, List.mem_append]
      by_cases h0 : ch = '0'
      · simp only [h0, if_true] at h ⊢
        exact Or.inl (ihl q h)
      · by_cases h1 : ch = '1'
        · simp only [h1, Char.reduceEq, if_true, if_false] at h ⊢
          exact Or.inr (ihr q h)
        · simp [h0, h1, node.isLeaf] at h

theorem isLeaf_false_of_two_leaves (t : node) (h : 2 ≤ t.leaves.length) : t.isLeaf = false := by
  cases t with
  | null => rfl
  | mk p c l r =>
    simp only [node.leaves] at h
    simp only [node.isLeaf]
    split at h
    · simp at h
    · rename_i hn; simpa using hn

/-- In a tree with sentinel inner nodes, a character other than `'$'` that sits on a leaf
has an entry in the table of `traverse_tree`, and the entry is a path to a leaf carrying
that character. -/
theorem table_entry_of_leaf (t : node) (hs : t.sentinel_ok = true) (c : Char) (w : ℚ)
    (hmem : (c, w) ∈ t.leaves) (hc : c ≠ '$') :
    ∃ q, (traverse_tree t [] []).find c = some q ∧ (t.follow q).isLeaf = true
      ∧ (t.follow q).c = c := by
  obtain ⟨q₀, hl₀, hc₀⟩ := leaves_follow t c w hmem
  have hin := codes_complete t [] q₀ hl₀ (by rw [hc₀]; exact hc)
  rw [hc₀] at hin
  have hkey : c ∈ CharMap.keys (t.codes []) := by
    simp only [CharMap.keys, List.mem_map]
    exact ⟨_, hin, rfl⟩
  obtain ⟨p, hp⟩ := Option.isSome_iff_exists.mp ((find_isSome_iff _ c).mpr hkey)
  obtain ⟨q, hq, hl, hcq⟩ := codes_sound t hs [] c p (find_mem _ _ _ hp)
  simp only [List.nil_append] at hq
  subst hq
  exact ⟨p, by rw [(traverse_tree_find t c).2, hp], hl, hcq⟩

theorem encode_msg_eq (msg : List Char) (table : CharMap (List Char))
    (hlen : msg.length < 2147483648) :
    encode_msg msg table =
      List.foldlM
        (fun st ch =>
          match table.find ch with
          | some code => (pure (st ++ code) : Except Failure (List Char))
          | none => throw Failure.end_iterator_dereference)
        [] msg := by
  unfold encode_msg
  rw [to_int_of_lt hlen]
  simp

theorem decode_huff_eq (nd : node) (msg : List Char) (hlen : msg.length < 2147483648) :
    decode_huff nd msg =
      (List.foldlM (decode_step nd) (nd, []) msg).map (fun st => st.2 ++ ['\n']) := by
  unfold decode_huff
  rw [to_int_of_lt hlen]
  simp only [Int.toNat_ofNat, List.take_length]
  cases List.foldlM (decode_step nd) (nd, []) msg <;> rfl

/-- Round trip on one tree: with sentinel inner nodes, a root that has children, and a
message over the leaf characters that avoids `'$'`, `encode_msg` returns the concatenated
codes and `decode_huff` prints the message back. -/
theorem round_trip_tree (root : node) (hs : root.sentinel_ok = true)
    (hroot : root.isLeaf = false) (msg : List Char) (hlen : msg.length < 2147483648)
    (hmsg : ∀ ch ∈ msg, ch ≠ '$' ∧ ch ∈ root.leaves.map Prod.fst) :
    encode_msg msg (traverse_tree root [] [])
        = .ok (concat_codes (traverse_tree root [] []) msg)
    ∧ ((concat_codes (traverse_tree root [] []) msg).length < 2147483648 →
        decode_huff root (concat_codes (traverse_tree root [] []) msg)
          = .ok (msg ++ ['\n'])) := by
  have hentry : ∀ ch ∈ msg, ∃ q, (traverse_tree root [] []).find ch = some q
      ∧ (root.follow q).isLeaf = true ∧ (root.follow q).c = ch := by
    intro ch hch
    obtain ⟨hd, hm⟩ := hmsg ch hch
    obtain ⟨⟨c, w⟩, hcw, hfst⟩ := List.mem_map.mp hm
    simp only at hfst
    subst hfst
    exact table_entry_of_leaf root hs c w hcw hd
  constructor
  · rw [encode_msg_eq _ _ hlen]
    have := encode_loop_ok (traverse_tree root [] []) msg [] (by
      intro ch hch
      obtain ⟨q, hq, _⟩ := hentry ch hch
      simp [hq])
    simpa using this
  · intro henc
    rw [decode_huff_eq _ _ henc]
    have := decode_concat root (traverse_tree root [] []) hroot msg [] [] hentry
    simp only [List.append_nil, List.nil_append] at this
    rw [this]
    rfl

theorem exists_two_of_dedup {l : List Char} (h : 2 ≤ l.dedup.length) :
    ∃ a b, a ∈ l ∧ b ∈ l ∧ a ≠ b := by
  have hnd := List.nodup_dedup l
  match hd : l.dedup, h with
  | a :: b :: rest, _ =>
    rw [hd] at hnd
    have ha : a ∈ l := List.mem_dedup.mp (by rw [hd]; simp)
    have hb : b ∈ l := List.mem_dedup.mp (by rw [hd]; simp)
    refine ⟨a, b, ha, hb, ?_⟩
    intro hab
    subst hab
    simp at hnd

theorem two_le_length_of_ne {α : Type} {l : List α} {a b : α} (ha : a ∈ l) (hb : b ∈ l)
    (hab : a ≠ b) : 2 ≤ l.length := by
  match l, ha, hb with
  | [x], ha, hb =>
    simp only [List.mem_singleton] at ha hb
    exact absurd (ha.trans hb.symm) hab
  | _ :: _ :: _, _, _ => simp

/-- The tree `main` builds for a message of fewer than `2^31` characters with at least
two distinct symbols: it exists, is a built tree, its root has children, and its leaf
characters are the characters of the message. -/
theorem message_tree (msg : List Char) (hlen : msg.length < 2147483648)
    (h2 : 2 ≤ msg.dedup.length) :
    ∃ root, tree_root (calc_probas msg []) = .ok root ∧ root.built = true
      ∧ root.isLeaf = false ∧ (∀ ch, ch ∈ root.leaves.map Prod.fst ↔ ch ∈ msg) := by
  obtain ⟨_, hkeys, _⟩ := calc_probas_spec msg hlen
  obtain ⟨a, b, ha, hb, hab⟩ := exists_two_of_dedup h2
  have hl2 : 2 ≤ (calc_probas msg []).length := by
    have := two_le_length_of_ne ((hkeys a).mpr ha) ((hkeys b).mpr hb) hab
    simpa [CharMap.keys] using this
  have hne : calc_probas msg [] ≠ [] := by
    intro h; rw [h] at hl2; simp at hl2
  obtain ⟨root, hroot⟩ := tree_root_of_ne_nil hne
  obtain ⟨_, hb', hp⟩ := tree_root_ok hroot
  refine ⟨root, hroot, hb', ?_, ?_⟩
  · apply isLeaf_false_of_two_leaves
    rw [hp.length_eq]; exact hl2
  · intro ch
    rw [← hkeys ch]
    exact (hp.map Prod.fst).mem_iff

/-! ## Saving and loading the tree -/

theorem save_tree_eq (fmt : ℚ → List Char) (t : node) :
    ∀ out, t.isNull = false → save_tree fmt t out = .ok (out ++ t.records fmt) := by
  induction t with
  | null => intro out h; simp [node.isNull] at h
  | mk p c l r ihl ihr =>
    intro out _
    simp only [save_tree, node.records, bind, Except.bind, pure, Except.pure]
    cases hl : l.isNull with
    | true =>
      have hl' : l = node.null := by cases l <;> simp_all [node.isNull]
      subst hl'
      cases hr : r.isNull with
      | true =>
        have hr' : r = node.null := by cases r <;> simp_all [node.isNull]
        subst hr'
        simp [node.records]
      | false =>
        simp only [if_true, Bool.false_eq_true, if_false]
        rw [ihr _ hr]
        simp [node.records]
    | false =>
      simp only [Bool.false_eq_true, if_false]
      rw [ihl _ hl]
      simp only
      cases hr : r.isNull with
      | true =>
        have hr' : r = node.null := by cases r <;> simp_all [node.isNull]
        subst hr'
        simp [node.records]
      | false =>
        simp only [Bool.false_eq_true, if_false]
        rw [ihr _ hr]
        simp [node.records]

theorem takeWhile_dropWhile_stop {α : Type} (p : α → Bool) (A : List α) (x : α) (tail : List α)
    (hA : ∀ a ∈ A, p a = true) (hx : p x = false) :
    (A ++ x :: tail).takeWhile p = A ∧ (A ++ x :: tail).dropWhile p = x :: tail := by
  induction A with
  | nil => simp [List.takeWhile, List.dropWhile, hx]
  | cons a as ih =>
    have ha := hA a (by simp)
    obtain ⟨h1, h2⟩ := ih (fun b hb => hA b (List.mem_cons_of_mem _ hb))
    simp [List.takeWhile, List.dropWhile, ha, h1, h2]

theorem takeWhile_all {α : Type} (p : α → Bool) (A : List α) (hA : ∀ a ∈ A, p a = true) :
    A.takeWhile p = A := by
  induction A with
  | nil => rfl
  | cons a as ih =>
    simp [List.takeWhile, hA a (by simp), ih (fun b hb => hA b (List.mem_cons_of_mem _ hb))]

theorem getline_eq (l : List Char) (h : l ≠ []) :
    getline l = some (l.takeWhile (fun x => x ≠ '\n'), (l.dropWhile (fun x => x ≠ '\n')).tail) := by
  cases l with
  | nil => exact absurd rfl h
  | cons a as => rfl

/-- Reading back one written line. -/
theorem getline_record (w : List Char) (c : Char) (tail : List Char)
    (hw : ∀ ch ∈ w, ch ≠ '\n') (hc : c ≠ '\n') :
    getline ((w ++ [' ', c, '\n']) ++ tail) = some (w ++ [' ', c], tail) := by
  rw [getline_eq _ (by simp)]
  have hA : ∀ a ∈ w ++ [' ', c], (fun x : Char => decide (x ≠ '\n')) a = true := by
    intro a ha
    simp only [List.mem_append, List.mem_cons, List.mem_singleton, List.not_mem_nil,
      or_false] at ha
    rcases ha with ha | ha | ha
    · simpa using hw a ha
    · subst ha; decide
    · subst ha; simpa using hc
  have := takeWhile_dropWhile_stop (fun x : Char => decide (x ≠ '\n')) (w ++ [' ', c]) '\n' tail
    hA (by decide)
  have heq : (w ++ [' ', c, '\n']) ++ tail = (w ++ [' ', c]) ++ '\n' :: tail := by simp
  rw [heq, this.1, this.2]
  rfl

theorem pq_push_ne_nil (pq : List node) (x : node) : (pq_push pq x).isEmpty = false := by
  have := (pq_push_perm pq x).length_eq
  cases h : pq_push pq x with
  | nil => rw [h] at this; simp at this
  | cons a as => rfl

theorem reweigh_isLeaf (f : ℚ → ℚ) (t : node) : (t.reweigh f).isLeaf = t.isLeaf := by
  cases t with
  | null => rfl
  | mk p c l r => cases l <;> cases r <;> rfl

theorem reweigh_c (f : ℚ → ℚ) (t : node) : (t.reweigh f).c = t.c := by
  cases t <;> rfl

/-- The tree `load_tree` rebuilds from the text of `save_tree`: for a strict tree with
sentinel inner nodes whose leaf characters are neither `'$'` nor a line end, it is the same
tree with re-read weights; the rest of the stream is left unread, and the queue receives
the rebuilt root exactly when it was empty and the root has children. -/
theorem load_tree_records (fmt : ℚ → List Char) (stod : List Char → Option ℚ)
    (htext : text_ok fmt stod) (t : node) :
    t.strict = true → t.sentinel_ok = true →
    (∀ e ∈ t.leaves, e.1 ≠ '$' ∧ e.1 ≠ '\n') →
    ∀ (fuel : Nat) (nd : node) (rest : List Char) (pq : List node),
      (t.records fmt).length < fuel →
      load_tree stod fuel nd (t.records fmt ++ rest) pq
        = .ok (t.reweigh (reread fmt stod), rest,
            if pq.isEmpty && !t.isLeaf then [t.reweigh (reread fmt stod)] else pq) := by
  induction t with
  | null => intro h; simp [node.strict] at h
  | mk p c l r ihl ihr =>
    intro hst hse hlv fuel nd rest pq hfuel
    obtain ⟨hfmt, hstod⟩ := htext p
    obtain ⟨v, hv⟩ := Option.isSome_iff_exists.mp hstod
    have hrd : reread fmt stod p = v := by simp [reread, hv]
    simp only [node.strict, Bool.or_eq_true, Bool.and_eq_true] at hst
    simp only [node.sentinel_ok, Bool.and_eq_true, Bool.or_eq_true, beq_iff_eq] at hse
    obtain ⟨⟨hs0, hsl⟩, hsr⟩ := hse
    cases fuel with
    | zero => simp at hfuel
    | succ fuel =>
      have hcn : c ≠ '\n' := by
        by_cases hleaf : (l.isNull && r.isNull) = true
        · have := hlv (c, p) (by simp [node.leaves, hleaf])
          exact this.2
        · rcases hs0 with h | h
          · exact absurd (by simp [h.1, h.2]) hleaf
          · rw [h]; decide
      have hline := getline_record (fmt p) c ((l.records fmt ++ r.records fmt) ++ rest)
        (fun ch hch => (hfmt ch hch).2) hcn
      have hrec : node.records fmt (node.mk p c l r) ++ rest
          = (fmt p ++ [' ', c, '\n']) ++ ((l.records fmt ++ r.records fmt) ++ rest) := by
        simp [node.records]
      have htw : (fmt p ++ [' ', c]).takeWhile (fun x => x ≠ ' ') = fmt p := by
        have := takeWhile_dropWhile_stop (fun x : Char => decide (x ≠ ' ')) (fmt p) ' ' [c]
          (fun a ha => by simpa using (hfmt a ha).1) (by decide)
        exact this.1
      have hlast : (fmt p ++ [' ', c]).getLast? = some c := by
        rw [show fmt p ++ [' ', c] = (fmt p ++ [' ']) ++ [c] by simp]
        exact List.getLast?_concat _
      rw [hrec]
      simp only [load_tree, hline, htw, hv, hlast, bind, Except.bind, pure, Except.pure]
      by_cases hleaf : (l.isNull && r.isNull) = true
      · have hcd : c ≠ '$' := (hlv (c, p) (by simp [node.leaves, hleaf])).1
        simp only [Bool.and_eq_true] at hleaf
        have hl' : l = node.null := by cases l <;> simp_all [node.isNull]
        have hr' : r = node.null := by cases r <;> simp_all [node.isNull]
        subst hl' hr'
        simp [hcd, node.records, node.reweigh, hrd, node.isLeaf, node.isNull]
      · have hcd : c = '$' := by
          rcases hs0 with h | h
          · exact absurd (by simp [h.1, h.2]) hleaf
          · exact h
        have hstl : l.strict = true ∧ r.strict = true := by
          rcases hst with h | h
          · exact absurd (by simpa using h) hleaf
          · exact h
        have hlvl : ∀ e ∈ l.leaves, e.1 ≠ '$' ∧ e.1 ≠ '\n' := by
          intro e he
          exact hlv e (by simp [node.leaves, hleaf, he])
        have hlvr : ∀ e ∈ r.leaves, e.1 ≠ '$' ∧ e.1 ≠ '\n' := by
          intro e he
          exact hlv e (by simp [node.leaves, hleaf, he])
        have hlen : (l.records fmt).length + (r.records fmt).length < fuel := by
          simp [node.records] at hfuel
          omega
        subst hcd
        simp only [if_true]
        generalize hpq1 : (if pq.isEmpty = true then pq_push pq (node.mk v '$' node.null node.null)
          else pq) = pq1
        have hpq1e : pq1.isEmpty = false := by
          rw [← hpq1]
          split
          · exact pq_push_ne_nil _ _
          · rename_i h; simpa using h
        rw [List.append_assoc]
        rw [ihl hstl.1 hsl hlvl fuel node.null (r.records fmt ++ rest) pq1 (by omega)]
        simp only [hpq1e, Bool.false_and, Bool.false_eq_true, if_false]
        rw [ihr hstl.2 hsr hlvr fuel node.null rest pq1 (by omega)]
        simp only [hpq1e, Bool.false_and, Bool.false_eq_true, if_false]
        have hnl : (node.mk p '$' l r).isLeaf = false := by
          simpa [node.isLeaf] using hleaf
        simp only [node.reweigh, hrd, hnl, Bool.not_false, Bool.and_true]
        cases pq with
        | nil => rfl
        | cons a as =>
          simp only [List.isEmpty_cons, Bool.false_eq_true, if_false] at hpq1
          subst hpq1
          rfl

/-- The loop of `decode_huff` does not look at weights. -/
theorem decode_step_reweigh (f : ℚ → ℚ) (root t : node) (out : List Char) (ch : Char) :
    decode_step (root.reweigh f) (t.reweigh f, out) ch
      = (decode_step root (t, out) ch).map (fun st => (st.1.reweigh f, st.2)) := by
  by_cases h0 : ch = '0'
  · subst h0
    cases t with
    | null => rfl
    | mk p c l r =>
      simp only [node.reweigh]
      rw [decode_step_zero, decode_step_zero, reweigh_isLeaf, reweigh_c]
      cases l.isLeaf <;> rfl
  · by_cases h1 : ch = '1'
    · subst h1
      cases t with
      | null => rfl
      | mk p c l r =>
        simp only [node.reweigh]
        rw [decode_step_one, decode_step_one, reweigh_isLeaf, reweigh_c]
        cases r.isLeaf <;> rfl
    · rw [decode_step_other _ _ _ _ h0 h1, decode_step_other _ _ _ _ h0 h1, reweigh_isLeaf,
        reweigh_c]
      cases t.isLeaf <;> rfl

theorem decode_loop_reweigh (f : ℚ → ℚ) (root : node) :
    ∀ (s : List Char) (t : node) (out : List Char),
      List.foldlM (decode_step (root.reweigh f)) (t.reweigh f, out) s
        = (List.foldlM (decode_step root) (t, out) s).map (fun st => (st.1.reweigh f, st.2)) := by
  intro s
  induction s with
  | nil => intro t out; rfl
  | cons ch s ih =>
    intro t out
    simp only [List.foldlM_cons]
    rw [decode_step_reweigh]
    cases h : decode_step root (t, out) ch with
    | error e => rfl
    | ok st =>
      obtain ⟨t', out'⟩ := st
      simp only [Except.map, bind, Except.bind]
      exact ih t' out'

/-- The function `decode_huff` prints the same text on a tree and on the same tree with
other weights. -/
theorem decode_huff_reweigh (f : ℚ → ℚ) (root : node) (s : List Char) :
    decode_huff (root.reweigh f) s = decode_huff root s := by
  unfold decode_huff
  rw [decode_loop_reweigh]
  cases List.foldlM (decode_step root) (root, [])
    (List.take (to_int s.length).toNat s) <;> rfl

theorem text_ok_sample : text_ok fmt_sample stod_sample := by
  intro p
  unfold fmt_sample
  split
  · exact ⟨by decide, by decide⟩
  · split
    · exact ⟨by decide, by decide⟩
    · split
      · exact ⟨by decide, by decide⟩
      · exact ⟨by decide, by decide⟩

theorem leaf_path_unique (t : node) :
    (t.leaves.map Prod.fst).Nodup → ∀ q₁ q₂, (t.follow q₁).isLeaf = true →
      (t.follow q₂).isLeaf = true → (t.follow q₁).c = (t.follow q₂).c → q₁ = q₂ := by
  induction t with
  | null => intro _ q₁ q₂ h; simp [follow_null, node.isLeaf] at h
  | mk p cc l r ihl ihr =>
    intro hnd q₁ q₂ h₁ h₂ hc
    cases q₁ with
    | nil =>
      cases q₂ with
      | nil => rfl
      | cons ch q =>
        rw [follow_nil] at h₁
        rw [follow_leaf_cons _ h₁] at h₂
        simp [node.isLeaf] at h₂
    | cons ch₁ q₁ =>
      cases q₂ with
      | nil =>
        rw [follow_nil] at h₂
        rw [follow_leaf_cons _ h₂] at h₁
        simp [node.isLeaf] at h₁
      | cons ch₂ q₂ =>
        have hnl : (node.mk p cc l r).isLeaf = false := by
          by_contra hcon
          rw [follow_leaf_cons _ (by simpa using hcon)] at h₁
          simp [node.isLeaf] at h₁
        simp only [node.isLeaf] at hnl
        simp only [node.leaves, hnl, Bool.false_eq_true, if_false, List.map_append] at hnd
        obtain ⟨hndl, hndr, hdis⟩ := List.nodup_append.mp hnd
        have hml : ∀ q, (l.follow q).isLeaf = true → (l.follow q).c ∈ l.leaves.map Prod.fst :=
          fun q h => List.mem_map.mpr ⟨_, follow_leaves l q h, rfl⟩
        have hmr : ∀ q, (r.follow q).isLeaf = true → (r.follow q).c ∈ r.leaves.map Prod.fst :=
          fun q h => List.mem_map.mpr ⟨_, follow_leaves r q h, rfl⟩
        simp only [node.follow] at h₁ h₂ hc
        by_cases a0 : ch₁ = '0'
        · simp only [a0, if_true] at h₁ hc
          by_cases b0 : ch₂ = '0'
          · simp only [b0, if_true] at h₂ hc
            rw [a0, b0, ihl hndl q₁ q₂ h₁ h₂ hc]
          · by_cases b1 : ch₂ = '1'
            · simp only [b1, Char.reduceEq, if_true, if_false] at h₂ hc
              exact absurd (hc ▸ hml q₁ h₁) (fun hm => hdis hm (hmr q₂ h₂))
            · simp [b0, b1, node.isLeaf] at h₂
        · by_cases a1 : ch₁ = '1'
          · simp only [a1, Char.reduceEq, if_true, if_false] at h₁ hc
            by_cases b0 : ch₂ = '0'
            · simp only [b0, if_true] at h₂ hc
              exact absurd (hml q₂ h₂) (fun hm => hdis hm (hc ▸ hmr q₁ h₁))
            · by_cases b1 : ch₂ = '1'
              · simp only [b1, Char.reduceEq, if_true, if_false] at h₂ hc
                rw [a1, b1, ihr hndr q₁ q₂ h₁ h₂ hc]
              · simp [b0, b1, node.isLeaf] at h₂
          · simp [a0, a1, node.isLeaf] at h₁

theorem ordered_nodup {β : Type} (m : CharMap β) (h : m.ordered) : m.keys.Nodup := by
  unfold CharMap.ordered at h
  exact h.imp (fun hab => ne_of_lt hab)

theorem code_table_ok {msg : List Char} {table : CharMap (List Char)}
    (h : code_table msg = .ok table) :
    ∃ root, tree_root (calc_probas msg []) = .ok root ∧ table = traverse_tree root [] [] := by
  unfold code_table at h
  cases hr : tree_root (calc_probas msg []) with
  | error e => rw [hr] at h; simp [bind, Except.bind] at h
  | ok root =>
    rw [hr] at h
    simp only [bind, Except.bind, pure, Except.pure, Except.ok.injEq] at h
    exact ⟨root, rfl, h.symm⟩

theorem built_parts {t : node} (h : t.built = true) :
    t.strict = true ∧ t.sentinel_ok = true ∧ t.weights_ok = true := by
  simp only [node.built, Bool.and_eq_true] at h
  exact ⟨h.1.1, h.1.2, h.2⟩

theorem calc_probas_long (msg : List Char) (h : to_int msg.length ≤ 0) :
    calc_probas msg [] = [] := by
  rw [calc_probas_eq]
  have : (to_int msg.length).toNat = 0 := by omega
  rw [this]
  rfl

theorem tree_root_nil : tree_root [] = .error Failure.empty_queue := rfl

/-! ## The iteration bounds are enough -/

/-- The loop of `std::__push_heap` gives the same vector for every bound of at least
`holeIndex`: the bound is never what ends the loop. -/
theorem push_heap_loop_fuel (f₁ : Nat) :
    ∀ (f₂ : Nat) (first : List node) (holeIndex topIndex : Nat) (value : node),
      holeIndex ≤ f₁ → holeIndex ≤ f₂ →
      push_heap_loop f₁ first holeIndex topIndex value
        = push_heap_loop f₂ first holeIndex topIndex value := by
  induction f₁ with
  | zero =>
    intro f₂ first holeIndex topIndex value h₁ _
    have h0 : holeIndex = 0 := by omega
    subst h0
    cases f₂ <;> simp [push_heap_loop]
  | succ f₁ ih =>
    intro f₂ first holeIndex topIndex value h₁ h₂
    cases f₂ with
    | zero =>
      have h0 : holeIndex = 0 := by omega
      subst h0
      simp [push_heap_loop]
    | succ f₂ =>
      simp only [push_heap_loop]
      split
      · rename_i hc
        simp only [Bool.and_eq_true, decide_eq_true_eq] at hc
        exact ih f₂ _ _ topIndex value (by omega) (by omega)
      · rfl

/-- The sinking loop of `std::__adjust_heap` gives the same result for every bound of at
least `len - secondChild`. -/
theorem adjust_heap_loop_fuel (f₁ : Nat) :
    ∀ (f₂ : Nat) (first : List node) (holeIndex secondChild len : Nat),
      len ≤ f₁ + secondChild → len ≤ f₂ + secondChild →
      adjust_heap_loop f₁ first holeIndex secondChild len
        = adjust_heap_loop f₂ first holeIndex secondChild len := by
  induction f₁ with
  | zero =>
    intro f₂ first holeIndex secondChild len h₁ _
    cases f₂ with
    | zero => rfl
    | succ f₂ =>
      simp only [adjust_heap_loop]
      rw [if_neg (by omega)]
  | succ f₁ ih =>
    intro f₂ first holeIndex secondChild len h₁ h₂
    cases f₂ with
    | zero =>
      simp only [adjust_heap_loop]
      rw [if_neg (by omega)]
    | succ f₂ =>
      simp only [adjust_heap_loop]
      split
      · generalize hsc : (if node_comp (first.getD (2 * (secondChild + 1)) node.null)
            (first.getD (2 * (secondChild + 1) - 1) node.null) = true
            then 2 * (secondChild + 1) - 1 else 2 * (secondChild + 1)) = sc
        have hge : secondChild + 1 ≤ sc := by
          rw [← hsc]; split <;> omega
        exact ih f₂ _ sc sc len (by omega) (by omega)
      · rfl

/-- The merge loop gives the same result for every bound of at least `pq.size()`. -/
theorem tree_create_loop_fuel (f₁ : Nat) :
    ∀ (f₂ : Nat) (pq : List node), pq.length ≤ f₁ → pq.length ≤ f₂ →
      tree_create_loop f₁ pq = tree_create_loop f₂ pq := by
  induction f₁ with
  | zero =>
    intro f₂ pq h₁ _
    cases f₂ with
    | zero => rfl
    | succ f₂ =>
      simp only [tree_create_loop]
      rw [if_neg (by omega)]
  | succ f₁ ih =>
    intro f₂ pq h₁ h₂
    cases f₂ with
    | zero =>
      simp only [tree_create_loop]
      rw [if_neg (by omega)]
    | succ f₂ =>
      simp only [tree_create_loop]
      split
      · rename_i hgt
        obtain ⟨one, two, rest, pq', hp, hstep, hp'⟩ := tree_create_step_spec pq hgt
        have hl := hp.length_eq
        have hl' := hp'.length_eq
        simp only [List.length_cons] at hl hl'
        simp only [hstep, bind, Except.bind]
        exact ih f₂ pq' (by omega) (by omega)
      · rfl

theorem getline_shorter {inFile s rest : List Char} (h : getline inFile = some (s, rest)) :
    rest.length < inFile.length := by
  cases inFile with
  | nil => simp [getline] at h
  | cons ch tl =>
    simp only [getline, Option.some.injEq, Prod.mk.injEq] at h
    rw [← h.2]
    have h1 : (List.dropWhile (fun x => decide (x ≠ '\n')) (ch :: tl)).length
        ≤ (ch :: tl).length := (List.dropWhile_sublist _).length_le
    rcases hd : List.dropWhile (fun x => decide (x ≠ '\n')) (ch :: tl) with _ | ⟨a, as⟩
    · simp
    · rw [hd] at h1
      simp only [List.tail_cons, List.length_cons] at h1 ⊢
      omega

/-- The function `load_tree` never returns a longer stream than it received. -/
theorem load_tree_rest_le (stod : List Char → Option ℚ) (fuel : Nat) :
    ∀ (nd : node) (inFile : List Char) (pq : List node) (r : node × List Char × List node),
      load_tree stod fuel nd inFile pq = .ok r → r.2.1.length ≤ inFile.length := by
  induction fuel with
  | zero =>
    intro nd inFile pq r h
    simp only [load_tree, pure, Except.pure, Except.ok.injEq] at h
    rw [← h]
  | succ fuel ih =>
    intro nd inFile pq r h
    simp only [load_tree] at h
    cases hg : getline inFile with
    | none =>
      rw [hg] at h
      simp only [pure, Except.pure, Except.ok.injEq] at h
      rw [← h]
    | some sr =>
      obtain ⟨s, rest⟩ := sr
      have hlt := getline_shorter hg
      rw [hg] at h
      simp only [bind, Except.bind, pure, Except.pure] at h
      cases hs : stod (s.takeWhile (fun x => x ≠ ' ')) with
      | none => rw [hs] at h; simp [throw, throwThe, MonadExceptOf.throw] at h
      | some p =>
        rw [hs] at h
        cases hl : s.getLast? with
        | none => rw [hl] at h; simp [throw, throwThe, MonadExceptOf.throw] at h
        | some c =>
          rw [hl] at h
          simp only at h
          split at h
          · cases h1 : load_tree stod fuel node.null rest
                (if pq.isEmpty = true then pq_push pq (node.mk p c node.null node.null) else pq) with
            | error e => rw [h1] at h; simp at h
            | ok r1 =>
              obtain ⟨l, rest1, pq1⟩ := r1
              rw [h1] at h
              simp only at h
              have hr1 := ih _ _ _ _ h1
              cases h2 : load_tree stod fuel node.null rest1 pq1 with
              | error e => rw [h2] at h; simp at h
              | ok r2 =>
                obtain ⟨rr, rest2, pq2⟩ := r2
                rw [h2] at h
                simp only [Except.ok.injEq] at h
                have hr2 := ih _ _ _ _ h2
                rw [← h]
                simp only at hr1 hr2 ⊢
                omega
          · simp only [Except.ok.injEq] at h
            rw [← h]
            simp only
            omega

/-- The function `load_tree` gives the same result for every recursion bound above the
length of the stream. -/
theorem load_tree_fuel (stod : List Char → Option ℚ) (f₁ : Nat) :
    ∀ (f₂ : Nat) (nd : node) (inFile : List Char) (pq : List node),
      inFile.length < f₁ → inFile.length < f₂ →
      load_tree stod f₁ nd inFile pq = load_tree stod f₂ nd inFile pq := by
  induction f₁ with
  | zero => intro f₂ nd inFile pq h₁; omega
  | succ f₁ ih =>
    intro f₂ nd inFile pq h₁ h₂
    cases f₂ with
    | zero => omega
    | succ f₂ =>
      simp only [load_tree]
      cases hg : getline inFile with
      | none => rfl
      | some sr =>
        obtain ⟨s, rest⟩ := sr
        have hlt := getline_shorter hg
        simp only [bind, Except.bind, pure, Except.pure]
        cases hs : stod (s.takeWhile (fun x => x ≠ ' ')) with
        | none => rfl
        | some p =>
          cases hl : s.getLast? with
          | none => rfl
          | some c =>
            simp only
            split
            · rw [ih f₂ node.null rest _ (by omega) (by omega)]
              cases h1 : load_tree stod f₂ node.null rest
                  (if pq.isEmpty = true then pq_push pq (node.mk p c node.null node.null)
                    else pq) with
              | error e => rfl
              | ok r1 =>
                obtain ⟨l, rest1, pq1⟩ := r1
                have hr1 := load_tree_rest_le stod f₂ _ _ _ _ h1
                simp only at hr1 ⊢
                rw [ih f₂ node.null rest1 pq1 (by omega) (by omega)]
            · rfl

/-! ## Long inputs -/

theorem decode_huff_long (nd : node) (s : List Char) (h : to_int s.length ≤ 0) :
    decode_huff nd s = .ok ['\n'] := by
  unfold decode_huff
  have h0 : (to_int s.length).toNat = 0 := by omega
  rw [h0]
  rfl

theorem concat_codes_append (table : CharMap (List Char)) (l₁ l₂ : List Char) :
    concat_codes table (l₁ ++ l₂) = concat_codes table l₁ ++ concat_codes table l₂ := by
  simp [concat_codes]

theorem concat_codes_replicate_length (table : CharMap (List Char)) (n : Nat) (c : Char) :
    (concat_codes table (List.replicate n c)).length = n * ((table.find c).getD []).length := by
  induction n with
  | zero => simp [concat_codes]
  | succ n ih =>
    rw [List.replicate_succ]
    have : concat_codes table (c :: List.replicate n c)
        = (table.find c).getD [] ++ concat_codes table (List.replicate n c) := by
      simp [concat_codes]
    rw [this, List.length_append, ih]
    ring

theorem count_run_one (a : Char) (n : Nat) (x : ℚ) :
    (List.replicate n a).foldl CharMap.incr [(a, x)] = [(a, x + n)] := by
  induction n generalizing x with
  | zero => simp
  | succ n ih =>
    rw [List.replicate_succ, List.foldl_cons]
    have : CharMap.incr [(a, x)] a = [(a, x + 1)] := by simp [CharMap.incr]
    rw [this, ih]
    push_cast
    congr 2
    ring

theorem count_run_two (a b : Char) (hab : a < b) (n : Nat) (x y : ℚ) :
    (List.replicate n b).foldl CharMap.incr [(a, x), (b, y)] = [(a, x), (b, y + n)] := by
  induction n generalizing y with
  | zero => simp
  | succ n ih =>
    rw [List.replicate_succ, List.foldl_cons]
    have : CharMap.incr [(a, x), (b, y)] b = [(a, x), (b, y + 1)] := by
      simp [CharMap.incr, not_lt.mpr (le_of_lt hab), (ne_of_lt hab).symm]
    rw [this, ih]
    push_cast
    congr 3
    ring

theorem count_run_three (a b c : Char) (hac : a < c) (hbc : b < c) (n : Nat) (x y z : ℚ) :
    (List.replicate n c).foldl CharMap.incr [(a, x), (b, y), (c, z)]
      = [(a, x), (b, y), (c, z + n)] := by
  induction n generalizing z with
  | zero => simp
  | succ n ih =>
    rw [List.replicate_succ, List.foldl_cons]
    have : CharMap.incr [(a, x), (b, y), (c, z)] c = [(a, x), (b, y), (c, z + 1)] := by
      simp [CharMap.incr, not_lt.mpr (le_of_lt hac), (ne_of_lt hac).symm,
        not_lt.mpr (le_of_lt hbc), (ne_of_lt hbc).symm]
    rw [this, ih]
    push_cast
    congr 4
    ring

/-- The table of a message made of `n + 1` times `a`, `n + 1` times `b` and `2 n + 2` times
`c`, when its length fits an `int`. -/
theorem calc_probas_abc (n : Nat) (h : 4 * (n + 1) < 2147483648) :
    calc_probas (List.replicate (n + 1) 'a' ++ (List.replicate (n + 1) 'b'
        ++ List.replicate (2 * n + 2) 'c')) []
      = [('a', 1 / 4), ('b', 1 / 4), ('c', 1 / 2)] := by
  have hlen : (List.replicate (n + 1) 'a' ++ (List.replicate (n + 1) 'b'
      ++ List.replicate (2 * n + 2) 'c')).length = 4 * (n + 1) := by
    simp only [List.length_append, List.length_replicate]; ring
  rw [calc_probas_eq, hlen, to_int_of_lt h]
  simp only [Int.toNat_ofNat]
  rw [← hlen, List.take_length, List.foldl_append, List.foldl_append]
  have ha : (List.replicate (n + 1) 'a').foldl CharMap.incr [] = [('a', 1 + (n : ℚ))] := by
    rw [List.replicate_succ, List.foldl_cons]
    have : CharMap.incr [] 'a' = [('a', 0 + 1)] := rfl
    rw [this, count_run_one]
    simp
  have hb : (List.replicate (n + 1) 'b').foldl CharMap.incr [('a', 1 + (n : ℚ))]
      = [('a', 1 + (n : ℚ)), ('b', 1 + (n : ℚ))] := by
    rw [List.replicate_succ, List.foldl_cons]
    have : CharMap.incr [('a', 1 + (n : ℚ))] 'b' = [('a', 1 + (n : ℚ)), ('b', 0 + 1)] := by
      simp [CharMap.incr]
    rw [this, count_run_two 'a' 'b' (by decide)]
    simp
  have hc : (List.replicate (2 * n + 2) 'c').foldl CharMap.incr
      [('a', 1 + (n : ℚ)), ('b', 1 + (n : ℚ))]
      = [('a', 1 + (n : ℚ)), ('b', 1 + (n : ℚ)), ('c', 2 + 2 * (n : ℚ))] := by
    rw [show 2 * n + 2 = (2 * n + 1) + 1 by ring, List.replicate_succ, List.foldl_cons]
    have : CharMap.incr [('a', 1 + (n : ℚ)), ('b', 1 + (n : ℚ))] 'c'
        = [('a', 1 + (n : ℚ)), ('b', 1 + (n : ℚ)), ('c', 0 + 1)] := by
      simp [CharMap.incr]
    rw [this, count_run_three 'a' 'b' 'c' (by decide) (by decide)]
    push_cast
    congr 4
    ring
  rw [ha, hb, hc]
  have hn : (1 + (n : ℚ)) ≠ 0 := by positivity
  simp only [List.map_cons, List.map_nil, hlen]
  push_cast
  congr 1
  · congr 1; field_simp; ring
  · congr 1
    · congr 1; field_simp; ring
    · congr 1; congr 1; field_simp; ring


theorem encode_msg_ok (msg : List Char) (table : CharMap (List Char))
    (hlen : msg.length < 2147483648) (h : ∀ ch ∈ msg, (table.find ch).isSome = true) :
    encode_msg msg table = .ok (concat_codes table msg) := by
  rw [encode_msg_eq _ _ hlen]
  simpa only [List.nil_append] using encode_loop_ok table msg [] h

/-- A message of 1.6 * 10^9 characters over `a`, `b`, `c` whose encoding has
2.4 * 10^9 characters: `decode_huff` converts that length to a negative `int` and prints
nothing but the final line end. -/
theorem long_encoding_not_decoded :
    (List.replicate 400000000 'a' ++ (List.replicate 400000000 'b'
        ++ List.replicate 800000000 'c')).length < 2147483648
    ∧ tree_root (calc_probas (List.replicate 400000000 'a' ++ (List.replicate 400000000 'b'
        ++ List.replicate 800000000 'c')) [])
      = .ok (node.mk 1 '$' (node.leaf (1 / 2) 'c')
          (node.mk (1 / 2) '$' (node.leaf (1 / 4) 'a') (node.leaf (1 / 4) 'b')))
    ∧ ∃ enc,
        encode_msg (List.replicate 400000000 'a' ++ (List.replicate 400000000 'b'
            ++ List.replicate 800000000 'c'))
          (traverse_tree (node.mk 1 '$' (node.leaf (1 / 2) 'c')
            (node.mk (1 / 2) '$' (node.leaf (1 / 4) 'a') (node.leaf (1 / 4) 'b'))) [] [])
          = .ok enc
        ∧ enc.length = 2400000000
        ∧ decode_huff (node.mk 1 '$' (node.leaf (1 / 2) 'c')
            (node.mk (1 / 2) '$' (node.leaf (1 / 4) 'a') (node.leaf (1 / 4) 'b'))) enc
          = .ok ['\n'] := by
  have hlen : (List.replicate 400000000 'a' ++ (List.replicate 400000000 'b'
      ++ List.replicate 800000000 'c')).length = 1600000000 := by
    simp only [List.length_append, List.length_replicate]
  have htab : traverse_tree (node.mk 1 '$' (node.leaf (1 / 2) 'c')
      (node.mk (1 / 2) '$' (node.leaf (1 / 4) 'a') (node.leaf (1 / 4) 'b'))) [] []
      = [('a', ['1', '0']), ('b', ['1', '1']), ('c', ['0'])] := by decide!
  have ea : ((CharMap.find [('a', ['1', '0']), ('b', ['1', '1']), ('c', ['0'])] 'a').getD
      []).length = 2 := by decide
  have eb : ((CharMap.find [('a', ['1', '0']), ('b', ['1', '1']), ('c', ['0'])] 'b').getD
      []).length = 2 := by decide
  have ec : ((CharMap.find [('a', ['1', '0']), ('b', ['1', '1']), ('c', ['0'])] 'c').getD
      []).length = 1 := by decide
  have henc : (concat_codes [('a', ['1', '0']), ('b', ['1', '1']), ('c', ['0'])]
      (List.replicate 400000000 'a' ++ (List.replicate 400000000 'b'
        ++ List.replicate 800000000 'c'))).length = 2400000000 := by
    rw [concat_codes_append, concat_codes_append, List.length_append, List.length_append,
      concat_codes_replicate_length, concat_codes_replicate_length,
      concat_codes_replicate_length, ea, eb, ec]
  refine ⟨by rw [hlen]; decide, ?_, ?_⟩
  · have h := calc_probas_abc 399999999 (by decide)
    rw [h]
    decide!
  · rw [htab]
    refine ⟨concat_codes [('a', ['1', '0']), ('b', ['1', '1']), ('c', ['0'])]
      (List.replicate 400000000 'a' ++ (List.replicate 400000000 'b'
        ++ List.replicate 800000000 'c')), ?_, ?_, ?_⟩
    · refine encode_msg_ok _ _ (by rw [hlen]; decide) ?_
      intro ch hch
      simp only [List.mem_append, List.mem_replicate] at hch
      rcases hch with ⟨_, h⟩ | ⟨_, h⟩ | ⟨_, h⟩ <;> subst h <;> decide
    · exact henc
    · apply decode_huff_long
      apply to_int_nonpos
      rw [henc]
      decide
/-! ## The claims -/

/-- C1 (as amended): for every message of fewer than 2^31 characters with at least two
distinct symbols and no `'$'`, `main` builds a tree, `encode_msg` returns a bitstring, and
when that bitstring has fewer than 2^31 characters `decode_huff` on the built root prints
the message (followed by the final line end); when the message also has no line end, the
decode branch of `main`, on the tree `load_tree` rebuilds from the text `save_tree` wrote,
prints the same. -/
theorem C1_round_trip (fmt : ℚ → List Char) (stod : List Char → Option ℚ)
    (htext : text_ok fmt stod) (msg : List Char) (hlen : msg.length < 2147483648)
    (h2 : 2 ≤ msg.dedup.length) (hd : '$' ∉ msg) :
    ∃ root enc file, tree_root (calc_probas msg []) = .ok root
      ∧ main_enc fmt msg = .ok (traverse_tree root [] [], enc, file)
      ∧ (enc.length < 2147483648 →
          decode_huff root enc = .ok (msg ++ ['\n'])
          ∧ ('\n' ∉ msg → main_dec stod file enc = .ok (msg ++ ['\n']))) := by
  obtain ⟨root, hroot, hb, hnl, hsym⟩ := message_tree msg hlen h2
  obtain ⟨hst, hse, _⟩ := built_parts hb
  have hmsg : ∀ ch ∈ msg, ch ≠ '$' ∧ ch ∈ root.leaves.map Prod.fst := by
    intro ch hch
    exact ⟨fun h => hd (h ▸ hch), (hsym ch).mpr hch⟩
  obtain ⟨henc, hdec⟩ := round_trip_tree root hse hnl msg hlen hmsg
  have hsave := save_tree_eq fmt root [] (strict_ne_null hst)
  refine ⟨root, concat_codes (traverse_tree root [] []) msg, root.records fmt, hroot, ?_, ?_⟩
  · simp only [main_enc, hroot, henc, hsave, bind, Except.bind, pure, Except.pure,
      List.nil_append]
  · intro hel
    refine ⟨hdec hel, ?_⟩
    intro hn
    have hlv : ∀ e ∈ root.leaves, e.1 ≠ '$' ∧ e.1 ≠ '\n' := by
      intro e he
      have hin : e.1 ∈ msg := (hsym e.1).mp (List.mem_map.mpr ⟨e, he, rfl⟩)
      exact ⟨fun h => hd (h ▸ hin), fun h => hn (h ▸ hin)⟩
    have hload := load_tree_records fmt stod htext root hst hse hlv
      ((root.records fmt).length + 1) node.null [] [] (by omega)
    simp only [List.append_nil] at hload
    simp only [main_dec, hload, bind, Except.bind, hnl, List.isEmpty_nil, Bool.not_false,
      Bool.and_self, if_true, pq_top]
    rw [decode_huff_reweigh]
    exact hdec hel

/-- C1, a concrete instance: the message `aabc`. -/
theorem C1_round_trip_witness :
    text_ok fmt_sample stod_sample
    ∧ ['a', 'a', 'b', 'c'].length < 2147483648
    ∧ 2 ≤ ['a', 'a', 'b', 'c'].dedup.length
    ∧ '$' ∉ ['a', 'a', 'b', 'c']
    ∧ ∃ root enc file, tree_root (calc_probas ['a', 'a', 'b', 'c'] []) = .ok root
      ∧ main_enc fmt_sample ['a', 'a', 'b', 'c'] = .ok (traverse_tree root [] [], enc, file)
      ∧ (enc.length < 2147483648 →
          decode_huff root enc = .ok (['a', 'a', 'b', 'c'] ++ ['\n'])
          ∧ ('\n' ∉ ['a', 'a', 'b', 'c'] →
              main_dec stod_sample file enc = .ok (['a', 'a', 'b', 'c'] ++ ['\n']))) :=
  ⟨text_ok_sample, by decide, by decide, by decide,
    C1_round_trip fmt_sample stod_sample text_ok_sample ['a', 'a', 'b', 'c']
      (by decide) (by decide) (by decide)⟩

/-- C1 fails as stated.  The message `a$` has two distinct symbols, yet `encode_msg`
dereferences `end()` because `traverse_tree` gives `'$'` no code.  The message made of `a`
and a line end is encoded to `10`, but the saved tree cannot be read back.  A message of
2^31 characters is counted as empty, so no tree is built.  A message of 1.6 * 10^9
characters is encoded to 2.4 * 10^9 characters, of which `decode_huff` reads none. -/
theorem C1_counterexample :
    main_enc fmt_sample ['a', '$'] = .error Failure.end_iterator_dereference
    ∧ (main_enc fmt_sample ['a', '\n']
          = .ok ([('\n', ['0']), ('a', ['1'])], ['1', '0'],
              ['1', ' ', '$', '\n', '0', '.', '5', ' ', '\n', '\n', '0', '.', '5', ' ', 'a', '\n'])
        ∧ main_dec stod_sample
            ['1', ' ', '$', '\n', '0', '.', '5', ' ', '\n', '\n', '0', '.', '5', ' ', 'a', '\n']
            ['1', '0'] = .error Failure.invalid_argument)
    ∧ (2 ≤ (List.replicate 2147483647 'a' ++ ['b']).dedup.length
        ∧ tree_root (calc_probas (List.replicate 2147483647 'a' ++ ['b']) [])
          = .error Failure.empty_queue)
    ∧ ((List.replicate 400000000 'a' ++ (List.replicate 400000000 'b'
          ++ List.replicate 800000000 'c')).length < 2147483648
      ∧ tree_root (calc_probas (List.replicate 400000000 'a' ++ (List.replicate 400000000 'b'
          ++ List.replicate 800000000 'c')) [])
        = .ok (node.mk 1 '$' (node.leaf (1 / 2) 'c')
            (node.mk (1 / 2) '$' (node.leaf (1 / 4) 'a') (node.leaf (1 / 4) 'b')))
      ∧ ∃ enc,
          encode_msg (List.replicate 400000000 'a' ++ (List.replicate 400000000 'b'
              ++ List.replicate 800000000 'c'))
            (traverse_tree (node.mk 1 '$' (node.leaf (1 / 2) 'c')
              (node.mk (1 / 2) '$' (node.leaf (1 / 4) 'a') (node.leaf (1 / 4) 'b'))) [] [])
            = .ok enc
          ∧ enc.length = 2400000000
          ∧ decode_huff (node.mk 1 '$' (node.leaf (1 / 2) 'c')
              (node.mk (1 / 2) '$' (node.leaf (1 / 4) 'a') (node.leaf (1 / 4) 'b'))) enc
            = .ok ['\n']) := by
  refine ⟨by decide!, ⟨by decide!, by decide!⟩, ⟨?_, ?_⟩, long_encoding_not_decoded⟩
  · apply two_le_length_of_ne (a := 'a') (b := 'b')
    · rw [List.mem_dedup, List.mem_append, List.mem_replicate]
      exact Or.inl ⟨by decide, rfl⟩
    · rw [List.mem_dedup, List.mem_append]
      exact Or.inr (List.mem_singleton.mpr rfl)
    · decide
  · rw [calc_probas_long _ (to_int_nonpos (by
      rw [List.length_append, List.length_replicate]; decide))]
    rfl

/-- C2: for every message, the code table `main` derives with `tree_create` and
`traverse_tree` has no code that begins the code of a different symbol. -/
theorem C2_prefix_free (msg : List Char) (table : CharMap (List Char))
    (h : code_table msg = .ok table) : prefix_free table := by
  obtain ⟨root, hroot, htable⟩ := code_table_ok h
  obtain ⟨_, hb, _⟩ := tree_root_ok hroot
  rw [htable]
  exact prefix_free_of_sentinel root (built_parts hb).2.1

/-- C2, a concrete instance: the table of `abracadabra`. -/
theorem C2_prefix_free_witness :
    code_table ['a', 'b', 'r', 'a', 'c', 'a', 'd', 'a', 'b', 'r', 'a']
      = .ok [('a', ['0']), ('b', ['1', '1', '0']), ('c', ['1', '0', '0']),
          ('d', ['1', '0', '1']), ('r', ['1', '1', '1'])]
    ∧ prefix_free [('a', ['0']), ('b', ['1', '1', '0']), ('c', ['1', '0', '0']),
          ('d', ['1', '0', '1']), ('r', ['1', '1', '1'])] :=
  ⟨by decide!, C2_prefix_free ['a', 'b', 'r', 'a', 'c', 'a', 'd', 'a', 'b', 'r', 'a'] _ (by decide!)⟩

/-- C3 (as amended): for every tree `main` builds from a table whose symbols are neither
`'$'` nor a line end, and for every formatting of weights that `stod` reads back,
`save_tree` writes a text from which `load_tree` rebuilds the same tree up to its weights
(same branching, same characters), reading the whole text; `decode_huff` prints the same
on the rebuilt tree as on the original for every input string. -/
theorem C3_serialization_round_trip (fmt : ℚ → List Char) (stod : List Char → Option ℚ)
    (htext : text_ok fmt stod) (charWeights : CharMap ℚ) (root : node)
    (hroot : tree_root charWeights = .ok root)
    (hsym : ∀ e ∈ charWeights, e.1 ≠ '$' ∧ e.1 ≠ '\n') :
    ∃ file pq, save_tree fmt root [] = .ok file
      ∧ load_tree stod (file.length + 1) node.null file []
          = .ok (root.reweigh (reread fmt stod), [], pq)
      ∧ ∀ s, decode_huff (root.reweigh (reread fmt stod)) s = decode_huff root s := by
  obtain ⟨_, hb, hp⟩ := tree_root_ok hroot
  obtain ⟨hst, hse, _⟩ := built_parts hb
  have hlv : ∀ e ∈ root.leaves, e.1 ≠ '$' ∧ e.1 ≠ '\n' :=
    fun e he => hsym e (hp.subset he)
  have hload := load_tree_records fmt stod htext root hst hse hlv
    ((root.records fmt).length + 1) node.null [] [] (by omega)
  simp only [List.append_nil] at hload
  refine ⟨root.records fmt, _, ?_, hload, fun s => decode_huff_reweigh _ root s⟩
  simpa using save_tree_eq fmt root [] (strict_ne_null hst)

/-- C3, a concrete instance: the table with `a` and `b` at weight 1/2 each. -/
theorem C3_serialization_round_trip_witness :
    text_ok fmt_sample stod_sample
    ∧ tree_root [('a', 1 / 2), ('b', 1 / 2)]
        = .ok (node.mk 1 '$' (node.leaf (1 / 2) 'a') (node.leaf (1 / 2) 'b'))
    ∧ (∀ e ∈ [('a', (1 / 2 : ℚ)), ('b', (1 / 2 : ℚ))], e.1 ≠ '$' ∧ e.1 ≠ '\n')
    ∧ ∃ file pq,
        save_tree fmt_sample (node.mk 1 '$' (node.leaf (1 / 2) 'a') (node.leaf (1 / 2) 'b')) []
          = .ok file
        ∧ load_tree stod_sample (file.length + 1) node.null file []
          = .ok ((node.mk 1 '$' (node.leaf (1 / 2) 'a') (node.leaf (1 / 2) 'b')).reweigh
              (reread fmt_sample stod_sample), [], pq)
        ∧ ∀ s, decode_huff ((node.mk 1 '$' (node.leaf (1 / 2) 'a')
              (node.leaf (1 / 2) 'b')).reweigh (reread fmt_sample stod_sample)) s
            = decode_huff (node.mk 1 '$' (node.leaf (1 / 2) 'a') (node.leaf (1 / 2) 'b')) s :=
  ⟨text_ok_sample, by decide!, by decide,
    C3_serialization_round_trip fmt_sample stod_sample text_ok_sample
      [('a', 1 / 2), ('b', 1 / 2)] _ (by decide!) (by decide)⟩

/-- C3 fails as stated.  The tree built from the table of the message `a$` has the leaves
`'$'` and `a`; `load_tree` reads the record of the leaf `'$'` as an inner node, so the
rebuilt tree has another shape, and the bitstring `1` (the code of `a`) prints `a` on the
original and nothing on the rebuilt tree.  The tree built from the table with a line end
and `a` is written with an empty line in the middle, on which `stod` throws. -/
theorem C3_counterexample :
    (tree_root [('$', 1 / 2), ('a', 1 / 2)]
        = .ok (node.mk 1 '$' (node.leaf (1 / 2) '$') (node.leaf (1 / 2) 'a'))
      ∧ save_tree fmt_sample (node.mk 1 '$' (node.leaf (1 / 2) '$') (node.leaf (1 / 2) 'a')) []
        = .ok ['1', ' ', '$', '\n', '0', '.', '5', ' ', '$', '\n', '0', '.', '5', ' ', 'a', '\n']
      ∧ load_tree stod_sample 17 node.null
          ['1', ' ', '$', '\n', '0', '.', '5', ' ', '$', '\n', '0', '.', '5', ' ', 'a', '\n'] []
        = .ok (node.mk 1 '$' (node.mk (1 / 2) '$' (node.leaf (1 / 2) 'a') node.null) node.null,
            [],
            [node.mk 1 '$' (node.mk (1 / 2) '$' (node.leaf (1 / 2) 'a') node.null) node.null])
      ∧ decode_huff (node.mk 1 '$' (node.leaf (1 / 2) '$') (node.leaf (1 / 2) 'a')) ['1']
        = .ok ['a', '\n']
      ∧ decode_huff
          (node.mk 1 '$' (node.mk (1 / 2) '$' (node.leaf (1 / 2) 'a') node.null) node.null)
          ['1']
        = .ok ['\n'])
    ∧ (tree_root [('\n', 1 / 2), ('a', 1 / 2)]
        = .ok (node.mk 1 '$' (node.leaf (1 / 2) '\n') (node.leaf (1 / 2) 'a'))
      ∧ save_tree fmt_sample (node.mk 1 '$' (node.leaf (1 / 2) '\n') (node.leaf (1 / 2) 'a')) []
        = .ok ['1', ' ', '$', '\n', '0', '.', '5', ' ', '\n', '\n', '0', '.', '5', ' ', 'a', '\n']
      ∧ load_tree stod_sample 17 node.null
          ['1', ' ', '$', '\n', '0', '.', '5', ' ', '\n', '\n', '0', '.', '5', ' ', 'a', '\n'] []
        = .error Failure.invalid_argument) := by
  refine ⟨⟨by decide!, by decide!, by decide!, by decide!, by decide!⟩,
    by decide!, by decide!, by decide!⟩

/-- C4: for every frequency table with at least two entries, `tree_create` leaves exactly
one node in the queue, the root of a strict binary tree whose leaves are the entries of the
table, one leaf per entry; it has as many leaves as the table has entries and one inner node
less. -/
theorem C4_tree_shape (charWeights : CharMap ℚ) (h : 2 ≤ charWeights.length) :
    ∃ root, tree_create [] charWeights = .ok [root] ∧ root.strict = true
      ∧ List.Perm root.leaves charWeights
      ∧ root.num_leaves = charWeights.length
      ∧ root.num_internal = charWeights.length - 1 := by
  have hne : charWeights ≠ [] := by
    intro h0; rw [h0] at h; simp at h
  obtain ⟨root, hr, hb, hp⟩ := tree_create_spec charWeights hne
  have hst := (built_parts hb).1
  have hnl : root.num_leaves = charWeights.length := by
    rw [num_leaves_eq, hp.length_eq]
  have hni := num_internal_succ root hst
  exact ⟨root, hr, hst, hp, hnl, by omega⟩

/-- C4, a concrete instance: the table with `a`, `b`, `c` at weights 1/2, 1/4, 1/4. -/
theorem C4_tree_shape_witness :
    2 ≤ [('a', (1 / 2 : ℚ)), ('b', (1 / 4 : ℚ)), ('c', (1 / 4 : ℚ))].length
    ∧ ∃ root, tree_create [] [('a', 1 / 2), ('b', 1 / 4), ('c', 1 / 4)] = .ok [root]
      ∧ root.strict = true
      ∧ List.Perm root.leaves [('a', 1 / 2), ('b', 1 / 4), ('c', 1 / 4)]
      ∧ root.num_leaves = [('a', (1 / 2 : ℚ)), ('b', (1 / 4 : ℚ)), ('c', (1 / 4 : ℚ))].length
      ∧ root.num_internal
          = [('a', (1 / 2 : ℚ)), ('b', (1 / 4 : ℚ)), ('c', (1 / 4 : ℚ))].length - 1 :=
  ⟨by decide, C4_tree_shape _ (by decide)⟩

/-- C5 (as amended): in the tree `main` builds from a frequency table, every leaf whose
symbol is not `'$'` has exactly one entry in the table of `traverse_tree`, and the entry is
the path from the root to that leaf, `'0'` for a left step and `'1'` for a right step. -/
theorem C5_code_table_content (charWeights : CharMap ℚ) (hord : charWeights.ordered)
    (root : node) (hroot : tree_root charWeights = .ok root) (q : List Char)
    (hleaf : (root.follow q).isLeaf = true) (hc : (root.follow q).c ≠ '$') :
    (traverse_tree root [] []).find (root.follow q).c = some q
    ∧ (traverse_tree root [] []).keys.count (root.follow q).c = 1 := by
  obtain ⟨_, hb, hp⟩ := tree_root_ok hroot
  obtain ⟨_, hse, _⟩ := built_parts hb
  have hnd : (root.leaves.map Prod.fst).Nodup :=
    (hp.map Prod.fst).nodup_iff.mpr (ordered_nodup charWeights hord)
  obtain ⟨p, hp1, hp2, hp3⟩ := table_entry_of_leaf root hse _ _ (follow_leaves root q hleaf) hc
  have hpq : p = q := leaf_path_unique root hnd p q hp2 hleaf hp3
  subst hpq
  refine ⟨hp1, ?_⟩
  have hmem : (root.follow p).c ∈ (traverse_tree root [] []).keys :=
    (find_isSome_iff _ _).mp (by rw [hp1]; rfl)
  exact List.count_eq_one_of_mem (ordered_nodup _ (traverse_tree_find root 'x').1) hmem

/-- C5, a concrete instance: the leaf `b` of the tree built from `a`, `b` at 1/2 each. -/
theorem C5_code_table_content_witness :
    CharMap.ordered [('a', (1 / 2 : ℚ)), ('b', (1 / 2 : ℚ))]
    ∧ tree_root [('a', 1 / 2), ('b', 1 / 2)]
        = .ok (node.mk 1 '$' (node.leaf (1 / 2) 'a') (node.leaf (1 / 2) 'b'))
    ∧ ((node.mk 1 '$' (node.leaf (1 / 2) 'a') (node.leaf (1 / 2) 'b')).follow ['1']).isLeaf = true
    ∧ ((node.mk 1 '$' (node.leaf (1 / 2) 'a') (node.leaf (1 / 2) 'b')).follow ['1']).c ≠ '$'
    ∧ (traverse_tree (node.mk 1 '$' (node.leaf (1 / 2) 'a') (node.leaf (1 / 2) 'b')) [] []).find
          ((node.mk 1 '$' (node.leaf (1 / 2) 'a') (node.leaf (1 / 2) 'b')).follow ['1']).c
        = some ['1']
    ∧ (traverse_tree (node.mk 1 '$' (node.leaf (1 / 2) 'a') (node.leaf (1 / 2) 'b')) [] []).keys.count
          ((node.mk 1 '$' (node.leaf (1 / 2) 'a') (node.leaf (1 / 2) 'b')).follow ['1']).c
        = 1 :=
  ⟨by unfold CharMap.ordered CharMap.keys; decide, by decide!, by decide!, by decide!,
    C5_code_table_content [('a', 1 / 2), ('b', 1 / 2)]
      (by unfold CharMap.ordered CharMap.keys; decide) _ (by decide!) ['1'] (by decide!)
      (by decide!)⟩

/-- C5 fails as stated.  The tree built from the table of the message `a$` holds the symbol
`'$'` on the leaf reached by `0`, and the table of `traverse_tree` has no entry for it. -/
theorem C5_counterexample :
    tree_root [('$', 1 / 2), ('a', 1 / 2)]
      = .ok (node.mk 1 '$' (node.leaf (1 / 2) '$') (node.leaf (1 / 2) 'a'))
    ∧ ((node.mk 1 '$' (node.leaf (1 / 2) '$') (node.leaf (1 / 2) 'a')).follow ['0']).isLeaf = true
    ∧ ((node.mk 1 '$' (node.leaf (1 / 2) '$') (node.leaf (1 / 2) 'a')).follow ['0']).c = '$'
    ∧ (traverse_tree (node.mk 1 '$' (node.leaf (1 / 2) '$') (node.leaf (1 / 2) 'a')) [] []).find '$'
      = none := by
  refine ⟨by decide!, by decide!, by decide!, by decide!⟩

/-- C6 (as amended): for every non-empty message of fewer than 2^31 characters,
`calc_probas` started on an empty table yields a table whose keys are exactly the distinct
symbols of the message (in increasing order, each once) and that maps each symbol to its
number of occurrences divided by the length of the message; the values add up to one. -/
theorem C6_frequency_table (msg : List Char) (hne : msg ≠ [])
    (hlen : msg.length < 2147483648) :
    (calc_probas msg []).ordered
    ∧ (∀ c, c ∈ (calc_probas msg []).keys ↔ c ∈ msg)
    ∧ (∀ c, c ∈ msg →
        (calc_probas msg []).find c = some ((msg.count c : ℚ) / (msg.length : ℚ)))
    ∧ ((calc_probas msg []).map Prod.snd).sum = 1 := by
  obtain ⟨h1, h2, h3⟩ := calc_probas_spec msg hlen
  refine ⟨h1, h2, h3, calc_probas_sum msg ?_⟩
  intro hnil
  obtain ⟨x, hx⟩ := List.exists_mem_of_ne_nil msg hne
  have := (h2 x).mpr hx
  rw [hnil] at this
  simp [CharMap.keys] at this

/-- C6, a concrete instance: the message `abracadabra`. -/
theorem C6_frequency_table_witness :
    ['a', 'b', 'r', 'a', 'c', 'a', 'd', 'a', 'b', 'r', 'a'] ≠ []
    ∧ ['a', 'b', 'r', 'a', 'c', 'a', 'd', 'a', 'b', 'r', 'a'].length < 2147483648
    ∧ calc_probas ['a', 'b', 'r', 'a', 'c', 'a', 'd', 'a', 'b', 'r', 'a'] []
        = [('a', 5 / 11), ('b', 2 / 11), ('c', 1 / 11), ('d', 1 / 11), ('r', 2 / 11)]
    ∧ ((calc_probas ['a', 'b', 'r', 'a', 'c', 'a', 'd', 'a', 'b', 'r', 'a'] []).map
        Prod.snd).sum = 1 :=
  ⟨by decide, by decide, by decide!,
    (C6_frequency_table ['a', 'b', 'r', 'a', 'c', 'a', 'd', 'a', 'b', 'r', 'a']
      (by decide) (by decide)).2.2.2⟩

/-- C6 fails as stated.  For the message of 2^31 copies of `a` the conversion
`(int) msg.length()` is negative, the counting loop does not run, and the table stays
empty although `a` occurs in the message. -/
theorem C6_counterexample :
    List.replicate 2147483648 'a' ≠ []
    ∧ 'a' ∈ List.replicate 2147483648 'a'
    ∧ calc_probas (List.replicate 2147483648 'a') [] = []
    ∧ 'a' ∉ (calc_probas (List.replicate 2147483648 'a') []).keys := by
  have h : calc_probas (List.replicate 2147483648 'a') [] = [] :=
    calc_probas_long _ (to_int_nonpos (by rw [List.length_replicate]))
  refine ⟨?_, ?_, h, ?_⟩
  · intro h0
    have := congrArg List.length h0
    rw [List.length_replicate] at this
    exact absurd this (by decide)
  · rw [List.mem_replicate]
    exact ⟨by decide, rfl⟩
  · rw [h]
    simp [CharMap.keys]

/-- C7: in every tree `main` obtains from `tree_create`, each node with children has the
weight `left->proba + right->proba`, the weight of the root is the sum of the weights of the
table, and it is 1 when the table was produced by `calc_probas` from a message. -/
theorem C7_weight_conservation (charWeights : CharMap ℚ) (root : node)
    (hroot : tree_root charWeights = .ok root) :
    root.weights_ok = true
    ∧ root.proba = (charWeights.map Prod.snd).sum
    ∧ (∀ msg, charWeights = calc_probas msg [] → root.proba = 1) := by
  obtain ⟨hne, hb, hp⟩ := tree_root_ok hroot
  obtain ⟨hst, _, hw⟩ := built_parts hb
  have hsum : root.proba = (charWeights.map Prod.snd).sum := by
    rw [proba_eq_sum_leaves root hst hw]
    exact (hp.map Prod.snd).sum_eq
  refine ⟨hw, hsum, ?_⟩
  intro msg hmsg
  rw [hsum, hmsg]
  exact calc_probas_sum msg (hmsg ▸ hne)

/-- C7, a concrete instance: the tree of `abracadabra`. -/
theorem C7_weight_conservation_witness :
    tree_root (calc_probas ['a', 'b', 'r', 'a', 'c', 'a', 'd', 'a', 'b', 'r', 'a'] [])
      = .ok (node.mk 1 '$' (node.leaf (5 / 11) 'a')
          (node.mk (6 / 11) '$'
            (node.mk (2 / 11) '$' (node.leaf (1 / 11) 'c') (node.leaf (1 / 11) 'd'))
            (node.mk (4 / 11) '$' (node.leaf (2 / 11) 'b') (node.leaf (2 / 11) 'r'))))
    ∧ (node.mk 1 '$' (node.leaf (5 / 11) 'a')
          (node.mk (6 / 11) '$'
            (node.mk (2 / 11) '$' (node.leaf (1 / 11) 'c') (node.leaf (1 / 11) 'd'))
            (node.mk (4 / 11) '$' (node.leaf (2 / 11) 'b') (node.leaf (2 / 11) 'r')))).weights_ok
        = true :=
  ⟨by decide!,
    (C7_weight_conservation
      (calc_probas ['a', 'b', 'r', 'a', 'c', 'a', 'd', 'a', 'b', 'r', 'a'] []) _
      (by decide!)).1⟩

/-- C8: for the message `abracadabra` the table of `calc_probas` is a:5/11, b:2/11, c:1/11,
d:1/11, r:2/11; with the pop order of the libstdc++ heap the code table is a:0, b:110,
c:100, d:101, r:111, so len(a) <= len(b) = len(r) <= len(c) = len(d). -/
theorem C8_abracadabra :
    calc_probas ['a', 'b', 'r', 'a', 'c', 'a', 'd', 'a', 'b', 'r', 'a'] []
      = [('a', 5 / 11), ('b', 2 / 11), ('c', 1 / 11), ('d', 1 / 11), ('r', 2 / 11)]
    ∧ ∃ table a b r c d,
        code_table ['a', 'b', 'r', 'a', 'c', 'a', 'd', 'a', 'b', 'r', 'a'] = .ok table
        ∧ table.find 'a' = some a ∧ table.find 'b' = some b ∧ table.find 'r' = some r
        ∧ table.find 'c' = some c ∧ table.find 'd' = some d
        ∧ a.length ≤ b.length ∧ b.length = r.length ∧ r.length ≤ c.length
        ∧ c.length = d.length :=
  ⟨by decide!,
    [('a', ['0']), ('b', ['1', '1', '0']), ('c', ['1', '0', '0']), ('d', ['1', '0', '1']),
      ('r', ['1', '1', '1'])],
    ['0'], ['1', '1', '0'], ['1', '1', '1'], ['1', '0', '0'], ['1', '0', '1'],
    by decide!, by decide!, by decide!, by decide!, by decide!, by decide!,
    by decide, by decide, by decide, by decide⟩

/-- C9, the code at the failing input `aaaa`: the tree is the single leaf `a`, the table
gives `a` the empty code, the message is encoded to the empty bitstring, and `decode_huff`
on the built root prints only the final line end, not `aaaa`; in the decode branch of
`main`, `load_tree` rebuilds the leaf but never pushes it, so `pq.top()` is called on an
empty queue. -/
theorem C9_degenerate_alphabet :
    tree_root (calc_probas ['a', 'a', 'a', 'a'] []) = .ok (node.leaf 1 'a')
    ∧ main_enc fmt_sample ['a', 'a', 'a', 'a'] = .ok ([('a', [])], [], ['1', ' ', 'a', '\n'])
    ∧ decode_huff (node.leaf 1 'a') [] = .ok ['\n']
    ∧ load_tree stod_sample 5 node.null ['1', ' ', 'a', '\n'] [] = .ok (node.leaf 1 'a', [], [])
    ∧ main_dec stod_sample ['1', ' ', 'a', '\n'] [] = .error Failure.empty_queue := by
  refine ⟨by decide!, by decide!, by decide!, by decide!, by decide!⟩

/-- A message of fewer than 2^31 characters with a character that has no entry in the
table: the loop of `encode_msg` reaches `find(ch)->second` with `find(ch) == end()`. -/
theorem encode_msg_missing (table : CharMap (List Char)) (msg : List Char)
    (hlen : msg.length < 2147483648) (hmiss : ∃ ch ∈ msg, table.find ch = none) :
    encode_msg msg table = .error Failure.end_iterator_dereference := by
  rw [encode_msg_eq _ _ hlen]
  exact encode_loop_missing table msg [] hmiss

/-- Claim C10, a defect of the code: `encode_msg` does not test the iterator `find`
returns.  For every table and every message of fewer than 2^31 characters with a character
that has no entry, the run reaches the dereference of `end()` at line 104, which is undefined
behaviour: the model stops there with the outcome `end_iterator_dereference`, and what a
compiled program does from there on is not defined.  `main` itself gets there on the message
`a$`: the table it builds holds only `a`, the character `a` is encoded to `1`, and the lookup
of `'$'` finds no entry. -/
theorem C10_unknown_symbol :
    (∀ (table : CharMap (List Char)) (msg : List Char), msg.length < 2147483648 →
        (∃ ch ∈ msg, table.find ch = none) →
        encode_msg msg table = .error Failure.end_iterator_dereference)
    ∧ code_table ['a', '$'] = .ok [('a', ['1'])]
    ∧ CharMap.find [('a', ['1'])] '$' = none
    ∧ encode_msg ['a'] [('a', ['1'])] = .ok ['1']
    ∧ encode_msg ['a', '$'] [('a', ['1'])] = .error Failure.end_iterator_dereference
    ∧ main_enc fmt_sample ['a', '$'] = .error Failure.end_iterator_dereference := by
  refine ⟨fun table msg hlen hmiss => encode_msg_missing table msg hlen hmiss, by decide!,
    by decide, by decide!, by decide!, by decide!⟩

/-! ## The cursor of `decode_huff` -/

theorem strict_children {w : ℚ} {c : Char} {l r : node} (hs : (node.mk w c l r).strict = true)
    (hl : (node.mk w c l r).isLeaf = false) : l.strict = true ∧ r.strict = true := by
  simp only [node.strict, Bool.or_eq_true, Bool.and_eq_true] at hs
  simp only [node.isLeaf] at hl
  rcases hs with h | h
  · rw [h.1, h.2] at hl; simp at hl
  · exact h

/-- One pass of the decode loop never fails with anything but a null dereference. -/
theorem decode_step_error (root : node) (st : node × List Char) (ch : Char) (e : Failure)
    (h : decode_step root st ch = .error e) : e = Failure.null_dereference := by
  obtain ⟨t, out⟩ := st
  by_cases h0 : ch = '0'
  · subst h0
    cases t with
    | null => rw [decode_step_null_zero] at h; exact (Except.error.inj h).symm
    | mk w c l r => rw [decode_step_zero] at h; simp at h
  · by_cases h1 : ch = '1'
    · subst h1
      cases t with
      | null => rw [decode_step_null_one] at h; exact (Except.error.inj h).symm
      | mk w c l r => rw [decode_step_one] at h; simp at h
    · rw [decode_step_other _ _ _ _ h0 h1] at h; simp at h

theorem decode_loop_error (root : node) :
    ∀ (s : List Char) (st : node × List Char) (e : Failure),
      List.foldlM (decode_step root) st s = .error e → e = Failure.null_dereference := by
  intro s
  induction s with
  | nil => intro st e h; simp [pure, Except.pure] at h
  | cons ch s ih =>
    intro st e h
    simp only [List.foldlM_cons] at h
    cases hs : decode_step root st ch with
    | error e' =>
      rw [hs] at h
      simp only [bind, Except.bind] at h
      rw [← Except.error.inj h]
      exact decode_step_error root st ch e' hs
    | ok st' =>
      rw [hs] at h
      simp only [bind, Except.bind] at h
      exact ih st' e h

/-- On a cursor that is not a leaf, one pass over a character other than `'0'` and `'1'`
changes nothing. -/
theorem decode_step_skip (root t : node) (out : List Char) (ch : Char) (hb : is_bit ch = false)
    (ht : t.isLeaf = false) : decode_step root (t, out) ch = .ok (t, out) := by
  simp only [is_bit, Bool.or_eq_false_iff, beq_eq_false_iff_ne, ne_eq] at hb
  rw [decode_step_other _ _ _ _ hb.1 hb.2, ht]
  rfl

/-- When the root is not a leaf, the cursor is never left on a leaf. -/
theorem decode_step_not_leaf (root t : node) (out : List Char) (ch : Char)
    (st : node × List Char) (hroot : root.isLeaf = false) (ht : t.isLeaf = false)
    (h : decode_step root (t, out) ch = .ok st) : st.1.isLeaf = false := by
  by_cases h0 : ch = '0'
  · subst h0
    cases t with
    | null => rw [decode_step_null_zero] at h; simp at h
    | mk w c l r =>
      rw [decode_step_zero] at h
      cases hl : l.isLeaf <;> rw [hl] at h <;> simp at h <;> rw [← h]
      · exact hl
      · exact hroot
  · by_cases h1 : ch = '1'
    · subst h1
      cases t with
      | null => rw [decode_step_null_one] at h; simp at h
      | mk w c l r =>
        rw [decode_step_one] at h
        cases hr : r.isLeaf <;> rw [hr] at h <;> simp at h <;> rw [← h]
        · exact hr
        · exact hroot
    · rw [decode_step_other _ _ _ _ h0 h1, ht] at h
      simp at h
      rw [← h]; exact ht

/-- The decode loop reads a string as it reads the string without its non-bit
characters, as long as the root is not a leaf. -/
theorem decode_loop_filter (root : node) (hroot : root.isLeaf = false) :
    ∀ (s : List Char) (t : node) (out : List Char), t.isLeaf = false →
      List.foldlM (decode_step root) (t, out) s
        = List.foldlM (decode_step root) (t, out) (s.filter is_bit) := by
  intro s
  induction s with
  | nil => intro t out _; rfl
  | cons ch s ih =>
    intro t out ht
    cases hb : is_bit ch with
    | false =>
      rw [List.filter_cons_of_neg (by simp [hb]), List.foldlM_cons,
        decode_step_skip root t out ch hb ht]
      simp only [bind, Except.bind]
      exact ih t out ht
    | true =>
      rw [List.filter_cons_of_pos (by simp [hb]), List.foldlM_cons, List.foldlM_cons]
      cases hs : decode_step root (t, out) ch with
      | error e => rfl
      | ok st =>
        simp only [bind, Except.bind]
        obtain ⟨t', out'⟩ := st
        exact ih t' out' (decode_step_not_leaf root t out ch _ hroot ht hs)

/-- In a strict tree whose root has children, one pass of the decode loop from a strict
cursor with children succeeds and leaves such a cursor. -/
theorem decode_step_strict (root t : node) (out : List Char) (ch : Char)
    (hrs : root.strict = true) (hrl : root.isLeaf = false)
    (hts : t.strict = true) (htl : t.isLeaf = false) :
    ∃ t' out', decode_step root (t, out) ch = .ok (t', out')
      ∧ t'.strict = true ∧ t'.isLeaf = false := by
  cases t with
  | null => simp [node.strict] at hts
  | mk w c l r =>
    obtain ⟨hl, hr⟩ := strict_children hts htl
    by_cases h0 : ch = '0'
    · subst h0
      rw [decode_step_zero]
      cases hll : l.isLeaf with
      | true => exact ⟨root, out ++ [l.c], rfl, hrs, hrl⟩
      | false => exact ⟨l, out, rfl, hl, hll⟩
    · by_cases h1 : ch = '1'
      · subst h1
        rw [decode_step_one]
        cases hrl' : r.isLeaf with
        | true => exact ⟨root, out ++ [r.c], rfl, hrs, hrl⟩
        | false => exact ⟨r, out, rfl, hr, hrl'⟩
      · rw [decode_step_other _ _ _ _ h0 h1, htl]
        exact ⟨_, out, rfl, hts, htl⟩

theorem decode_loop_strict (root : node) (hrs : root.strict = true)
    (hrl : root.isLeaf = false) :
    ∀ (s : List Char) (t : node) (out : List Char), t.strict = true → t.isLeaf = false →
      ∃ t' out', List.foldlM (decode_step root) (t, out) s = .ok (t', out')
        ∧ t'.strict = true ∧ t'.isLeaf = false := by
  intro s
  induction s with
  | nil => intro t out hts htl; exact ⟨t, out, rfl, hts, htl⟩
  | cons ch s ih =>
    intro t out hts htl
    obtain ⟨t1, out1, h1, hs1, hl1⟩ := decode_step_strict root t out ch hrs hrl hts htl
    obtain ⟨t2, out2, h2, hs2, hl2⟩ := ih t1 out1 hs1 hl1
    refine ⟨t2, out2, ?_, hs2, hl2⟩
    rw [List.foldlM_cons, h1]
    exact h2

/-- Once the cursor is null, the loop skips every character that is not a bit and
dereferences the null cursor at the first bit. -/
theorem decode_loop_null (root : node) :
    ∀ (s : List Char) (out : List Char),
      List.foldlM (decode_step root) (node.null, out) s
        = if s.any is_bit then .error Failure.null_dereference else .ok (node.null, out) := by
  intro s
  induction s with
  | nil => intro out; rfl
  | cons ch s ih =>
    intro out
    rw [List.foldlM_cons, List.any_cons]
    by_cases h0 : ch = '0'
    · subst h0
      rw [decode_step_null_zero]
      rfl
    · by_cases h1 : ch = '1'
      · subst h1
        rw [decode_step_null_one]
        rfl
      · rw [decode_step_other _ _ _ _ h0 h1]
        have hb : is_bit ch = false := by simp [is_bit, h0, h1]
        simp only [bind, Except.bind, node.isLeaf, Bool.false_eq_true, if_false, hb,
          Bool.false_or]
        exact ih out

/-- Along a path that ends on a node with children the loop prints nothing and leaves the
cursor on that node. -/
theorem decode_inner_path (root : node) :
    ∀ (q : List Char) (t : node) (out : List Char),
      (t.follow q).isNull = false → (t.follow q).isLeaf = false →
      List.foldlM (decode_step root) (t, out) q = .ok (t.follow q, out) := by
  intro q
  induction q with
  | nil => intro t out _ _; rw [follow_nil]; rfl
  | cons ch q ih =>
    intro t out hn hl
    cases t with
    | null => simp [node.follow, node.isNull] at hn
    | mk w c l r =>
      simp only [node.follow] at hn hl ⊢
      rw [List.foldlM_cons]
      by_cases h0 : ch = '0'
      · subst h0
        simp only [if_true] at hn hl ⊢
        rw [decode_step_zero]
        have hll : l.isLeaf = false := by
          by_contra hc
          have hc' : l.isLeaf = true := by simpa using hc
          cases q with
          | nil => rw [follow_nil] at hl; rw [hl] at hc'; simp at hc'
          | cons a q' => rw [follow_leaf_cons l hc'] at hn; simp [node.isNull] at hn
        simp only [hll, Bool.false_eq_true, if_false, bind, Except.bind]
        exact ih l out hn hl
      · by_cases h1 : ch = '1'
        · subst h1
          simp only [Char.reduceEq, if_false, if_true] at hn hl ⊢
          rw [decode_step_one]
          have hrl : r.isLeaf = false := by
            by_contra hc
            have hc' : r.isLeaf = true := by simpa using hc
            cases q with
            | nil => rw [follow_nil] at hl; rw [hl] at hc'; simp at hc'
            | cons a q' => rw [follow_leaf_cons r hc'] at hn; simp [node.isNull] at hn
          simp only [hrl, Bool.false_eq_true, if_false, bind, Except.bind]
          exact ih r out hn hl
        · simp [h0, h1, node.isNull] at hn

theorem decode_huff_of_loop (nd : node) (s : List Char) (hlen : s.length < 2147483648)
    (t : node) (out : List Char)
    (h : List.foldlM (decode_step nd) (nd, []) s = .ok (t, out)) :
    decode_huff nd s = .ok (out ++ ['\n']) := by
  rw [decode_huff_eq nd s hlen, h]
  rfl

theorem filter_replicate_false {α : Type} (p : α → Bool) (a : α) (h : p a = false) (n : Nat) :
    (List.replicate n a).filter p = [] := by
  induction n with
  | zero => rfl
  | succ n ih => rw [List.replicate_succ, List.filter_cons_of_neg (by simp [h]), ih]

/-! ## Claims on decoding -/

/-- C12 (as amended): `decode_huff` reports no `TruncatedStreamError`.  When a string `s`
of the input brings the cursor back to the root and is followed by a path `q` that ends on a
node with children (the stream stops in the middle of a code), and the input has fewer than
2^31 characters, `decode_huff` returns normally and prints exactly what it prints for `s`
alone: the symbols decoded so far and the final line end. -/
theorem C12_truncated_stream (root : node) (s q out : List Char)
    (hlen : (s ++ q).length < 2147483648)
    (hs : List.foldlM (decode_step root) (root, []) s = .ok (root, out))
    (hn : (root.follow q).isNull = false) (hl : (root.follow q).isLeaf = false) :
    List.foldlM (decode_step root) (root, []) (s ++ q) = .ok (root.follow q, out)
    ∧ decode_huff root (s ++ q) = .ok (out ++ ['\n'])
    ∧ decode_huff root s = .ok (out ++ ['\n']) := by
  have hloop : List.foldlM (decode_step root) (root, []) (s ++ q) = .ok (root.follow q, out) := by
    rw [List.foldlM_append, hs]
    exact decode_inner_path root q root out hn hl
  refine ⟨hloop, decode_huff_of_loop root _ hlen _ _ hloop, ?_⟩
  exact decode_huff_of_loop root s (by rw [List.length_append] at hlen; omega) _ _ hs

/-- C12, a concrete instance: on the tree with codes c:0, a:10, b:11 the input `01` ends in
the middle of a code. -/
theorem C12_truncated_stream_witness :
    (['0'] ++ ['1']).length < 2147483648
    ∧ List.foldlM
        (decode_step (node.mk 1 '$' (node.leaf (1 / 2) 'c')
          (node.mk (1 / 2) '$' (node.leaf (1 / 4) 'a') (node.leaf (1 / 4) 'b'))))
        (node.mk 1 '$' (node.leaf (1 / 2) 'c')
          (node.mk (1 / 2) '$' (node.leaf (1 / 4) 'a') (node.leaf (1 / 4) 'b')), []) ['0']
      = .ok (node.mk 1 '$' (node.leaf (1 / 2) 'c')
          (node.mk (1 / 2) '$' (node.leaf (1 / 4) 'a') (node.leaf (1 / 4) 'b')), ['c'])
    ∧ decode_huff (node.mk 1 '$' (node.leaf (1 / 2) 'c')
          (node.mk (1 / 2) '$' (node.leaf (1 / 4) 'a') (node.leaf (1 / 4) 'b'))) (['0'] ++ ['1'])
      = .ok (['c'] ++ ['\n']) :=
  ⟨by decide, by decide!,
    (C12_truncated_stream
      (node.mk 1 '$' (node.leaf (1 / 2) 'c')
        (node.mk (1 / 2) '$' (node.leaf (1 / 4) 'a') (node.leaf (1 / 4) 'b')))
      ['0'] ['1'] ['c'] (by decide) (by decide!) (by decide!) (by decide!)).2.1⟩

/-- C12 fails as stated.  On the tree with codes c:0, a:10, b:11 the bitstring `01` ends
after the first bit of a two-bit code, with the cursor on the inner node; `decode_huff`
returns the text `c` and the line end, which is not a `TruncatedStreamError`. -/
theorem C12_counterexample :
    ((node.mk 1 '$' (node.leaf (1 / 2) 'c')
        (node.mk (1 / 2) '$' (node.leaf (1 / 4) 'a') (node.leaf (1 / 4) 'b'))).isLeaf = false
      ∧ List.foldlM
          (decode_step (node.mk 1 '$' (node.leaf (1 / 2) 'c')
            (node.mk (1 / 2) '$' (node.leaf (1 / 4) 'a') (node.leaf (1 / 4) 'b'))))
          (node.mk 1 '$' (node.leaf (1 / 2) 'c')
            (node.mk (1 / 2) '$' (node.leaf (1 / 4) 'a') (node.leaf (1 / 4) 'b')), []) ['0', '1']
        = .ok (node.mk (1 / 2) '$' (node.leaf (1 / 4) 'a') (node.leaf (1 / 4) 'b'), ['c']))
    ∧ decode_huff (node.mk 1 '$' (node.leaf (1 / 2) 'c')
          (node.mk (1 / 2) '$' (node.leaf (1 / 4) 'a') (node.leaf (1 / 4) 'b'))) ['0', '1']
      = .ok ['c', '\n']
    ∧ decode_huff (node.mk 1 '$' (node.leaf (1 / 2) 'c')
          (node.mk (1 / 2) '$' (node.leaf (1 / 4) 'a') (node.leaf (1 / 4) 'b'))) ['0', '1']
      ≠ .error Failure.TruncatedStreamError := by
  refine ⟨⟨by decide!, by decide!⟩, by decide!, by decide!⟩

/-- Once a step has moved the cursor to a missing child (`null`), with an input of fewer
than 2^31 characters, the loop of `decode_huff` goes on with the null cursor: it skips the
characters that are not bits, ends normally if no bit follows, and dereferences the null
cursor at the next `'0'` or `'1'`. -/
theorem decode_huff_null_cursor (root : node) (s₁ s₂ out : List Char)
    (hlen : (s₁ ++ s₂).length < 2147483648)
    (hs : List.foldlM (decode_step root) (root, []) s₁ = .ok (node.null, out)) :
    decode_huff root (s₁ ++ s₂)
      = if s₂.any is_bit then .error Failure.null_dereference else .ok (out ++ ['\n']) := by
  rw [decode_huff_eq root _ hlen, List.foldlM_append, hs]
  simp only [bind, Except.bind]
  rw [decode_loop_null]
  split <;> rfl

/-- Claim C13, a defect of the code: the loop of `decode_huff` tests `tnd != nullptr` only
at line 165, not before `tnd->left` and `tnd->right` at lines 162 and 164.  A step to a
missing child raises no error and leaves the cursor null; the loop goes on, and the next
`'0'` or `'1'` dereferences the null cursor (undefined behaviour, the outcome
`null_dereference` of the model).  `main` gets there in decode mode on the file with the two
lines `1 $` and `0.5 a`, whose root has no right child, and the bitstring `10`; so does
`decode_huff` on a single-leaf root with the bitstring `00`. -/
theorem C13_malformed_bitstream :
    (∀ (root : node) (s₁ s₂ out : List Char), (s₁ ++ s₂).length < 2147483648 →
        List.foldlM (decode_step root) (root, []) s₁ = .ok (node.null, out) →
        decode_huff root (s₁ ++ s₂)
          = if s₂.any is_bit then .error Failure.null_dereference else .ok (out ++ ['\n']))
    ∧ load_tree stod_sample 11 node.null ['1', ' ', '$', '\n', '0', '.', '5', ' ', 'a', '\n'] []
      = .ok (node.mk 1 '$' (node.leaf (1 / 2) 'a') node.null, [],
          [node.mk 1 '$' (node.leaf (1 / 2) 'a') node.null])
    ∧ List.foldlM (decode_step (node.mk 1 '$' (node.leaf (1 / 2) 'a') node.null))
        (node.mk 1 '$' (node.leaf (1 / 2) 'a') node.null, []) ['1']
      = .ok (node.null, [])
    ∧ decode_huff (node.mk 1 '$' (node.leaf (1 / 2) 'a') node.null) ['1'] = .ok ['\n']
    ∧ decode_huff (node.mk 1 '$' (node.leaf (1 / 2) 'a') node.null) ['1', '0']
      = .error Failure.null_dereference
    ∧ main_dec stod_sample ['1', ' ', '$', '\n', '0', '.', '5', ' ', 'a', '\n'] ['1', '0']
      = .error Failure.null_dereference
    ∧ List.foldlM (decode_step (node.leaf 1 'a')) (node.leaf 1 'a', []) ['0']
      = .ok (node.null, [])
    ∧ decode_huff (node.leaf 1 'a') ['0'] = .ok ['\n']
    ∧ decode_huff (node.leaf 1 'a') ['0', '0'] = .error Failure.null_dereference := by
  refine ⟨fun root s₁ s₂ out hlen hs => decode_huff_null_cursor root s₁ s₂ out hlen hs,
    by decide!, by decide!, by decide!, by decide!, by decide!, by decide!, by decide!,
    by decide!⟩

/-- C19: for every strict binary tree whose root has children and for every input string,
the loop of `decode_huff` succeeds and ends with a cursor that is not null (so the cursor is
not null after any number of characters), and `decode_huff` returns a text; the trees
`tree_create` builds from tables with at least two entries are such trees. -/
theorem C19_decode_safety (root : node) (hs : root.strict = true) (hl : root.isLeaf = false)
    (s : List Char) :
    (∃ t out, List.foldlM (decode_step root) (root, []) s = .ok (t, out) ∧ t.isNull = false)
    ∧ (∃ text, decode_huff root s = .ok text)
    ∧ (∀ charWeights built, 2 ≤ charWeights.length → tree_root charWeights = .ok built →
        built.strict = true ∧ built.isLeaf = false) := by
  refine ⟨?_, ?_, ?_⟩
  · obtain ⟨t, out, h, hts, _⟩ := decode_loop_strict root hs hl s root [] hs hl
    exact ⟨t, out, h, strict_ne_null hts⟩
  · obtain ⟨t, out, h, _, _⟩ := decode_loop_strict root hs hl
      (s.take (to_int s.length).toNat) root [] hs hl
    refine ⟨out ++ ['\n'], ?_⟩
    unfold decode_huff
    rw [h]
    rfl
  · intro charWeights built h2 hb
    obtain ⟨_, hbuilt, hp⟩ := tree_root_ok hb
    refine ⟨(built_parts hbuilt).1, ?_⟩
    apply isLeaf_false_of_two_leaves
    rw [hp.length_eq]; exact h2

/-- C19, a concrete instance: the tree with codes a:0, b:1 and the input `0x1`. -/
theorem C19_decode_safety_witness :
    (node.mk 1 '$' (node.leaf (1 / 2) 'a') (node.leaf (1 / 2) 'b')).strict = true
    ∧ (node.mk 1 '$' (node.leaf (1 / 2) 'a') (node.leaf (1 / 2) 'b')).isLeaf = false
    ∧ decode_huff (node.mk 1 '$' (node.leaf (1 / 2) 'a') (node.leaf (1 / 2) 'b'))
        ['0', 'x', '1'] = .ok ['a', 'b', '\n']
    ∧ ∃ text, decode_huff (node.mk 1 '$' (node.leaf (1 / 2) 'a') (node.leaf (1 / 2) 'b'))
        ['0', 'x', '1'] = .ok text :=
  ⟨by decide!, by decide!, by decide!,
    (C19_decode_safety (node.mk 1 '$' (node.leaf (1 / 2) 'a') (node.leaf (1 / 2) 'b'))
      (by decide!) (by decide!) ['0', 'x', '1']).2.1⟩

/-- C20 (as amended): for every tree whose root has children (in particular every strict
binary tree with such a root) and every input string of fewer than 2^31 characters,
`decode_huff` prints on the string what it prints on the string with every character other
than `'0'` and `'1'` removed. -/
theorem C20_non_bits_skipped (root : node) (hl : root.isLeaf = false) (s : List Char)
    (hlen : s.length < 2147483648) :
    decode_huff root s = decode_huff root (s.filter is_bit) := by
  have hle : (s.filter is_bit).length ≤ s.length := List.length_filter_le _ _
  rw [decode_huff_eq root s hlen, decode_huff_eq root _ (by omega),
    decode_loop_filter root hl s root [] hl]

/-- C20, a concrete instance: the tree with codes a:0, b:1 and the input `0x1`. -/
theorem C20_non_bits_skipped_witness :
    (node.mk 1 '$' (node.leaf (1 / 2) 'a') (node.leaf (1 / 2) 'b')).isLeaf = false
    ∧ ['0', 'x', '1'].length < 2147483648
    ∧ ['0', 'x', '1'].filter is_bit = ['0', '1']
    ∧ decode_huff (node.mk 1 '$' (node.leaf (1 / 2) 'a') (node.leaf (1 / 2) 'b'))
        ['0', 'x', '1']
      = decode_huff (node.mk 1 '$' (node.leaf (1 / 2) 'a') (node.leaf (1 / 2) 'b'))
        (['0', 'x', '1'].filter is_bit) :=
  ⟨by decide!, by decide, by decide,
    C20_non_bits_skipped _ (by decide!) ['0', 'x', '1'] (by decide)⟩

/-- C20 fails as stated.  On the strict tree with codes a:0, b:1 and the input made of 2^31
times `x` followed by `0`, the length converts to a negative `int` and `decode_huff` prints
only the line end, while on the input without the `x` (the string `0`) it prints `a`. -/
theorem C20_counterexample :
    (node.mk 1 '$' (node.leaf (1 / 2) 'a') (node.leaf (1 / 2) 'b')).strict = true
    ∧ (node.mk 1 '$' (node.leaf (1 / 2) 'a') (node.leaf (1 / 2) 'b')).isLeaf = false
    ∧ (List.replicate 2147483648 'x' ++ ['0']).filter is_bit = ['0']
    ∧ decode_huff (node.mk 1 '$' (node.leaf (1 / 2) 'a') (node.leaf (1 / 2) 'b'))
        (List.replicate 2147483648 'x' ++ ['0']) = .ok ['\n']
    ∧ decode_huff (node.mk 1 '$' (node.leaf (1 / 2) 'a') (node.leaf (1 / 2) 'b')) ['0']
      = .ok ['a', '\n'] := by
  refine ⟨by decide!, by decide!, ?_, ?_, by decide!⟩
  · rw [List.filter_append, filter_replicate_false is_bit 'x' (by decide)]
    rfl
  · apply decode_huff_long
    apply to_int_nonpos
    rw [List.length_append, List.length_replicate]
    decide

/-! ## Records in pre-order -/

theorem records_eq_preorder (fmt : ℚ → List Char) (t : node) :
    t.records fmt = t.preorder.flatMap (record fmt) := by
  induction t with
  | null => rfl
  | mk p c l r ihl ihr =>
    simp only [node.records, node.preorder, List.flatMap_cons, List.flatMap_append, ihl, ihr,
      record, node.proba, node.c]

theorem preorder_length (t : node) : t.preorder.length = t.num_leaves + t.num_internal := by
  induction t with
  | null => rfl
  | mk p c l r ihl ihr =>
    simp only [node.preorder, List.length_cons, List.length_append, ihl, ihr, node.num_leaves,
      node.num_internal]
    split
    · rename_i h
      simp only [Bool.and_eq_true] at h
      have hl : l = node.null := by cases l <;> simp_all [node.isNull]
      have hr : r = node.null := by cases r <;> simp_all [node.isNull]
      subst hl hr
      simp [node.num_leaves, node.num_internal]
    · omega

theorem preorder_head (t : node) (h : t.isNull = false) : t.preorder.head? = some t := by
  cases t with
  | null => simp [node.isNull] at h
  | mk p c l r => rfl

/-- In a tree with sentinel inner nodes, every node with a child carries `'$'`. -/
theorem preorder_sentinel (t : node) (hs : t.sentinel_ok = true) :
    ∀ nd ∈ t.preorder, nd.isLeaf = false → nd.c = '$' := by
  induction t with
  | null => intro nd h; simp [node.preorder] at h
  | mk p c l r ihl ihr =>
    intro nd h hl
    simp only [node.sentinel_ok, Bool.and_eq_true, Bool.or_eq_true, beq_iff_eq] at hs
    obtain ⟨⟨hs0, hsl⟩, hsr⟩ := hs
    simp only [node.preorder, List.mem_cons, List.mem_append] at h
    rcases h with h | h | h
    · subst h
      simp only [node.isLeaf] at hl
      rcases hs0 with h0 | h0
      · rw [h0.1, h0.2] at hl; simp at hl
      · exact h0
    · exact ihl hsl nd h hl
    · exact ihr hsr nd h hl

/-- Every node without children is one of the leaves of the tree. -/
theorem preorder_leaf (t : node) :
    ∀ nd ∈ t.preorder, nd.isLeaf = true → (nd.c, nd.proba) ∈ t.leaves := by
  induction t with
  | null => intro nd h; simp [node.preorder] at h
  | mk p c l r ihl ihr =>
    intro nd h hl
    simp only [node.preorder, List.mem_cons, List.mem_append] at h
    rcases h with h | h | h
    · subst h
      simp only [node.isLeaf] at hl
      simp [node.leaves, hl, node.c, node.proba]
    · have hm := ihl nd h hl
      have hne : (l.isNull && r.isNull) = false := by
        cases l with
        | null => simp [node.leaves] at hm
        | mk _ _ _ _ => simp [node.isNull]
      simp only [node.leaves, hne, Bool.false_eq_true, if_false, List.mem_append]
      exact Or.inl hm
    · have hm := ihr nd h hl
      have hne : (l.isNull && r.isNull) = false := by
        cases r with
        | null => simp [node.leaves] at hm
        | mk _ _ _ _ => simp [node.isNull]
      simp only [node.leaves, hne, Bool.false_eq_true, if_false, List.mem_append]
      exact Or.inr hm

/-- C16: for every non-null tree `save_tree` appends exactly the records of its nodes in
pre-order (the node, then its left subtree, then its right subtree), each record made of the
weight and the character of the node, the first one being the root's; in a tree built by
`tree_create` from a table of n entries there are 2n-1 records, every node with a child
carries `'$'` and every node without children carries a symbol of the table with its
weight. -/
theorem C16_serialization_order (fmt : ℚ → List Char) (t : node) (outFile : List Char)
    (ht : t.isNull = false) :
    save_tree fmt t outFile = .ok (outFile ++ t.preorder.flatMap (record fmt))
    ∧ t.preorder.head? = some t
    ∧ (∀ p c l r, t = node.mk p c l r → t.preorder = t :: (l.preorder ++ r.preorder))
    ∧ (∀ charWeights, tree_root charWeights = .ok t →
        t.preorder.length = 2 * charWeights.length - 1
        ∧ ∀ nd ∈ t.preorder, (nd.isLeaf = false → nd.c = '$')
            ∧ (nd.isLeaf = true → (nd.c, nd.proba) ∈ charWeights)) := by
  refine ⟨?_, preorder_head t ht, ?_, ?_⟩
  · rw [save_tree_eq fmt t outFile ht, records_eq_preorder]
  · intro p c l r h
    subst h
    rfl
  · intro charWeights hroot
    obtain ⟨hne, hb, hp⟩ := tree_root_ok hroot
    obtain ⟨hst, hse, _⟩ := built_parts hb
    have hnl : t.num_leaves = charWeights.length := by rw [num_leaves_eq, hp.length_eq]
    have hni := num_internal_succ t hst
    refine ⟨by rw [preorder_length]; omega, ?_⟩
    intro nd hnd
    exact ⟨preorder_sentinel t hse nd hnd, fun hl => hp.subset (preorder_leaf t nd hnd hl)⟩

/-- C16, a concrete instance: the tree of the table a:1/2, b:1/4, c:1/4 has five records. -/
theorem C16_serialization_order_witness :
    (node.mk 1 '$' (node.leaf (1 / 2) 'a')
        (node.mk (1 / 2) '$' (node.leaf (1 / 4) 'b') (node.leaf (1 / 4) 'c'))).isNull = false
    ∧ tree_root [('a', 1 / 2), ('b', 1 / 4), ('c', 1 / 4)]
      = .ok (node.mk 1 '$' (node.leaf (1 / 2) 'a')
          (node.mk (1 / 2) '$' (node.leaf (1 / 4) 'b') (node.leaf (1 / 4) 'c')))
    ∧ save_tree fmt_sample (node.mk 1 '$' (node.leaf (1 / 2) 'a')
          (node.mk (1 / 2) '$' (node.leaf (1 / 4) 'b') (node.leaf (1 / 4) 'c'))) []
      = .ok ['1', ' ', '$', '\n', '0', '.', '5', ' ', 'a', '\n', '0', '.', '5', ' ', '$', '\n',
          '0', '.', '2', '5', ' ', 'b', '\n', '0', '.', '2', '5', ' ', 'c', '\n']
    ∧ save_tree fmt_sample (node.mk 1 '$' (node.leaf (1 / 2) 'a')
          (node.mk (1 / 2) '$' (node.leaf (1 / 4) 'b') (node.leaf (1 / 4) 'c'))) []
      = .ok ([] ++ (node.mk 1 '$' (node.leaf (1 / 2) 'a')
          (node.mk (1 / 2) '$' (node.leaf (1 / 4) 'b')
            (node.leaf (1 / 4) 'c'))).preorder.flatMap (record fmt_sample)) :=
  ⟨by decide!, by decide!, by decide!,
    (C16_serialization_order fmt_sample
      (node.mk 1 '$' (node.leaf (1 / 2) 'a')
        (node.mk (1 / 2) '$' (node.leaf (1 / 4) 'b') (node.leaf (1 / 4) 'c'))) []
      (by decide!)).1⟩

/-! ## Reading damaged files -/

theorem load_tree_nil (stod : List Char → Option ℚ) (fuel : Nat) (nd : node)
    (pq : List node) : load_tree stod fuel nd [] pq = .ok (nd, [], pq) := by
  cases fuel <;> rfl

theorem eq_null_of_isNull {t : node} (h : t.isNull = true) : t = node.null := by
  cases t with
  | null => rfl
  | mk p c l r => simp [node.isNull] at h

theorem cut_zero (t : node) : (t.cut 0).1 = node.null := by
  cases t <;> rfl

theorem cut_snd (t : node) : ∀ k, (t.cut k).2 = k - t.preorder.length := by
  induction t with
  | null => intro k; simp [node.cut, node.preorder]
  | mk p c l r ihl ihr =>
    intro k
    cases k with
    | zero => simp [node.cut]
    | succ k =>
      simp only [node.cut, node.preorder, List.length_cons, List.length_append, ihl, ihr]
      omega

theorem cut_all (t : node) : ∀ k, t.preorder.length ≤ k → (t.cut k).1 = t := by
  induction t with
  | null => intro k _; rfl
  | mk p c l r ihl ihr =>
    intro k hk
    simp only [node.preorder, List.length_cons, List.length_append] at hk
    cases k with
    | zero => omega
    | succ k =>
      simp only [node.cut]
      rw [ihl k (by omega), cut_snd l k, ihr _ (by omega)]

/-- The records of the cut tree are the first `k` records of the tree. -/
theorem cut_records (fmt : ℚ → List Char) (t : node) :
    ∀ k, (t.cut k).1.records fmt = (t.preorder.take k).flatMap (record fmt) := by
  induction t with
  | null => intro k; simp [node.cut, node.preorder, node.records]
  | mk p c l r ihl ihr =>
    intro k
    cases k with
    | zero => simp [node.cut, node.records]
    | succ k =>
      simp only [node.cut, node.records, node.preorder, List.take_succ_cons, List.flatMap_cons,
        List.take_append_eq_append_take, List.flatMap_append, ihl, ihr, cut_snd, record,
        node.proba, node.c]

theorem strict_preorder_pos (t : node) (h : t.strict = true) : 0 < t.preorder.length := by
  cases t with
  | null => simp [node.strict] at h
  | mk p c l r => simp [node.preorder]

/-- A strict tree with sentinel inner nodes cut off after some but not all of its nodes has a
node carrying `'$'` that lacks a child. -/
theorem cut_missing_child (t : node) :
    t.strict = true → t.sentinel_ok = true → ∀ k, 0 < k → k < t.preorder.length →
      (t.cut k).1.has_missing_child = true := by
  induction t with
  | null => intro h; simp [node.strict] at h
  | mk p c l r ihl ihr =>
    intro hst hse k hk0 hk
    simp only [node.strict, Bool.or_eq_true, Bool.and_eq_true] at hst
    simp only [node.sentinel_ok, Bool.and_eq_true, Bool.or_eq_true, beq_iff_eq] at hse
    obtain ⟨⟨hs0, hsl⟩, hsr⟩ := hse
    simp only [node.preorder, List.length_cons, List.length_append] at hk
    by_cases hleaf : (l.isNull && r.isNull) = true
    · simp only [Bool.and_eq_true] at hleaf
      have hl' : l = node.null := eq_null_of_isNull hleaf.1
      have hr' : r = node.null := eq_null_of_isNull hleaf.2
      subst hl' hr'
      simp [node.preorder] at hk
      omega
    · have hcd : c = '$' := by
        rcases hs0 with h | h
        · exact absurd (by simp [h.1, h.2]) hleaf
        · exact h
      have hstl : l.strict = true ∧ r.strict = true := by
        rcases hst with h | h
        · exact absurd (by simpa using h) hleaf
        · exact h
      subst hcd
      cases k with
      | zero => omega
      | succ k =>
        simp only [node.cut, node.has_missing_child, beq_self_eq_true, Bool.true_and,
          Bool.or_eq_true]
        by_cases hk1 : k = 0
        · subst hk1
          rw [cut_zero]
          simp [node.isNull]
        · by_cases hk2 : k < l.preorder.length
          · exact Or.inl (Or.inr (ihl hstl.1 hsl k (by omega) hk2))
          · rw [cut_snd l k]
            by_cases hk3 : k - l.preorder.length = 0
            · rw [hk3, cut_zero]
              simp [node.isNull]
            · exact Or.inr (ihr hstl.2 hsr _ (by omega) (by omega))

/-- Reading the first `k` records of a strict tree with sentinel inner nodes, followed by
`rest`, where `rest` is empty unless all records are there: `load_tree` rebuilds the tree cut
off after `k` nodes, leaving null what it finds no line for. -/
theorem load_tree_cut (fmt : ℚ → List Char) (stod : List Char → Option ℚ)
    (htext : text_ok fmt stod) (t : node) :
    t.strict = true → t.sentinel_ok = true →
    (∀ e ∈ t.leaves, e.1 ≠ '$' ∧ e.1 ≠ '\n') →
    ∀ (k fuel : Nat) (rest : List Char) (pq : List node),
      ((t.cut k).1.records fmt).length < fuel →
      (k < t.preorder.length → rest = []) →
      load_tree stod fuel node.null ((t.cut k).1.records fmt ++ rest) pq
        = .ok ((t.cut k).1.reweigh (reread fmt stod), rest,
            if pq.isEmpty && (!(t.cut k).1.isNull && (t.cut k).1.c == '$')
            then [(t.cut k).1.reweigh (reread fmt stod)] else pq) := by
  induction t with
  | null => intro h; simp [node.strict] at h
  | mk p c l r ihl ihr =>
    intro hst hse hlv k fuel rest pq hfuel hrest
    cases k with
    | zero =>
      have hr := hrest (by simp [node.preorder])
      subst hr
      simp only [node.cut, node.records, List.append_nil, node.reweigh, node.isNull,
        Bool.not_true, Bool.false_and, Bool.and_false, Bool.false_eq_true, if_false]
      exact load_tree_nil stod fuel node.null pq
    | succ k =>
      obtain ⟨hfmt, hstod⟩ := htext p
      obtain ⟨v, hv⟩ := Option.isSome_iff_exists.mp hstod
      have hrd : reread fmt stod p = v := by simp [reread, hv]
      simp only [node.strict, Bool.or_eq_true, Bool.and_eq_true] at hst
      simp only [node.sentinel_ok, Bool.and_eq_true, Bool.or_eq_true, beq_iff_eq] at hse
      obtain ⟨⟨hs0, hsl⟩, hsr⟩ := hse
      simp only [node.preorder, List.length_cons, List.length_append] at hrest
      simp only [node.cut] at hfuel ⊢
      cases fuel with
      | zero => simp at hfuel
      | succ fuel =>
        have hcn : c ≠ '\n' := by
          by_cases hleaf : (l.isNull && r.isNull) = true
          · have := hlv (c, p) (by simp [node.leaves, hleaf])
            exact this.2
          · rcases hs0 with h | h
            · exact absurd (by simp [h.1, h.2]) hleaf
            · rw [h]; decide
        generalize hl' : (l.cut k).1 = l' at hfuel ⊢
        generalize hr' : (r.cut (l.cut k).2).1 = r' at hfuel ⊢
        have hline := getline_record (fmt p) c ((l'.records fmt ++ r'.records fmt) ++ rest)
          (fun ch hch => (hfmt ch hch).2) hcn
        have hrec : node.records fmt (node.mk p c l' r') ++ rest
            = (fmt p ++ [' ', c, '\n']) ++ ((l'.records fmt ++ r'.records fmt) ++ rest) := by
          simp [node.records]
        have htw : (fmt p ++ [' ', c]).takeWhile (fun x => x ≠ ' ') = fmt p := by
          have := takeWhile_dropWhile_stop (fun x : Char => decide (x ≠ ' ')) (fmt p) ' ' [c]
            (fun a ha => by simpa using (hfmt a ha).1) (by decide)
          exact this.1
        have hlast : (fmt p ++ [' ', c]).getLast? = some c := by
          rw [show fmt p ++ [' ', c] = (fmt p ++ [' ']) ++ [c] by simp]
          exact List.getLast?_concat _
        rw [hrec]
        simp only [load_tree, hline, htw, hv, hlast, bind, Except.bind, pure, Except.pure]
        by_cases hleaf : (l.isNull && r.isNull) = true
        · have hcd : c ≠ '$' := (hlv (c, p) (by simp [node.leaves, hleaf])).1
          simp only [Bool.and_eq_true] at hleaf
          have hl0 : l = node.null := eq_null_of_isNull hleaf.1
          have hr0 : r = node.null := eq_null_of_isNull hleaf.2
          subst hl0 hr0
          simp only [node.cut] at hl' hr'
          subst hl' hr'
          simp [hcd, node.records, node.reweigh, hrd, node.isNull, node.c]
        · have hcd : c = '$' := by
            rcases hs0 with h | h
            · exact absurd (by simp [h.1, h.2]) hleaf
            · exact h
          have hstl : l.strict = true ∧ r.strict = true := by
            rcases hst with h | h
            · exact absurd (by simpa using h) hleaf
            · exact h
          have hlvl : ∀ e ∈ l.leaves, e.1 ≠ '$' ∧ e.1 ≠ '\n' := by
            intro e he
            exact hlv e (by simp [node.leaves, hleaf, he])
          have hlvr : ∀ e ∈ r.leaves, e.1 ≠ '$' ∧ e.1 ≠ '\n' := by
            intro e he
            exact hlv e (by simp [node.leaves, hleaf, he])
          have hlen : (l'.records fmt).length + (r'.records fmt).length < fuel := by
            simp [node.records] at hfuel
            omega
          have hrpos := strict_preorder_pos r hstl.2
          subst hcd
          simp only [if_true]
          generalize hpq1 : (if pq.isEmpty = true then pq_push pq (node.mk v '$' node.null node.null)
            else pq) = pq1
          have hpq1e : pq1.isEmpty = false := by
            rw [← hpq1]
            split
            · exact pq_push_ne_nil _ _
            · rename_i h; simpa using h
          rw [List.append_assoc]
          have h1 := ihl hstl.1 hsl hlvl k fuel (r'.records fmt ++ rest) pq1
            (by rw [hl']; omega) (by
              intro hk
              have hz : (l.cut k).2 = 0 := by rw [cut_snd]; omega
              rw [hz, cut_zero] at hr'
              subst hr'
              rw [hrest (by omega)]
              rfl)
          rw [hl'] at h1
          rw [h1]
          simp only [hpq1e, Bool.false_and, Bool.false_eq_true, if_false]
          have h2 := ihr hstl.2 hsr hlvr (l.cut k).2 fuel rest pq1
            (by rw [hr']; omega) (by
              intro hk
              rw [cut_snd] at hk
              exact hrest (by omega))
          rw [hr'] at h2
          rw [h2]
          simp only [hpq1e, Bool.false_and, Bool.false_eq_true, if_false]
          simp only [node.reweigh, hrd, node.isNull, node.c, Bool.not_false, beq_self_eq_true,
            Bool.and_true]
          cases pq with
          | nil => rfl
          | cons a as =>
            simp only [List.isEmpty_cons, Bool.false_eq_true, if_false] at hpq1
            subst hpq1
            rfl

/-- With a `stod` that throws on the empty string, the only failure of `load_tree` is an
exception of `stod`: on an empty line `stod` throws at line 137, before line 138 reads the
last character of the line. -/
theorem load_tree_error_stod (stod : List Char → Option ℚ) (hempty : stod [] = none)
    (fuel : Nat) :
    ∀ (nd : node) (inFile : List Char) (pq : List node) (e : Failure),
      load_tree stod fuel nd inFile pq = .error e → e = Failure.invalid_argument := by
  induction fuel with
  | zero =>
    intro nd inFile pq e h
    simp [load_tree, pure, Except.pure] at h
  | succ fuel ih =>
    intro nd inFile pq e h
    simp only [load_tree] at h
    cases hg : getline inFile with
    | none =>
      rw [hg] at h
      simp [pure, Except.pure] at h
    | some sr =>
      obtain ⟨s, rest⟩ := sr
      rw [hg] at h
      simp only [bind, Except.bind, pure, Except.pure] at h
      cases hs : stod (s.takeWhile (fun x => x ≠ ' ')) with
      | none =>
        rw [hs] at h
        simp only [throw, throwThe, MonadExceptOf.throw, Except.error.injEq] at h
        exact h.symm
      | some p =>
        rw [hs] at h
        cases hl : s.getLast? with
        | none =>
          have hnil : s = [] := List.getLast?_eq_none_iff.mp hl
          subst hnil
          simp only [List.takeWhile_nil] at hs
          rw [hempty] at hs
          exact absurd hs (by simp)
        | some c =>
          rw [hl] at h
          simp only at h
          split at h
          · cases h1 : load_tree stod fuel node.null rest
                (if pq.isEmpty = true then pq_push pq (node.mk p c node.null node.null) else pq) with
            | error e1 =>
              rw [h1] at h
              simp only [Except.error.injEq] at h
              rw [← h]
              exact ih _ _ _ _ h1
            | ok r1 =>
              obtain ⟨l, rest1, pq1⟩ := r1
              rw [h1] at h
              simp only at h
              cases h2 : load_tree stod fuel node.null rest1 pq1 with
              | error e2 =>
                rw [h2] at h
                simp only [Except.error.injEq] at h
                rw [← h]
                exact ih _ _ _ _ h2
              | ok r2 =>
                rw [h2] at h
                simp at h
          · simp at h

/-- Claim C11, amended.  `load_tree` raises no `CorruptTreeFileError`.  With a `stod` that
throws on the empty string (as `std::stod` does), its only failure is an exception thrown by
`stod`.  For a strict tree with `'$'` at its inner nodes and leaf characters other than `'$'`
and the line end, whose weights are printed without blank or line end and accepted by
`stod`: `save_tree` writes the records of the tree in pre-order; from the first `k` of these
records, `k` less than their number, `load_tree` returns normally, without any error, the
tree cut off after `k` nodes, in which for `k > 0` a node carrying `'$'` lacks a child, and
the queue holds that tree; from all the records followed by more text, `load_tree` returns
the tree with re-read weights and leaves the text that follows unread. -/
theorem C11_corrupt_tree_file (fmt : ℚ → List Char) (stod : List Char → Option ℚ)
    (htext : text_ok fmt stod) (hempty : stod [] = none) :
    (∀ fuel nd inFile pq e, load_tree stod fuel nd inFile pq = .error e →
        e = Failure.invalid_argument)
    ∧ (∀ t : node, t.strict = true → t.sentinel_ok = true →
        (∀ elem ∈ t.leaves, elem.1 ≠ '$' ∧ elem.1 ≠ '\n') →
        save_tree fmt t [] = .ok (t.preorder.flatMap (record fmt))
        ∧ (∀ k, k < t.preorder.length →
            load_tree stod (((t.preorder.take k).flatMap (record fmt)).length + 1) node.null
                ((t.preorder.take k).flatMap (record fmt)) []
              = .ok ((t.cut k).1.reweigh (reread fmt stod), [],
                  if k = 0 then [] else [(t.cut k).1.reweigh (reread fmt stod)])
            ∧ (0 < k → (t.cut k).1.has_missing_child = true))
        ∧ (∀ rest,
            load_tree stod ((t.records fmt ++ rest).length + 1) node.null
                (t.records fmt ++ rest) []
              = .ok (t.reweigh (reread fmt stod), rest,
                  if t.isLeaf then [] else [t.reweigh (reread fmt stod)]))) := by
  refine ⟨fun fuel nd inFile pq e h => load_tree_error_stod stod hempty fuel nd inFile pq e h,
    ?_⟩
  intro t hst hse hlv
  refine ⟨?_, ?_, ?_⟩
  · have := save_tree_eq fmt t [] (strict_ne_null hst)
    rw [this, records_eq_preorder]
    rfl
  · intro k hk
    refine ⟨?_, fun hk0 => cut_missing_child t hst hse k hk0 hk⟩
    have h := load_tree_cut fmt stod htext t hst hse hlv k
      (((t.cut k).1.records fmt).length + 1) [] [] (by omega) (fun _ => rfl)
    rw [List.append_nil, cut_records] at h
    rw [h]
    congr 2
    cases k with
    | zero => simp [cut_zero, node.isNull]
    | succ k =>
      cases t with
      | null => simp [node.strict] at hst
      | mk p c l r =>
        have hc : c = '$' := by
          simp only [node.sentinel_ok, Bool.and_eq_true, Bool.or_eq_true, beq_iff_eq] at hse
          rcases hse.1.1 with h0 | h0
          · rw [eq_null_of_isNull h0.1, eq_null_of_isNull h0.2] at hk
            simp [node.preorder] at hk
          · exact h0
        subst hc
        simp [node.cut, node.isNull, node.c]
  · intro rest
    have h := load_tree_records fmt stod htext t hst hse hlv
      ((t.records fmt ++ rest).length + 1) node.null rest []
      (by rw [List.length_append]; omega)
    rw [h]
    cases t.isLeaf <;> rfl

/-- C11, a concrete instance: of the three records of the tree with leaves `a` and `b`, the
first two are read back as a root without right child. -/
theorem C11_corrupt_tree_file_witness :
    text_ok fmt_sample stod_sample ∧ stod_sample [] = none
    ∧ ((node.mk 1 '$' (node.leaf (1 / 2) 'a') (node.leaf (1 / 2) 'b')).preorder.take 2).flatMap
        (record fmt_sample) = ['1', ' ', '$', '\n', '0', '.', '5', ' ', 'a', '\n']
    ∧ ((node.mk 1 '$' (node.leaf (1 / 2) 'a') (node.leaf (1 / 2) 'b')).cut 2).1.reweigh
        (reread fmt_sample stod_sample) = node.mk 1 '$' (node.leaf (1 / 2) 'a') node.null
    ∧ load_tree stod_sample
        ((((node.mk 1 '$' (node.leaf (1 / 2) 'a') (node.leaf (1 / 2) 'b')).preorder.take 2).flatMap
          (record fmt_sample)).length + 1) node.null
        (((node.mk 1 '$' (node.leaf (1 / 2) 'a') (node.leaf (1 / 2) 'b')).preorder.take 2).flatMap
          (record fmt_sample)) []
      = .ok (((node.mk 1 '$' (node.leaf (1 / 2) 'a') (node.leaf (1 / 2) 'b')).cut 2).1.reweigh
            (reread fmt_sample stod_sample), [],
          if 2 = 0 then []
          else [((node.mk 1 '$' (node.leaf (1 / 2) 'a') (node.leaf (1 / 2) 'b')).cut 2).1.reweigh
            (reread fmt_sample stod_sample)])
    ∧ ((node.mk 1 '$' (node.leaf (1 / 2) 'a') (node.leaf (1 / 2) 'b')).cut 2).1.has_missing_child
        = true :=
  ⟨text_ok_sample, rfl, by decide!, by decide!,
    ((((C11_corrupt_tree_file fmt_sample stod_sample text_ok_sample rfl).2
      (node.mk 1 '$' (node.leaf (1 / 2) 'a') (node.leaf (1 / 2) 'b'))
      (by decide!) (by decide!) (by decide!)).2.1 2 (by decide!)).1),
    by decide!⟩

/-- C11 fails as stated.  From the file that holds only the records of the root and of its
left leaf, `load_tree` returns a tree whose root lacks its right child, without any error;
from a file with a second tree after the first, it returns the first tree and leaves the
rest unread; from a file cut in the middle of the second record it builds a leaf for the
last character read. -/
theorem C11_counterexample :
    load_tree stod_sample 11 node.null ['1', ' ', '$', '\n', '0', '.', '5', ' ', 'a', '\n'] []
      = .ok (node.mk 1 '$' (node.leaf (1 / 2) 'a') node.null, [],
          [node.mk 1 '$' (node.leaf (1 / 2) 'a') node.null])
    ∧ load_tree stod_sample 13 node.null
        ['0', '.', '5', ' ', 'a', '\n', '0', '.', '5', ' ', 'b', '\n'] []
      = .ok (node.leaf (1 / 2) 'a', ['0', '.', '5', ' ', 'b', '\n'], [])
    ∧ load_tree stod_sample 8 node.null ['1', ' ', '$', '\n', '0', '.', '5'] []
      = .ok (node.mk 1 '$' (node.leaf (1 / 2) '5') node.null, [],
          [node.mk 1 '$' (node.leaf (1 / 2) '5') node.null]) := by
  refine ⟨by decide!, by decide!, by decide!⟩

/-! ## Counting the passes of the merge loop -/

theorem leaf_queue_perm (pq : List node) (charWeights : CharMap ℚ) :
    List.Perm (leaf_queue pq charWeights)
      (pq ++ charWeights.map (fun elem => node.leaf elem.2 elem.1)) :=
  push_leaves_perm charWeights pq

theorem tree_create_eq (pq : List node) (charWeights : CharMap ℚ) :
    tree_create pq charWeights
      = tree_create_loop (leaf_queue pq charWeights).length (leaf_queue pq charWeights) := rfl

/-- As long as fewer passes are allowed than the queue has nodes, every allowed pass is
performed and each removes one node. -/
theorem tree_create_loop_length (j : Nat) :
    ∀ pq : List node, j < pq.length →
      ∃ pq', tree_create_loop j pq = .ok pq' ∧ pq'.length = pq.length - j := by
  induction j with
  | zero => intro pq _; exact ⟨pq, rfl, rfl⟩
  | succ j ih =>
    intro pq h
    simp only [tree_create_loop]
    rw [if_pos (by omega)]
    obtain ⟨one, two, rest, pq1, hp, hstep, hp1⟩ := tree_create_step_spec pq (by omega)
    have hl := hp.length_eq
    have hl1 := hp1.length_eq
    simp only [List.length_cons] at hl hl1
    obtain ⟨pq2, h2, hlen2⟩ := ih pq1 (by omega)
    refine ⟨pq2, ?_, by omega⟩
    simp only [hstep, bind, Except.bind]
    exact h2

/-- Once at most one node is left, allowing more passes changes nothing. -/
theorem tree_create_loop_done (j : Nat) :
    ∀ (pq pq' : List node), tree_create_loop j pq = .ok pq' → pq'.length ≤ 1 →
      tree_create_loop (j + 1) pq = .ok pq' := by
  induction j with
  | zero =>
    intro pq pq' h hl
    simp only [tree_create_loop, pure, Except.pure, Except.ok.injEq] at h
    subst h
    simp only [tree_create_loop]
    rw [if_neg (by omega)]
    rfl
  | succ j ih =>
    intro pq pq' h hl
    rw [tree_create_loop] at h ⊢
    split
    · rename_i hgt
      rw [if_pos hgt] at h
      cases hs : tree_create_step pq with
      | error e => rw [hs] at h; simp [bind, Except.bind] at h
      | ok pq1 =>
        rw [hs] at h
        simp only [bind, Except.bind] at h ⊢
        exact ih pq1 pq' h hl
    · rename_i hgt
      rw [if_neg hgt] at h
      exact h

/-- C14: for every frequency table with n >= 1 entries and an empty queue, the merge loop
of `tree_create` performs exactly n-1 passes: as long as j < n passes are allowed all of
them are performed and n-j nodes are left, so after n-1 passes exactly one node is left, the
root, which the loop returns however many more passes are allowed; the root has n-1 inner
nodes, one per merge; when n = 1 the queue holds the single leaf itself. -/
theorem C14_merge_loop (charWeights : CharMap ℚ) (hn : 1 ≤ charWeights.length) :
    (∀ j, j < charWeights.length →
      ∃ pq, tree_create_loop j (leaf_queue [] charWeights) = .ok pq
        ∧ pq.length = charWeights.length - j)
    ∧ (∃ root, tree_create_loop (charWeights.length - 1) (leaf_queue [] charWeights) = .ok [root]
        ∧ tree_create [] charWeights = .ok [root]
        ∧ root.num_internal = charWeights.length - 1)
    ∧ (∀ c w, charWeights = [(c, w)] → tree_create [] charWeights = .ok [node.leaf w c]) := by
  have hlq : (leaf_queue [] charWeights).length = charWeights.length := by
    have := (leaf_queue_perm [] charWeights).length_eq
    simpa using this
  refine ⟨?_, ?_, ?_⟩
  · intro j hj
    obtain ⟨pq, h1, h2⟩ := tree_create_loop_length j (leaf_queue [] charWeights) (by omega)
    exact ⟨pq, h1, by omega⟩
  · have hne : charWeights ≠ [] := by
      intro h0; rw [h0] at hn; simp at hn
    obtain ⟨root, hr, hb, hp⟩ := tree_create_spec charWeights hne
    obtain ⟨pq, h1, h2⟩ := tree_create_loop_length (charWeights.length - 1)
      (leaf_queue [] charWeights) (by omega)
    have h3 : pq.length = 1 := by omega
    have hsucc := tree_create_loop_done _ _ _ h1 (by omega)
    have heq : charWeights.length - 1 + 1 = (leaf_queue [] charWeights).length := by omega
    rw [heq, ← tree_create_eq, hr] at hsucc
    simp only [Except.ok.injEq] at hsucc
    subst hsucc
    have hni := num_internal_succ root (built_parts hb).1
    have hnl : root.num_leaves = charWeights.length := by rw [num_leaves_eq, hp.length_eq]
    exact ⟨root, h1, hr, by omega⟩
  · intro c w h
    subst h
    rfl

/-- C14, a concrete instance: the table a:1/2, b:1/4, c:1/4 needs two passes. -/
theorem C14_merge_loop_witness :
    1 ≤ [('a', (1 / 2 : ℚ)), ('b', (1 / 4 : ℚ)), ('c', (1 / 4 : ℚ))].length
    ∧ (tree_create_loop 1 (leaf_queue [] [('a', 1 / 2), ('b', 1 / 4), ('c', 1 / 4)])
        = .ok [node.leaf (1 / 2) 'a',
            node.mk (1 / 2) '$' (node.leaf (1 / 4) 'b') (node.leaf (1 / 4) 'c')])
    ∧ (tree_create_loop 2 (leaf_queue [] [('a', 1 / 2), ('b', 1 / 4), ('c', 1 / 4)])
        = .ok [node.mk 1 '$' (node.leaf (1 / 2) 'a')
            (node.mk (1 / 2) '$' (node.leaf (1 / 4) 'b') (node.leaf (1 / 4) 'c'))])
    ∧ ∃ root,
        tree_create_loop ([('a', (1 / 2 : ℚ)), ('b', (1 / 4 : ℚ)), ('c', (1 / 4 : ℚ))].length - 1)
          (leaf_queue [] [('a', 1 / 2), ('b', 1 / 4), ('c', 1 / 4)]) = .ok [root]
        ∧ tree_create [] [('a', 1 / 2), ('b', 1 / 4), ('c', 1 / 4)] = .ok [root]
        ∧ root.num_internal
          = [('a', (1 / 2 : ℚ)), ('b', (1 / 4 : ℚ)), ('c', (1 / 4 : ℚ))].length - 1 :=
  ⟨by decide, by decide!, by decide!,
    (C14_merge_loop [('a', 1 / 2), ('b', 1 / 4), ('c', 1 / 4)] (by decide)).2.1⟩

/-- C17 (as amended): for every message of fewer than 2^31 characters with at least two
distinct symbols in which `'$'` does not occur, `main` builds a tree, every symbol of the
message has a code, `encode_msg` looks up no missing entry and returns the concatenated
codes, and when that bitstring has fewer than 2^31 characters `decode_huff` on the built
tree prints exactly the message (and the final line end); when the message has no line end
either, `save_tree` and `load_tree` rebuild the tree up to its weights, reading the whole
file, and `decode_huff` prints the same on the rebuilt tree. -/
theorem C17_round_trip_away_from_sentinel (fmt : ℚ → List Char)
    (stod : List Char → Option ℚ) (htext : text_ok fmt stod) (msg : List Char)
    (hlen : msg.length < 2147483648) (h2 : 2 ≤ msg.dedup.length) (hd : '$' ∉ msg) :
    ∃ root, tree_root (calc_probas msg []) = .ok root
      ∧ (∀ ch ∈ msg, ∃ code, (traverse_tree root [] []).find ch = some code)
      ∧ encode_msg msg (traverse_tree root [] [])
          = .ok (concat_codes (traverse_tree root [] []) msg)
      ∧ ((concat_codes (traverse_tree root [] []) msg).length < 2147483648 →
          decode_huff root (concat_codes (traverse_tree root [] []) msg) = .ok (msg ++ ['\n'])
          ∧ ('\n' ∉ msg →
              ∃ file, save_tree fmt root [] = .ok file
                ∧ load_tree stod (file.length + 1) node.null file []
                  = .ok (root.reweigh (reread fmt stod), [], [root.reweigh (reread fmt stod)])
                ∧ decode_huff (root.reweigh (reread fmt stod))
                    (concat_codes (traverse_tree root [] []) msg) = .ok (msg ++ ['\n']))) := by
  obtain ⟨root, hroot, hb, hnl, hsym⟩ := message_tree msg hlen h2
  obtain ⟨hst, hse, _⟩ := built_parts hb
  have hmsg : ∀ ch ∈ msg, ch ≠ '$' ∧ ch ∈ root.leaves.map Prod.fst := by
    intro ch hch
    exact ⟨fun h => hd (h ▸ hch), (hsym ch).mpr hch⟩
  obtain ⟨henc, hdec⟩ := round_trip_tree root hse hnl msg hlen hmsg
  refine ⟨root, hroot, ?_, henc, ?_⟩
  · intro ch hch
    obtain ⟨hne, hm⟩ := hmsg ch hch
    obtain ⟨⟨c, w⟩, hcw, hfst⟩ := List.mem_map.mp hm
    simp only at hfst
    subst hfst
    obtain ⟨q, hq, _, _⟩ := table_entry_of_leaf root hse c w hcw hne
    exact ⟨q, hq⟩
  · intro hel
    refine ⟨hdec hel, ?_⟩
    intro hn
    have hlv : ∀ e ∈ root.leaves, e.1 ≠ '$' ∧ e.1 ≠ '\n' := by
      intro e he
      have hin : e.1 ∈ msg := (hsym e.1).mp (List.mem_map.mpr ⟨e, he, rfl⟩)
      exact ⟨fun h => hd (h ▸ hin), fun h => hn (h ▸ hin)⟩
    have hload := load_tree_records fmt stod htext root hst hse hlv
      ((root.records fmt).length + 1) node.null [] [] (by omega)
    simp only [List.append_nil, List.isEmpty_nil, hnl, Bool.not_false, Bool.and_self,
      if_true] at hload
    refine ⟨root.records fmt, ?_, hload, ?_⟩
    · simpa using save_tree_eq fmt root [] (strict_ne_null hst)
    · rw [decode_huff_reweigh]
      exact hdec hel

/-- C17, a concrete instance: the message `aabc`. -/
theorem C17_round_trip_away_from_sentinel_witness :
    text_ok fmt_sample stod_sample
    ∧ ['a', 'a', 'b', 'c'].length < 2147483648
    ∧ 2 ≤ ['a', 'a', 'b', 'c'].dedup.length
    ∧ '$' ∉ ['a', 'a', 'b', 'c']
    ∧ ∃ root, tree_root (calc_probas ['a', 'a', 'b', 'c'] []) = .ok root
      ∧ (∀ ch ∈ ['a', 'a', 'b', 'c'], ∃ code, (traverse_tree root [] []).find ch = some code)
      ∧ encode_msg ['a', 'a', 'b', 'c'] (traverse_tree root [] [])
          = .ok (concat_codes (traverse_tree root [] []) ['a', 'a', 'b', 'c'])
      ∧ ((concat_codes (traverse_tree root [] []) ['a', 'a', 'b', 'c']).length < 2147483648 →
          decode_huff root (concat_codes (traverse_tree root [] []) ['a', 'a', 'b', 'c'])
            = .ok (['a', 'a', 'b', 'c'] ++ ['\n'])
          ∧ ('\n' ∉ ['a', 'a', 'b', 'c'] →
              ∃ file, save_tree fmt_sample root [] = .ok file
                ∧ load_tree stod_sample (file.length + 1) node.null file []
                  = .ok (root.reweigh (reread fmt_sample stod_sample), [],
                      [root.reweigh (reread fmt_sample stod_sample)])
                ∧ decode_huff (root.reweigh (reread fmt_sample stod_sample))
                    (concat_codes (traverse_tree root [] []) ['a', 'a', 'b', 'c'])
                  = .ok (['a', 'a', 'b', 'c'] ++ ['\n']))) :=
  ⟨text_ok_sample, by decide, by decide, by decide,
    C17_round_trip_away_from_sentinel fmt_sample stod_sample text_ok_sample
      ['a', 'a', 'b', 'c'] (by decide) (by decide) (by decide)⟩

/-- C17 fails as stated.  The message made of `a` and a line end contains no `'$'` and is
encoded and decoded on the built tree, but the text `save_tree` writes for its tree has an
empty line on which `load_tree` fails.  A message of 2^31 characters without `'$'` is counted
as empty, so no tree is built.  A message of 1.6 * 10^9 characters is encoded to
2.4 * 10^9 characters, of which `decode_huff` reads none. -/
theorem C17_counterexample :
    ('$' ∉ ['a', '\n'] ∧ 2 ≤ ['a', '\n'].dedup.length
      ∧ tree_root (calc_probas ['a', '\n'] [])
        = .ok (node.mk 1 '$' (node.leaf (1 / 2) '\n') (node.leaf (1 / 2) 'a'))
      ∧ save_tree fmt_sample (node.mk 1 '$' (node.leaf (1 / 2) '\n') (node.leaf (1 / 2) 'a')) []
        = .ok ['1', ' ', '$', '\n', '0', '.', '5', ' ', '\n', '\n', '0', '.', '5', ' ', 'a', '\n']
      ∧ load_tree stod_sample 17 node.null
          ['1', ' ', '$', '\n', '0', '.', '5', ' ', '\n', '\n', '0', '.', '5', ' ', 'a', '\n'] []
        = .error Failure.invalid_argument)
    ∧ ('$' ∉ List.replicate 2147483647 'a' ++ ['b']
      ∧ 2 ≤ (List.replicate 2147483647 'a' ++ ['b']).dedup.length
      ∧ tree_root (calc_probas (List.replicate 2147483647 'a' ++ ['b']) [])
        = .error Failure.empty_queue)
    ∧ ('$' ∉ List.replicate 400000000 'a' ++ (List.replicate 400000000 'b'
          ++ List.replicate 800000000 'c')
      ∧ (List.replicate 400000000 'a' ++ (List.replicate 400000000 'b'
          ++ List.replicate 800000000 'c')).length < 2147483648
      ∧ tree_root (calc_probas (List.replicate 400000000 'a' ++ (List.replicate 400000000 'b'
          ++ List.replicate 800000000 'c')) [])
        = .ok (node.mk 1 '$' (node.leaf (1 / 2) 'c')
            (node.mk (1 / 2) '$' (node.leaf (1 / 4) 'a') (node.leaf (1 / 4) 'b')))
      ∧ ∃ enc,
          encode_msg (List.replicate 400000000 'a' ++ (List.replicate 400000000 'b'
              ++ List.replicate 800000000 'c'))
            (traverse_tree (node.mk 1 '$' (node.leaf (1 / 2) 'c')
              (node.mk (1 / 2) '$' (node.leaf (1 / 4) 'a') (node.leaf (1 / 4) 'b'))) [] [])
            = .ok enc
          ∧ enc.length = 2400000000
          ∧ decode_huff (node.mk 1 '$' (node.leaf (1 / 2) 'c')
              (node.mk (1 / 2) '$' (node.leaf (1 / 4) 'a') (node.leaf (1 / 4) 'b'))) enc
            = .ok ['\n']) := by
  refine ⟨⟨by decide, by decide, by decide!, by decide!, by decide!⟩, ⟨?_, ?_, ?_⟩,
    ?_, long_encoding_not_decoded⟩
  · intro h
    rw [List.mem_append, List.mem_replicate] at h
    rcases h with ⟨_, h⟩ | h
    · exact absurd h (by decide)
    · exact absurd (List.mem_singleton.mp h) (by decide)
  · apply two_le_length_of_ne (a := 'a') (b := 'b')
    · rw [List.mem_dedup, List.mem_append, List.mem_replicate]
      exact Or.inl ⟨by decide, rfl⟩
    · rw [List.mem_dedup, List.mem_append]
      exact Or.inr (List.mem_singleton.mpr rfl)
    · decide
  · rw [calc_probas_long _ (to_int_nonpos (by
      rw [List.length_append, List.length_replicate]; decide))]
    rfl
  · intro h
    simp only [List.mem_append, List.mem_replicate] at h
    rcases h with ⟨_, h⟩ | ⟨_, h⟩ | ⟨_, h⟩ <;> exact absurd h (by decide)

/-! ## The queue is a min-heap -/

theorem getD_set_eq {α : Type} (l : List α) (i : Nat) (a d : α) (h : i < l.length) :
    (l.set i a).getD i d = a := by
  simp [List.getD_eq_getElem?_getD, List.getElem?_set, h]

theorem slot_weight_set_ne (c : List node) (i j : Nat) (a : node) (h : i ≠ j) :
    slot_weight (c.set i a) j = slot_weight c j := by
  unfold slot_weight
  rw [getD_set_ne _ _ _ _ _ h]

theorem slot_weight_set_eq (c : List node) (i : Nat) (a : node) (h : i < c.length) :
    slot_weight (c.set i a) i = a.proba := by
  unfold slot_weight
  rw [getD_set_eq _ _ _ _ h]

theorem node_comp_iff (a b : node) : node_comp a b = true ↔ b.proba < a.proba := by
  simp [node_comp]

/-- Sifting up: if the first `n` slots are in heap order except around the hole, every
child of the hole weighs at least `value` and at least the parent of the hole, then
`std::__push_heap` leaves a heap. -/
theorem push_heap_loop_heap (fuel : Nat) :
    ∀ (first : List node) (h : Nat) (value : node) (n : Nat),
      h ≤ fuel → h < n → n ≤ first.length →
      (∀ i, 0 < i → i < n → i ≠ h → (i - 1) / 2 ≠ h →
        slot_weight first ((i - 1) / 2) ≤ slot_weight first i) →
      (∀ i, 0 < i → i < n → (i - 1) / 2 = h →
        value.proba ≤ slot_weight first i
          ∧ (0 < h → slot_weight first ((h - 1) / 2) ≤ slot_weight first i)) →
      is_heap n (push_heap_loop fuel first h 0 value) := by
  induction fuel with
  | zero =>
    intro first h value n hf hn hlen h1 h2 i hi hin
    have h0 : h = 0 := by omega
    subst h0
    simp only [push_heap_loop]
    rw [slot_weight_set_ne _ _ _ _ (by omega : 0 ≠ i)]
    by_cases hp : (i - 1) / 2 = 0
    · rw [hp, slot_weight_set_eq _ _ _ (by omega)]
      exact (h2 i hi hin hp).1
    · rw [slot_weight_set_ne _ _ _ _ (by omega : 0 ≠ (i - 1) / 2)]
      exact h1 i hi hin (by omega) hp
  | succ fuel ih =>
    intro first h value n hf hn hlen h1 h2
    simp only [push_heap_loop]
    split
    · rename_i hc
      simp only [Bool.and_eq_true, decide_eq_true_eq, node_comp_iff] at hc
      obtain ⟨hpos, hlt⟩ := hc
      have hlt' : value.proba < slot_weight first ((h - 1) / 2) := hlt
      have hph : (h - 1) / 2 < h := by omega
      apply ih (first.set h (first.getD ((h - 1) / 2) node.null)) ((h - 1) / 2) value n
        (by omega) (by omega) (by simpa using hlen)
      · intro i hi hin hip hpp
        by_cases hih : i = h
        · subst hih; exact absurd rfl hpp
        · rw [slot_weight_set_ne _ _ _ _ (Ne.symm hih)]
          by_cases hpi : (i - 1) / 2 = h
          · rw [hpi, slot_weight_set_eq _ _ _ (by omega)]
            exact (h2 i hi hin hpi).2 hpos
          · rw [slot_weight_set_ne _ _ _ _ (Ne.symm hpi)]
            exact h1 i hi hin hih hpi
      · intro i hi hin hpi
        have hpp : slot_weight first (((h - 1) / 2 - 1) / 2) ≤ slot_weight first ((h - 1) / 2)
            ∨ (h - 1) / 2 = 0 := by
          by_cases hz : (h - 1) / 2 = 0
          · exact Or.inr hz
          · exact Or.inl (h1 ((h - 1) / 2) (by omega) (by omega) (by omega) (by omega))
        have hgp : slot_weight (first.set h (first.getD ((h - 1) / 2) node.null))
            (((h - 1) / 2 - 1) / 2) = slot_weight first (((h - 1) / 2 - 1) / 2) :=
          slot_weight_set_ne _ _ _ _ (by omega)
        by_cases hih : i = h
        · subst hih
          rw [slot_weight_set_eq _ _ _ (by omega)]
          refine ⟨le_of_lt hlt', fun hp0 => ?_⟩
          rw [hgp]
          rcases hpp with hpp | hpp
          · exact hpp
          · omega
        · rw [slot_weight_set_ne _ _ _ _ (Ne.symm hih)]
          have hle : slot_weight first ((h - 1) / 2) ≤ slot_weight first i := by
            have := h1 i hi hin hih (by omega)
            rwa [hpi] at this
          refine ⟨le_trans (le_of_lt hlt') hle, fun hp0 => ?_⟩
          rw [hgp]
          rcases hpp with hpp | hpp
          · exact le_trans hpp hle
          · omega
    · rename_i hc
      simp only [Bool.and_eq_true, decide_eq_true_eq, node_comp_iff, not_and, not_lt] at hc
      intro i hi hin
      by_cases hih : i = h
      · subst hih
        rw [slot_weight_set_eq _ _ _ (by omega),
          slot_weight_set_ne _ _ _ _ (by omega : i ≠ (i - 1) / 2)]
        exact hc hi
      · rw [slot_weight_set_ne _ _ _ _ (Ne.symm hih)]
        by_cases hpi : (i - 1) / 2 = h
        · rw [hpi, slot_weight_set_eq _ _ _ (by omega)]
          exact (h2 i hi hin hpi).1
        · rw [slot_weight_set_ne _ _ _ _ (Ne.symm hpi)]
          exact h1 i hi hin hih hpi

/-- Sifting down: the first loop of `std::__adjust_heap` keeps the heap order around the
sinking hole and stops at a hole with at most one child. -/
theorem adjust_heap_loop_heap (fuel : Nat) :
    ∀ (first : List node) (h len : Nat),
      h < len → len ≤ first.length → len ≤ fuel + h →
      (∀ i, 0 < i → i < len → i ≠ h → (i - 1) / 2 ≠ h →
        slot_weight first ((i - 1) / 2) ≤ slot_weight first i) →
      (∀ i, 0 < i → i < len → (i - 1) / 2 = h → 0 < h →
        slot_weight first ((h - 1) / 2) ≤ slot_weight first i) →
      (adjust_heap_loop fuel first h h len).2.2 = (adjust_heap_loop fuel first h h len).2.1
      ∧ (adjust_heap_loop fuel first h h len).2.1 < len
      ∧ ¬ (adjust_heap_loop fuel first h h len).2.1 < (len - 1) / 2
      ∧ (adjust_heap_loop fuel first h h len).1.length = first.length
      ∧ (∀ i, 0 < i → i < len → i ≠ (adjust_heap_loop fuel first h h len).2.1 →
          (i - 1) / 2 ≠ (adjust_heap_loop fuel first h h len).2.1 →
          slot_weight (adjust_heap_loop fuel first h h len).1 ((i - 1) / 2)
            ≤ slot_weight (adjust_heap_loop fuel first h h len).1 i)
      ∧ (∀ i, 0 < i → i < len → (i - 1) / 2 = (adjust_heap_loop fuel first h h len).2.1 →
          0 < (adjust_heap_loop fuel first h h len).2.1 →
          slot_weight (adjust_heap_loop fuel first h h len).1
              (((adjust_heap_loop fuel first h h len).2.1 - 1) / 2)
            ≤ slot_weight (adjust_heap_loop fuel first h h len).1 i) := by
  induction fuel with
  | zero =>
    intro first h len hlt hlen hf h1 h2
    exact ⟨rfl, hlt, by omega, rfl, h1, h2⟩
  | succ fuel ih =>
    intro first h len hlt hlen hf h1 h2
    simp only [adjust_heap_loop]
    split
    · rename_i hc
      -- the child that does not compare before its sibling
      have key : ∀ sc, (sc = 2 * (h + 1) ∨ sc = 2 * (h + 1) - 1) →
          slot_weight first sc ≤ slot_weight first (2 * (h + 1)) →
          slot_weight first sc ≤ slot_weight first (2 * (h + 1) - 1) →
          (let r := adjust_heap_loop fuel (first.set h (first.getD sc node.null)) sc sc len
           r.2.2 = r.2.1 ∧ r.2.1 < len ∧ ¬ r.2.1 < (len - 1) / 2
            ∧ r.1.length = first.length
            ∧ (∀ i, 0 < i → i < len → i ≠ r.2.1 → (i - 1) / 2 ≠ r.2.1 →
                slot_weight r.1 ((i - 1) / 2) ≤ slot_weight r.1 i)
            ∧ (∀ i, 0 < i → i < len → (i - 1) / 2 = r.2.1 → 0 < r.2.1 →
                slot_weight r.1 ((r.2.1 - 1) / 2) ≤ slot_weight r.1 i)) := by
        intro sc hsc hle1 hle2
        have hpsc : (sc - 1) / 2 = h := by omega
        have hsclt : sc < len := by omega
        have hsch : h < sc := by omega
        have := ih (first.set h (first.getD sc node.null)) sc len hsclt
          (by simpa using hlen) (by omega) ?_ ?_
        · simpa using this
        · intro i hi hin hisc hpisc
          by_cases hih : i = h
          · subst hih
            rw [slot_weight_set_eq _ _ _ (by omega),
              slot_weight_set_ne _ _ _ _ (by omega : i ≠ (i - 1) / 2)]
            exact h2 sc (by omega) hsclt hpsc hi
          · rw [slot_weight_set_ne _ _ _ _ (Ne.symm hih)]
            by_cases hpi : (i - 1) / 2 = h
            · rw [hpi, slot_weight_set_eq _ _ _ (by omega)]
              have hi2 : i = 2 * (h + 1) ∨ i = 2 * (h + 1) - 1 := by omega
              rcases hi2 with hi2 | hi2
              · rw [hi2]; exact hle1
              · rw [hi2]; exact hle2
            · rw [slot_weight_set_ne _ _ _ _ (Ne.symm hpi)]
              exact h1 i hi hin hih hpi
        · intro i hi hin hpi _
          rw [hpsc, slot_weight_set_eq _ _ _ (by omega),
            slot_weight_set_ne _ _ _ _ (by omega : h ≠ i)]
          have := h1 i hi hin (by omega) (by omega)
          rwa [hpi] at this
      by_cases hcmp : node_comp (first.getD (2 * (h + 1)) node.null)
          (first.getD (2 * (h + 1) - 1) node.null) = true
      · simp only [hcmp, if_true]
        have hw := (node_comp_iff _ _).mp hcmp
        exact key (2 * (h + 1) - 1) (Or.inr rfl) (le_of_lt hw) (le_refl _)
      · simp only [hcmp]
        have hw : ¬ _ := fun hh => hcmp ((node_comp_iff _ _).mpr hh)
        exact key (2 * (h + 1)) (Or.inl rfl) (le_refl _) (not_lt.mp hw)
    · rename_i hc
      exact ⟨rfl, hlt, hc, rfl, h1, h2⟩

/-- The function `std::__adjust_heap` from the root: if the first `len` slots are in heap
order except at the root, the result has them in heap order. -/
theorem adjust_heap_heap (first : List node) (len : Nat) (value : node)
    (hpos : 0 < len) (hlen : len ≤ first.length)
    (h1 : ∀ i, 0 < i → i < len → (i - 1) / 2 ≠ 0 →
      slot_weight first ((i - 1) / 2) ≤ slot_weight first i) :
    is_heap len (adjust_heap first 0 len value) := by
  obtain ⟨e1, e2, e3, e4, e5, e6⟩ := adjust_heap_loop_heap len first 0 len hpos hlen (by omega)
    (fun i hi hin _ hp => h1 i hi hin hp) (fun i _ _ _ h0 => absurd h0 (lt_irrefl 0))
  unfold adjust_heap
  generalize adjust_heap_loop len first 0 0 len = res at e1 e2 e3 e4 e5 e6
  obtain ⟨f1, hole0, sc1⟩ := res
  simp only at e1 e2 e3 e4 e5 e6 ⊢
  subst e1
  split
  · rename_i hc
    obtain ⟨hc1, hc2⟩ := hc
    have hl : 2 * (sc1 + 1) - 1 = len - 1 := by omega
    have hl2 : 2 ≤ len := by omega
    unfold push_heap_at
    simp only
    apply push_heap_loop_heap _ _ _ _ len (le_refl _) (by omega) (by simpa using (by omega))
    · intro i hi hin hih hpi
      by_cases hi1 : i = sc1
      · subst hi1
        rw [slot_weight_set_eq _ _ _ (by omega),
          slot_weight_set_ne _ _ _ _ (by omega : i ≠ (i - 1) / 2)]
        exact e6 (2 * (i + 1) - 1) (by omega) (by omega) (by omega) hi
      · rw [slot_weight_set_ne _ _ _ _ (Ne.symm hi1)]
        by_cases hp1 : (i - 1) / 2 = sc1
        · omega
        · rw [slot_weight_set_ne _ _ _ _ (Ne.symm hp1)]
          exact e5 i hi hin hi1 hp1
    · intro i hi hin hpi
      omega
  · rename_i hc
    unfold push_heap_at
    apply push_heap_loop_heap _ _ _ _ len (le_refl _) e2 (by simp only; omega)
    · exact e5
    · intro i hi hin hpi
      have : ¬ (len % 2 = 0 ∧ sc1 = (len - 2) / 2) := hc
      omega

theorem slot_weight_append_left (pq : List node) (x : node) (i : Nat) (h : i < pq.length) :
    slot_weight (pq ++ [x]) i = slot_weight pq i := by
  unfold slot_weight
  rw [List.getD_append _ _ _ _ h]

/-- The call `pq.push(x)` keeps the heap order. -/
theorem pq_push_heap (pq : List node) (x : node) (h : is_heap pq.length pq) :
    is_heap (pq_push pq x).length (pq_push pq x) := by
  have hl : (pq_push pq x).length = pq.length + 1 := by
    simpa using (pq_push_perm pq x).length_eq
  rw [hl]
  unfold pq_push push_heap push_heap_at
  have hlen : (pq ++ [x]).length = pq.length + 1 := by simp
  rw [hlen]
  simp only [Nat.add_sub_cancel]
  apply push_heap_loop_heap _ _ _ _ (pq.length + 1) (le_refl _) (by omega) (by omega)
  · intro i hi hin hih hpi
    rw [slot_weight_append_left _ _ _ (by omega), slot_weight_append_left _ _ _ (by omega)]
    exact h i hi (by omega)
  · intro i hi hin hpi
    omega

/-- The call `std::pop_heap` leaves all but the last slot in heap order. -/
theorem pop_heap_heap (c : List node) (h : is_heap c.length c) :
    is_heap (c.length - 1) (pop_heap c) := by
  unfold pop_heap
  split
  · rename_i hgt
    apply adjust_heap_heap _ _ _ (by omega) (by simp)
    intro i hi hin _
    rw [slot_weight_set_ne _ _ _ _ (by omega), slot_weight_set_ne _ _ _ _ (by omega)]
    exact h i hi (by omega)
  · intro i hi hin
    omega

theorem slot_weight_dropLast (c : List node) (i : Nat) (h : i < c.length - 1) :
    slot_weight c.dropLast i = slot_weight c i := by
  unfold slot_weight
  rw [List.getD_eq_getElem?_getD, List.getD_eq_getElem?_getD, List.dropLast_eq_take,
    List.getElem?_take_of_lt h]

/-- The call `pq.pop()` keeps the heap order. -/
theorem pq_pop_heap (pq ys : List node) (h : is_heap pq.length pq) (hp : pq_pop pq = .ok ys) :
    is_heap ys.length ys := by
  cases pq with
  | nil => simp [pq_pop] at hp
  | cons x xs =>
    simp only [pq_pop, Except.ok.injEq] at hp
    subst hp
    have hl := (pop_heap_spec (x :: xs) (by simp)).2.1
    have hh := pop_heap_heap (x :: xs) h
    intro i hi hin
    simp only [List.length_dropLast, hl] at hin
    rw [slot_weight_dropLast _ _ (by rw [hl]; omega), slot_weight_dropLast _ _ (by rw [hl]; exact hin)]
    exact hh i hi hin

/-- In a heap the root is a lightest element. -/
theorem heap_root_le (n : Nat) (c : List node) (h : is_heap n c) :
    ∀ i, i < n → slot_weight c 0 ≤ slot_weight c i := by
  intro i
  induction i using Nat.strong_induction_on with
  | _ i ih =>
    intro hin
    by_cases hi : i = 0
    · subst hi; exact le_refl _
    · exact le_trans (ih ((i - 1) / 2) (by omega) (by omega)) (h i (by omega) hin)

/-- The node `pq.top()` returns is a lightest node of the queue. -/
theorem pq_top_le (x : node) (xs : List node) (h : is_heap (x :: xs).length (x :: xs)) :
    ∀ t ∈ x :: xs, x.proba ≤ t.proba := by
  intro t ht
  obtain ⟨i, hi, hget⟩ := List.getElem_of_mem ht
  have := heap_root_le _ _ h i hi
  simp only [slot_weight, List.getD_eq_getElem?_getD, List.getElem?_eq_getElem hi, hget,
    List.getElem?_cons_zero, Option.getD_some] at this
  exact this

/-- With the first-extracted node no heavier than the second, the new node has the first
as its left child and the second as its right child. -/
theorem merge_of_le (one two : node) (h : one.proba ≤ two.proba) :
    merge one two = node.mk (one.proba + two.proba) '$' one two := by
  unfold merge
  rw [if_neg (not_lt.mpr h), if_neg (not_lt.mpr h)]

/-- One pass of the merge loop on a queue in heap order: the two extracted nodes are the two
lightest, the first no heavier than the second, and the queue stays in heap order. -/
theorem tree_create_step_heap (pq : List node) (h : 1 < pq.length)
    (hh : is_heap pq.length pq) :
    ∃ one pq1 two pq2,
      pq_top pq = .ok one ∧ pq_pop pq = .ok pq1 ∧ pq_top pq1 = .ok two ∧ pq_pop pq1 = .ok pq2
      ∧ tree_create_step pq = .ok (pq_push pq2 (node.mk (one.proba + two.proba) '$' one two))
      ∧ List.Perm pq (one :: two :: pq2)
      ∧ one.proba ≤ two.proba ∧ (∀ t ∈ pq2, two.proba ≤ t.proba)
      ∧ is_heap (pq_push pq2 (node.mk (one.proba + two.proba) '$' one two)).length
          (pq_push pq2 (node.mk (one.proba + two.proba) '$' one two)) := by
  match pq, h, hh with
  | x :: xs, h, hh =>
    obtain ⟨ys, hys, pys⟩ := pq_pop_spec x xs
    have hlen : ys.length = xs.length := pys.length_eq
    have hys_heap := pq_pop_heap _ _ hh hys
    match ys, hys, pys, hlen, hys_heap with
    | [], _, _, hlen, _ => simp at h hlen; omega
    | y :: ys', hys, pys, _, hys_heap =>
      obtain ⟨zs, hzs, pzs⟩ := pq_pop_spec y ys'
      have hzs_heap := pq_pop_heap _ _ hys_heap hzs
      have hxy : x.proba ≤ y.proba :=
        pq_top_le x xs hh y (List.mem_cons_of_mem _ (pys.subset (List.mem_cons_self _ _)))
      have hyz : ∀ t ∈ zs, y.proba ≤ t.proba := fun t ht =>
        pq_top_le y ys' hys_heap t (List.mem_cons_of_mem _ (pzs.subset ht))
      refine ⟨x, y :: ys', y, zs, rfl, hys, rfl, hzs, ?_, ?_, hxy, hyz, pq_push_heap _ _ hzs_heap⟩
      · simp only [tree_create_step, pq_top, bind, Except.bind, hys, hzs, pure, Except.pure]
        rw [if_neg (not_lt.mpr hxy), if_neg (not_lt.mpr hxy)]
      · exact (List.Perm.cons x pys.symm).trans (List.Perm.cons x (List.Perm.cons y pzs.symm))

/-- The queue `tree_create` fills with leaves is in heap order when it started so. -/
theorem leaf_queue_heap (charWeights : CharMap ℚ) :
    ∀ pq : List node, is_heap pq.length pq →
      is_heap (leaf_queue pq charWeights).length (leaf_queue pq charWeights) := by
  induction charWeights with
  | nil => intro pq h; exact h
  | cons e es ih =>
    intro pq h
    exact ih _ (pq_push_heap pq _ h)

/-- The merge loop keeps the queue in heap order. -/
theorem tree_create_loop_heap (j : Nat) :
    ∀ pq pq' : List node, is_heap pq.length pq → tree_create_loop j pq = .ok pq' →
      is_heap pq'.length pq' := by
  induction j with
  | zero =>
    intro pq pq' h hl
    simp only [tree_create_loop, pure, Except.pure, Except.ok.injEq] at hl
    subst hl; exact h
  | succ j ih =>
    intro pq pq' h hl
    simp only [tree_create_loop] at hl
    split at hl
    · rename_i hgt
      obtain ⟨one, pq1, two, pq2, _, _, _, _, hstep, _, _, _, hheap⟩ :=
        tree_create_step_heap pq hgt h
      rw [hstep] at hl
      exact ih _ _ hheap hl
    · simp only [pure, Except.pure, Except.ok.injEq] at hl
      subst hl; exact h

/-! ## The lighter node goes to the left -/

/-- A property of nodes that every merge of a lighter first node with a second node
preserves holds throughout the merge loop on a queue in heap order. -/
theorem tree_create_loop_inv (P : node → Prop)
    (hP : ∀ one two, P one → P two → one.proba ≤ two.proba →
      P (node.mk (one.proba + two.proba) '$' one two)) (j : Nat) :
    ∀ pq pq' : List node, is_heap pq.length pq → (∀ t ∈ pq, P t) →
      tree_create_loop j pq = .ok pq' → ∀ t ∈ pq', P t := by
  induction j with
  | zero =>
    intro pq pq' _ h hl
    simp only [tree_create_loop, pure, Except.pure, Except.ok.injEq] at hl
    subst hl; exact h
  | succ j ih =>
    intro pq pq' hh h hl
    simp only [tree_create_loop] at hl
    split at hl
    · rename_i hgt
      obtain ⟨one, pq1, two, pq2, _, _, _, _, hstep, hperm, hle, _, hheap⟩ :=
        tree_create_step_heap pq hgt hh
      rw [hstep] at hl
      refine ih _ _ hheap ?_ hl
      intro t ht
      have hall : ∀ u ∈ one :: two :: pq2, P u := fun u hu => h u (hperm.symm.subset hu)
      rcases List.mem_cons.mp ((pq_push_perm _ _).subset ht) with ht | ht
      · subst ht
        exact hP one two (hall one (by simp)) (hall two (by simp)) hle
      · exact hall t (by simp [ht])
    · simp only [pure, Except.pure, Except.ok.injEq] at hl
      subst hl; exact h

theorem is_heap_nil : is_heap ([] : List node).length [] := by
  intro i _ hi
  simp at hi

theorem leaf_queue_mem (charWeights : CharMap ℚ) (t : node)
    (h : t ∈ leaf_queue [] charWeights) : ∃ elem ∈ charWeights, t = node.leaf elem.2 elem.1 := by
  have := (leaf_queue_perm [] charWeights).subset h
  simp only [List.nil_append, List.mem_map] at this
  obtain ⟨e, he, rfl⟩ := this
  exact ⟨e, he, rfl⟩

/-- A property that holds of leaves and is preserved by merges holds of the root
`tree_create` leaves in the queue. -/
theorem tree_root_inv (P : node → Prop) (hleaf : ∀ p c, P (node.leaf p c))
    (hP : ∀ one two, P one → P two → one.proba ≤ two.proba →
      P (node.mk (one.proba + two.proba) '$' one two))
    (charWeights : CharMap ℚ) (root : node) (h : tree_root charWeights = .ok root) : P root := by
  unfold tree_root at h
  cases hq : tree_create [] charWeights with
  | error e => rw [hq] at h; simp [bind, Except.bind] at h
  | ok pq =>
    rw [hq] at h
    simp only [bind, Except.bind] at h
    rw [tree_create_eq] at hq
    have hall := tree_create_loop_inv P hP _ _ _ (leaf_queue_heap charWeights [] is_heap_nil)
      (fun t ht => by
        obtain ⟨e, _, rfl⟩ := leaf_queue_mem charWeights t ht
        exact hleaf _ _) hq
    cases pq with
    | nil => simp [pq_top] at h
    | cons x xs =>
      simp only [pq_top, Except.ok.injEq] at h
      subst h
      exact hall _ (by simp)

/-- Claim C15.  In every pass of the merge loop the new node's weight is the sum of the two
extracted weights; the extracted node of strictly greater weight becomes the right child and
the other the left child, and at equal weights the second-extracted node becomes the right
child.  On every queue `tree_create` reaches from an empty queue the first-extracted node is
no heavier than the second, so the new node is `(one + two, '$', one, two)`: the
first-extracted node on the left.  The root built from a non-empty table has, at every node
with a child, a left child no heavier than the right child. -/
theorem C15_child_assignment (charWeights : CharMap ℚ) (hn : 1 ≤ charWeights.length) :
    (∀ pq one pq1 two pq2, pq_top pq = .ok one → pq_pop pq = .ok pq1 →
        pq_top pq1 = .ok two → pq_pop pq1 = .ok pq2 →
        ∃ nd, tree_create_step pq = .ok (pq_push pq2 nd)
          ∧ nd.proba = one.proba + two.proba ∧ nd.c = '$'
          ∧ (one.proba > two.proba → nd.right = one ∧ nd.left = two)
          ∧ (two.proba > one.proba → nd.right = two ∧ nd.left = one)
          ∧ (one.proba = two.proba → nd.right = two ∧ nd.left = one))
    ∧ (∀ j pq, tree_create_loop j (leaf_queue [] charWeights) = .ok pq → 1 < pq.length →
        ∃ one pq1 two pq2, pq_top pq = .ok one ∧ pq_pop pq = .ok pq1
          ∧ pq_top pq1 = .ok two ∧ pq_pop pq1 = .ok pq2
          ∧ one.proba ≤ two.proba
          ∧ tree_create_step pq
              = .ok (pq_push pq2 (node.mk (one.proba + two.proba) '$' one two)))
    ∧ (∃ root, tree_root charWeights = .ok root ∧ root.left_not_heavier = true) := by
  refine ⟨?_, ?_, ?_⟩
  · intro pq one pq1 two pq2 h1 h2 h3 h4
    refine ⟨node.mk (one.proba + two.proba) '$'
      (if one.proba > two.proba then two else one)
      (if one.proba > two.proba then one else two), ?_, rfl, rfl, ?_, ?_, ?_⟩
    · simp only [tree_create_step, h1, h2, h3, h4, bind, Except.bind, pure, Except.pure]
    · intro h; simp [node.right, node.left, h]
    · intro h; simp [node.right, node.left, not_lt.mpr (le_of_lt h)]
    · intro h; simp [node.right, node.left, h]
  · intro j pq hl hgt
    have hheap := tree_create_loop_heap j _ _ (leaf_queue_heap charWeights [] is_heap_nil) hl
    obtain ⟨one, pq1, two, pq2, h1, h2, h3, h4, hstep, _, hle, _, _⟩ :=
      tree_create_step_heap pq hgt hheap
    exact ⟨one, pq1, two, pq2, h1, h2, h3, h4, hle, hstep⟩
  · have hne : charWeights ≠ [] := by
      intro h; rw [h] at hn; simp at hn
    obtain ⟨root, hroot⟩ := tree_root_of_ne_nil hne
    refine ⟨root, hroot, ?_⟩
    refine tree_root_inv (fun t => t.left_not_heavier = true) ?_ ?_ charWeights root hroot
    · intro p c; simp [node.leaf, node.left_not_heavier, node.isNull]
    · intro one two h1 h2 hle
      simp [node.left_not_heavier, h1, h2, hle]

theorem C15_child_assignment_witness :
    1 ≤ ([('a', 1 / 2), ('b', 1 / 4), ('c', 1 / 4)] : CharMap ℚ).length
    ∧ ∃ root, tree_root [('a', 1 / 2), ('b', 1 / 4), ('c', 1 / 4)] = .ok root
        ∧ root.left_not_heavier = true :=
  ⟨by decide, (C15_child_assignment [('a', 1 / 2), ('b', 1 / 4), ('c', 1 / 4)] (by decide)).2.2⟩

/-! ## Depth assignments -/

theorem kraft_perm {ds ds' : List Nat} (h : List.Perm ds ds') : kraft ds = kraft ds' := by
  unfold kraft
  exact (h.map _).sum_eq

theorem kraft_cons (d : Nat) (ds : List Nat) : kraft (d :: ds) = (1 / 2 : ℚ) ^ d + kraft ds := by
  simp [kraft]

theorem weighted_depth_perm {ps ps' : List (ℚ × Nat)} (h : List.Perm ps ps') :
    weighted_depth ps = weighted_depth ps' := by
  unfold weighted_depth
  exact (h.map _).sum_eq

theorem weighted_depth_cons (p : ℚ × Nat) (ps : List (ℚ × Nat)) :
    weighted_depth (p :: ps) = p.1 * (p.2 : ℚ) + weighted_depth ps := by
  simp [weighted_depth]

theorem exists_deepest : ∀ ds : List Nat, ds ≠ [] → ∃ D ∈ ds, ∀ d ∈ ds, d ≤ D := by
  intro ds
  induction ds with
  | nil => intro h; exact absurd rfl h
  | cons x xs ih =>
    intro _
    by_cases hx : xs = []
    · subst hx; exact ⟨x, by simp, by simp⟩
    · obtain ⟨D, hD, hmax⟩ := ih hx
      by_cases hxD : x ≤ D
      · refine ⟨D, List.mem_cons_of_mem _ hD, ?_⟩
        intro d hd
        rcases List.mem_cons.mp hd with h | h
        · rw [h]; exact hxD
        · exact hmax d h
      · refine ⟨x, List.mem_cons_self _ _, ?_⟩
        intro d hd
        rcases List.mem_cons.mp hd with h | h
        · rw [h]
        · have := hmax d h; omega

/-- The Kraft sum scaled by `2^D` is a sum of powers of two. -/
theorem kraft_scaled (D : Nat) : ∀ ds : List Nat, (∀ d ∈ ds, d ≤ D) →
    (((ds.map (fun d => 2 ^ (D - d))).sum : Nat) : ℚ) = 2 ^ D * kraft ds := by
  intro ds
  induction ds with
  | nil => intro _; simp [kraft]
  | cons x xs ih =>
    intro h
    have hx : x ≤ D := h x (List.mem_cons_self _ _)
    have ih' := ih (fun d hd => h d (List.mem_cons_of_mem _ hd))
    rw [kraft_cons, List.map_cons, List.sum_cons, Nat.cast_add, ih', mul_add]
    congr 1
    have : (2 : ℚ) ^ D = 2 ^ (D - x) * 2 ^ x := by
      rw [← pow_add]; congr 1; omega
    rw [this, Nat.cast_pow, Nat.cast_ofNat, mul_assoc, ← mul_pow]
    norm_num

theorem scaled_sum_ge (D : Nat) : ∀ ds : List Nat,
    ds.length ≤ (ds.map (fun d => 2 ^ (D - d))).sum := by
  intro ds
  induction ds with
  | nil => simp
  | cons x xs ih =>
    simp only [List.length_cons, List.map_cons, List.sum_cons]
    have : 1 ≤ 2 ^ (D - x) := Nat.one_le_two_pow
    omega

theorem scaled_sum_parity (D : Nat) : ∀ ds : List Nat, (∀ d ∈ ds, d ≤ D) →
    (ds.map (fun d => 2 ^ (D - d))).sum % 2 = ds.count D % 2 := by
  intro ds
  induction ds with
  | nil => intro _; simp
  | cons x xs ih =>
    intro h
    have hx : x ≤ D := h x (List.mem_cons_self _ _)
    have ih' := ih (fun d hd => h d (List.mem_cons_of_mem _ hd))
    simp only [List.map_cons, List.sum_cons, List.count_cons]
    by_cases hxD : x = D
    · subst hxD
      simp only [Nat.sub_self, pow_zero, beq_self_eq_true, if_true]
      omega
    · have hne : (x == D) = false := by simpa using hxD
      simp only [hne, Bool.false_eq_true, if_false, Nat.add_zero]
      have h2 : 2 ^ (D - x) % 2 = 0 := by
        have : D - x = (D - x - 1) + 1 := by omega
        rw [this, pow_succ]
        omega
      omega

/-- Depths with Kraft sum one, at least two of them: the greatest depth is positive and
occurs at least twice. -/
theorem kraft_two_deepest (ds : List Nat) (hlen : 2 ≤ ds.length) (hk : kraft ds = 1)
    (D : Nat) (hD : D ∈ ds) (hmax : ∀ d ∈ ds, d ≤ D) : 1 ≤ D ∧ 2 ≤ ds.count D := by
  have h1 := kraft_scaled D ds hmax
  rw [hk, mul_one] at h1
  have h2 : (ds.map (fun d => 2 ^ (D - d))).sum = 2 ^ D := by
    have : ((2 ^ D : Nat) : ℚ) = 2 ^ D := by norm_num
    rw [← this] at h1
    exact Nat.cast_injective h1
  have h3 := scaled_sum_ge D ds
  have h4 := scaled_sum_parity D ds hmax
  rw [h2] at h3 h4
  have hpos : 1 ≤ D := by
    by_contra hc
    have : D = 0 := by omega
    subst this
    simp at h3
    omega
  have h5 : 2 ^ D % 2 = 0 := by
    have : D = (D - 1) + 1 := by omega
    rw [this, pow_succ]
    omega
  have h6 : 0 < ds.count D := List.count_pos_iff.mpr hD
  exact ⟨hpos, by omega⟩

theorem extract_weight (ps : List (ℚ × Nat)) (x : ℚ) (ws : List ℚ)
    (h : List.Perm (ps.map Prod.fst) (x :: ws)) :
    ∃ d r, List.Perm ps ((x, d) :: r) ∧ List.Perm (r.map Prod.fst) ws := by
  have hx : x ∈ ps.map Prod.fst := h.symm.subset (List.mem_cons_self _ _)
  obtain ⟨⟨x', d⟩, hp, hfst⟩ := List.mem_map.mp hx
  simp only at hfst
  subst hfst
  have hperm := List.perm_cons_erase hp
  refine ⟨d, _, hperm, ?_⟩
  have := (hperm.map Prod.fst).symm.trans h
  simp only [List.map_cons] at this
  exact this.cons_inv

theorem extract_depth (ps : List (ℚ × Nat)) (D : Nat) (h : D ∈ ps.map Prod.snd) :
    ∃ y r, List.Perm ps ((y, D) :: r) := by
  obtain ⟨⟨y, d⟩, hp, hsnd⟩ := List.mem_map.mp h
  simp only at hsnd
  subst hsnd
  exact ⟨y, _, List.perm_cons_erase hp⟩

/-- Giving a lightest weight the greatest depth does not raise the cost. -/
theorem pull_deep (a : ℚ) (da D : Nat) (qs : List (ℚ × Nat)) (ha : ∀ p ∈ qs, a ≤ p.1)
    (hda : da ≤ D) (hD : D ∈ da :: qs.map Prod.snd) :
    ∃ qs', List.Perm (qs'.map Prod.fst) (qs.map Prod.fst)
      ∧ List.Perm (D :: qs'.map Prod.snd) (da :: qs.map Prod.snd)
      ∧ a * (D : ℚ) + weighted_depth qs' ≤ a * (da : ℚ) + weighted_depth qs := by
  by_cases hd : D = da
  · subst hd
    exact ⟨qs, List.Perm.refl _, List.Perm.refl _, le_refl _⟩
  · have hD' : D ∈ qs.map Prod.snd := by
      rcases List.mem_cons.mp hD with h | h
      · exact absurd h hd
      · exact h
    obtain ⟨y, r, hperm⟩ := extract_depth qs D hD'
    refine ⟨(y, da) :: r, ?_, ?_, ?_⟩
    · have := (hperm.map Prod.fst).symm
      simpa using this
    · have := (hperm.map Prod.snd).symm
      simp only [List.map_cons] at this ⊢
      exact (List.Perm.swap da D _).trans (List.Perm.cons da this)
    · rw [weighted_depth_perm hperm, weighted_depth_cons, weighted_depth_cons]
      simp only
      have hay : a ≤ y := ha (y, D) (hperm.symm.subset (List.mem_cons_self _ _))
      have hdq : (da : ℚ) ≤ (D : ℚ) := by exact_mod_cast hda
      nlinarith [mul_nonneg (sub_nonneg.mpr hay) (sub_nonneg.mpr hdq)]

/-- The two lightest weights can be moved to the greatest depth and then replaced by their
sum one level up: the cost drops by at least their sum. -/
theorem contract_lightest (ps : List (ℚ × Nat)) (ws : List ℚ) (a b : ℚ)
    (hp : List.Perm (ps.map Prod.fst) (a :: b :: ws)) (hab : a ≤ b) (hb : ∀ w ∈ ws, b ≤ w)
    (hk : kraft (ps.map Prod.snd) = 1) :
    ∃ ps', List.Perm (ps'.map Prod.fst) ((a + b) :: ws) ∧ kraft (ps'.map Prod.snd) = 1
      ∧ weighted_depth ps' + a + b ≤ weighted_depth ps := by
  have hlen : 2 ≤ (ps.map Prod.snd).length := by
    have := hp.length_eq
    simp only [List.length_map, List.length_cons] at this ⊢
    omega
  have hne : ps.map Prod.snd ≠ [] := by
    intro h; rw [h] at hlen; simp at hlen
  obtain ⟨D, hD, hmax⟩ := exists_deepest _ hne
  obtain ⟨hpos, hcount⟩ := kraft_two_deepest _ hlen hk D hD hmax
  obtain ⟨da, qs, hps, hqs⟩ := extract_weight ps a (b :: ws) hp
  have hsnd : List.Perm (ps.map Prod.snd) (da :: qs.map Prod.snd) := by
    simpa using hps.map Prod.snd
  have hqa : ∀ p ∈ qs, a ≤ p.1 := by
    intro p hpq
    have : p.1 ∈ b :: ws := hqs.subset (List.mem_map_of_mem _ hpq)
    rcases List.mem_cons.mp this with h | h
    · rw [h]; exact hab
    · exact le_trans hab (hb _ h)
  obtain ⟨qs', hq1, hq2, hq3⟩ := pull_deep a da D qs hqa
    (hmax da (hsnd.symm.subset (List.mem_cons_self _ _))) (hsnd.subset hD)
  have hsnd' : List.Perm (ps.map Prod.snd) (D :: qs'.map Prod.snd) := hsnd.trans hq2.symm
  have hD' : D ∈ qs'.map Prod.snd := by
    have := hsnd'.count_eq D
    rw [List.count_cons_self] at this
    exact List.count_pos_iff.mp (by omega)
  obtain ⟨db, r, hqs', hr⟩ := extract_weight qs' b ws (hq1.trans hqs)
  have hsndq : List.Perm (qs'.map Prod.snd) (db :: r.map Prod.snd) := by
    simpa using hqs'.map Prod.snd
  have hrb : ∀ p ∈ r, b ≤ p.1 := fun p hpr => hb _ (hr.subset (List.mem_map_of_mem _ hpr))
  obtain ⟨r', hr1, hr2, hr3⟩ := pull_deep b db D r hrb
    (hmax db (hsnd'.symm.subset (List.mem_cons_of_mem _
      (hsndq.symm.subset (List.mem_cons_self _ _))))) (hsndq.subset hD')
  have hall : List.Perm (ps.map Prod.snd) (D :: D :: r'.map Prod.snd) :=
    hsnd'.trans (List.Perm.cons D (hsndq.trans hr2.symm))
  refine ⟨(a + b, D - 1) :: r', ?_, ?_, ?_⟩
  · simp only [List.map_cons]
    exact List.Perm.cons _ (hr1.trans hr)
  · rw [kraft_perm hall, kraft_cons, kraft_cons] at hk
    simp only [List.map_cons]
    rw [kraft_cons]
    have : (1 / 2 : ℚ) ^ (D - 1) = (1 / 2) ^ D + (1 / 2) ^ D := by
      have hD1 : D = (D - 1) + 1 := by omega
      nth_rewrite 2 [hD1]
      nth_rewrite 3 [hD1]
      rw [pow_succ]
      ring
    rw [this]
    linarith
  · rw [weighted_depth_cons]
    simp only
    have hcast : ((D - 1 : Nat) : ℚ) = (D : ℚ) - 1 := by
      rw [Nat.cast_sub hpos]; simp
    rw [hcast]
    have e1 : weighted_depth ps = a * (da : ℚ) + weighted_depth qs := by
      rw [weighted_depth_perm hps, weighted_depth_cons]
    have e2 : weighted_depth qs' = b * (db : ℚ) + weighted_depth r := by
      rw [weighted_depth_perm hqs', weighted_depth_cons]
    linarith

/-! ## The merge loop builds a cheapest tree -/

theorem kraft_single (d : Nat) (h : kraft [d] = 1) : d = 0 := by
  simp only [kraft, List.map_cons, List.map_nil, List.sum_cons, List.sum_nil, add_zero] at h
  cases d with
  | zero => rfl
  | succ n =>
    exfalso
    have h1 : (1 / 2 : ℚ) ^ n ≤ 1 := pow_le_one₀ (by norm_num) (by norm_num)
    rw [pow_succ] at h
    linarith

/-- The tree the merge loop ends with costs no more than any assignment of depths with Kraft
sum one to the weights of the queue, plus what the queued trees cost already. -/
theorem tree_create_loop_cost (fuel : Nat) :
    ∀ (pq : List node) (root : node), is_heap pq.length pq →
      tree_create_loop fuel pq = .ok [root] →
      ∀ ps : List (ℚ × Nat), List.Perm (ps.map Prod.fst) (pq.map node.proba) →
        kraft (ps.map Prod.snd) = 1 →
        root.cost ≤ weighted_depth ps + (pq.map node.cost).sum := by
  have base : ∀ (pq : List node) (root : node), ¬ 1 < pq.length → pq = [root] →
      ∀ ps : List (ℚ × Nat), List.Perm (ps.map Prod.fst) (pq.map node.proba) →
        kraft (ps.map Prod.snd) = 1 →
        root.cost ≤ weighted_depth ps + (pq.map node.cost).sum := by
    intro pq root _ hpq ps hperm hk
    subst hpq
    have hl := hperm.length_eq
    simp only [List.length_map, List.length_cons, List.length_nil] at hl
    match ps, hl with
    | [p], _ =>
      have hd := kraft_single p.2 (by simpa using hk)
      simp [weighted_depth, hd]
  induction fuel with
  | zero =>
    intro pq root _ hl
    simp only [tree_create_loop, pure, Except.pure, Except.ok.injEq] at hl
    exact base pq root (by rw [hl]; simp) hl
  | succ fuel ih =>
    intro pq root hh hl
    simp only [tree_create_loop] at hl
    split at hl
    · rename_i hgt
      obtain ⟨one, pq1, two, pq2, _, _, _, _, hstep, hperm, hle, hrest, hheap⟩ :=
        tree_create_step_heap pq hgt hh
      rw [hstep] at hl
      have hrec := ih _ root hheap hl
      intro ps hps hk
      have hps' : List.Perm (ps.map Prod.fst) (one.proba :: two.proba :: pq2.map node.proba) := by
        simpa using hps.trans (hperm.map node.proba)
      obtain ⟨ps', h1, h2, h3⟩ := contract_lightest ps (pq2.map node.proba) one.proba two.proba
        hps' hle (by
          intro w hw
          obtain ⟨t, ht, rfl⟩ := List.mem_map.mp hw
          exact hrest t ht) hk
      have hpush := pq_push_perm pq2 (node.mk (one.proba + two.proba) '$' one two)
      have h4 := hrec ps' (h1.trans (by simpa [node.proba] using (hpush.map node.proba).symm)) h2
      have h5 : ((pq_push pq2 (node.mk (one.proba + two.proba) '$' one two)).map node.cost).sum
          = one.cost + two.cost + one.proba + two.proba + (pq2.map node.cost).sum := by
        rw [(hpush.map node.cost).sum_eq]
        simp [node.cost]
      have h6 : (pq.map node.cost).sum = one.cost + two.cost + (pq2.map node.cost).sum := by
        rw [(hperm.map node.cost).sum_eq]
        simp [add_assoc]
      rw [h5] at h4
      rw [h6]
      linarith
    · rename_i hgt
      simp only [pure, Except.pure, Except.ok.injEq] at hl
      exact base pq root hgt hl

theorem leaf_depths_leaves (t : node) : ∀ k, (t.leaf_depths k).map Prod.fst = t.leaves := by
  induction t with
  | null => intro k; rfl
  | mk p c l r ihl ihr =>
    intro k
    simp only [node.leaf_depths, node.leaves]
    split
    · rfl
    · rw [List.map_append, ihl, ihr]

/-- The leaf depths of a strict tree have Kraft sum one. -/
theorem kraft_leaf_depths (t : node) (hs : t.strict = true) :
    ∀ k, kraft ((t.leaf_depths k).map Prod.snd) = (1 / 2 : ℚ) ^ k := by
  induction t with
  | null => simp [node.strict] at hs
  | mk p c l r ihl ihr =>
    intro k
    simp only [node.strict, Bool.or_eq_true, Bool.and_eq_true] at hs
    simp only [node.leaf_depths]
    split
    · simp [kraft]
    · rename_i hn
      rcases hs with hs | hs
      · exact absurd (by simpa using hs) hn
      · have hl := ihl hs.1 (k + 1)
        have hr := ihr hs.2 (k + 1)
        unfold kraft at hl hr ⊢
        rw [List.map_append, List.map_append, List.sum_append, hl, hr, pow_succ]
        ring

/-- In a strict tree whose inner weights add up, the sum over the leaves of weight times
depth is the cost of the tree, plus the weight of the tree for every level above it. -/
theorem cost_leaf_depths (t : node) (hs : t.strict = true) (hw : t.weights_ok = true) :
    ∀ k, weighted_depth ((t.leaf_depths k).map (fun e => (e.1.2, e.2)))
      = t.cost + (k : ℚ) * t.proba := by
  induction t with
  | null => simp [node.strict] at hs
  | mk p c l r ihl ihr =>
    intro k
    simp only [node.strict, Bool.or_eq_true, Bool.and_eq_true] at hs
    simp only [node.weights_ok, Bool.and_eq_true, Bool.or_eq_true, decide_eq_true_eq] at hw
    simp only [node.leaf_depths]
    split
    · rename_i hn
      simp only [Bool.and_eq_true] at hn
      have e1 : l = node.null := by cases l <;> simp_all [node.isNull]
      have e2 : r = node.null := by cases r <;> simp_all [node.isNull]
      subst e1 e2
      simp [weighted_depth, node.cost, node.proba, mul_comm]
    · rename_i hn
      rcases hs with hs | hs
      · exact absurd (by simpa using hs) hn
      · rcases hw.1.1 with h | h
        · exact absurd (by simpa using h) hn
        · have hl := ihl hs.1 hw.1.2 (k + 1)
          have hr := ihr hs.2 hw.2 (k + 1)
          unfold weighted_depth at hl hr ⊢
          rw [List.map_append, List.map_append, List.sum_append, hl, hr]
          simp only [node.cost, node.proba, h]
          push_cast
          ring

/-! ## The length of the encoded message -/

theorem find_of_mem_nodup {β : Type} (m : CharMap β) (hn : m.keys.Nodup) (c : Char) (v : β)
    (h : (c, v) ∈ m) : m.find c = some v := by
  induction m with
  | nil => simp at h
  | cons e es ih =>
    obtain ⟨k', v'⟩ := e
    simp only [CharMap.keys, List.map_cons, List.nodup_cons] at hn
    simp only [CharMap.find]
    rcases List.mem_cons.mp h with h1 | h1
    · simp only [Prod.mk.injEq] at h1
      rw [if_pos h1.1, h1.2]
    · have hne : c ≠ k' := by
        intro hc
        subst hc
        exact hn.1 (List.mem_map.mpr ⟨(c, v), h1, rfl⟩)
      rw [if_neg hne]
      exact ih hn.2 h1

/-- Every leaf listed with depth `d` is reached by a path of `d` steps. -/
theorem leaf_depths_follow (t : node) :
    ∀ (k : Nat) (c : Char) (w : ℚ) (d : Nat), ((c, w), d) ∈ t.leaf_depths k →
      ∃ q, (t.follow q).isLeaf = true ∧ (t.follow q).c = c ∧ q.length + k = d := by
  induction t with
  | null => intro k c w d h; simp [node.leaf_depths] at h
  | mk p cc l r ihl ihr =>
    intro k c w d h
    simp only [node.leaf_depths] at h
    split at h
    · rename_i hleaf
      simp only [List.mem_singleton, Prod.mk.injEq] at h
      exact ⟨[], by simpa [follow_nil, node.isLeaf] using hleaf,
        by simp [follow_nil, node.c, h.1.1], by simp [h.2]⟩
    · rcases List.mem_append.mp h with h | h
      · obtain ⟨q, h1, h2, h3⟩ := ihl (k + 1) c w d h
        exact ⟨'0' :: q, by simpa [node.follow] using h1, by simpa [node.follow] using h2,
          by simp only [List.length_cons]; omega⟩
      · obtain ⟨q, h1, h2, h3⟩ := ihr (k + 1) c w d h
        exact ⟨'1' :: q, by simpa [node.follow] using h1, by simpa [node.follow] using h2,
          by simp only [List.length_cons]; omega⟩

/-- In a tree with sentinel inner nodes and distinct leaf characters, the table entry of a
leaf character has as many characters as the leaf is deep. -/
theorem code_length_of_leaf (t : node) (hs : t.sentinel_ok = true)
    (hn : (t.leaves.map Prod.fst).Nodup) (c : Char) (w : ℚ) (d : Nat)
    (hmem : ((c, w), d) ∈ t.leaf_depths 0) (hc : c ≠ '$') :
    ∃ q, (traverse_tree t [] []).find c = some q ∧ q.length = d := by
  have hleaf : (c, w) ∈ t.leaves := by
    rw [← leaf_depths_leaves t 0]
    exact List.mem_map.mpr ⟨_, hmem, rfl⟩
  obtain ⟨q, hq, hl, hcq⟩ := table_entry_of_leaf t hs c w hleaf hc
  obtain ⟨q', hl', hcq', hlen⟩ := leaf_depths_follow t 0 c w d hmem
  have := leaf_path_unique t hn q q' hl hl' (hcq.trans hcq'.symm)
  subst this
  exact ⟨q, hq, by omega⟩

theorem concat_codes_length (table : CharMap (List Char)) (msg : List Char) :
    (concat_codes table msg).length
      = (msg.map (fun ch => ((table.find ch).getD []).length)).sum := by
  induction msg with
  | nil => rfl
  | cons x xs ih =>
    have : concat_codes table (x :: xs) = (table.find x).getD [] ++ concat_codes table xs := by
      simp [concat_codes]
    rw [this, List.length_append, ih]
    simp

theorem sum_indicator {α : Type} (key : α → Char) (val : α → Nat) (g : Char → Nat) :
    ∀ (L : List α), (L.map key).Nodup → (∀ e ∈ L, g (key e) = val e) →
      ∀ ch, ch ∈ L.map key →
        (L.map (fun e => if ch = key e then val e else 0)).sum = g ch := by
  intro L
  induction L with
  | nil => intro _ _ ch h; simp at h
  | cons e es ih =>
    intro hn hg ch hch
    simp only [List.map_cons, List.nodup_cons] at hn
    simp only [List.map_cons, List.sum_cons]
    by_cases he : ch = key e
    · rw [if_pos he]
      have hz : (es.map (fun e => if ch = key e then val e else 0)).sum = 0 := by
        apply List.sum_eq_zero
        intro x hx
        obtain ⟨e', he', rfl⟩ := List.mem_map.mp hx
        rw [if_neg]
        intro hc
        exact hn.1 (by rw [← he, hc]; exact List.mem_map_of_mem _ he')
      rw [hz, he, hg e (List.mem_cons_self _ _)]
      rfl
    · rw [if_neg he, Nat.zero_add]
      apply ih hn.2 (fun e' he' => hg e' (List.mem_cons_of_mem _ he'))
      rcases List.mem_cons.mp hch with h | h
      · exact absurd h he
      · exact h

/-- Adding up a quantity over the characters of a message is adding it up over the distinct
characters, each times its number of occurrences. -/
theorem sum_by_count {α : Type} (key : α → Char) (val : α → Nat) (g : Char → Nat)
    (L : List α) (hn : (L.map key).Nodup) (hg : ∀ e ∈ L, g (key e) = val e) :
    ∀ msg : List Char, (∀ ch ∈ msg, ch ∈ L.map key) →
      (msg.map g).sum = (L.map (fun e => msg.count (key e) * val e)).sum := by
  intro msg
  induction msg with
  | nil => intro _; simp
  | cons x xs ih =>
    intro h
    have ih' := ih (fun ch hch => h ch (List.mem_cons_of_mem _ hch))
    have hx := sum_indicator key val g L hn hg x (h x (List.mem_cons_self _ _))
    rw [List.map_cons, List.sum_cons, ih', ← hx, ← List.sum_map_add]
    congr 1
    apply List.map_congr_left
    intro e _
    rw [List.count_cons]
    by_cases hc : x = key e
    · simp [hc]; ring
    · have : (x == key e) = false := by simpa using hc
      simp [hc, this]

/-- Encoding with the table of a tree with sentinel inner nodes whose leaves carry the
distinct characters of the message, none of them `'$'`: every character has an entry, and
the encoded message has, for every leaf, as many characters as the leaf is deep times the
number of occurrences of its character. -/
theorem encode_length_tree (t : node) (hs : t.sentinel_ok = true) (msg : List Char)
    (hlen : msg.length < 2147483648) (hd : '$' ∉ msg)
    (hp : List.Perm (t.leaves.map Prod.fst) msg.dedup) :
    encode_msg msg (traverse_tree t [] []) = .ok (concat_codes (traverse_tree t [] []) msg)
    ∧ (concat_codes (traverse_tree t [] []) msg).length
        = ((t.leaf_depths 0).map (fun e => msg.count e.1.1 * e.2)).sum := by
  have hn : (t.leaves.map Prod.fst).Nodup := hp.nodup_iff.mpr (List.nodup_dedup msg)
  have hmem : ∀ ch, ch ∈ t.leaves.map Prod.fst ↔ ch ∈ msg := by
    intro ch; rw [hp.mem_iff, List.mem_dedup]
  have hkeys : (t.leaf_depths 0).map (fun e => e.1.1) = t.leaves.map Prod.fst := by
    rw [← leaf_depths_leaves t 0, List.map_map]; rfl
  constructor
  · apply encode_msg_ok _ _ hlen
    intro ch hch
    obtain ⟨⟨c, w⟩, hcw, hfst⟩ := List.mem_map.mp ((hmem ch).mpr hch)
    simp only at hfst
    subst hfst
    obtain ⟨q, hq, _, _⟩ := table_entry_of_leaf t hs c w hcw (by
      intro h; subst h; exact hd hch)
    rw [hq]; rfl
  · rw [concat_codes_length]
    apply sum_by_count (fun e : (Char × ℚ) × Nat => e.1.1) (fun e => e.2)
      (fun ch => (((traverse_tree t [] []).find ch).getD []).length) (t.leaf_depths 0)
    · rw [hkeys]; exact hn
    · intro e he
      obtain ⟨⟨c, w⟩, d⟩ := e
      have hc : c ∈ msg := by
        apply (hmem c).mp
        rw [← hkeys]
        exact List.mem_map.mpr ⟨_, he, rfl⟩
      obtain ⟨q, hq, hql⟩ := code_length_of_leaf t hs hn c w d he (by
        intro h; subst h; exact hd hc)
      simp only [hq, Option.getD_some, hql]
    · intro ch hch
      rw [hkeys]
      exact (hmem ch).mpr hch

theorem count_sum_cast (msg : List Char) (hne : msg ≠ []) (L : List ((Char × ℚ) × Nat)) :
    (((L.map (fun e => msg.count e.1.1 * e.2)).sum : Nat) : ℚ)
      = (msg.length : ℚ) * weighted_depth
          (L.map (fun e => ((msg.count e.1.1 : ℚ) / (msg.length : ℚ), e.2))) := by
  have hpos : (msg.length : ℚ) ≠ 0 := by
    have : msg.length ≠ 0 := fun h => hne (List.length_eq_zero.mp h)
    exact_mod_cast this
  induction L with
  | nil => simp [weighted_depth]
  | cons e es ih =>
    simp only [List.map_cons, List.sum_cons, Nat.cast_add, Nat.cast_mul, ih,
      weighted_depth_cons]
    field_simp
    ring

/-- The leaves of the root built for a message carry its distinct characters, once each,
and each with its frequency as weight. -/
theorem tree_root_symbols (msg : List Char) (hlen : msg.length < 2147483648)
    (root : node) (hroot : tree_root (calc_probas msg []) = .ok root) :
    List.Perm (calc_probas msg []).keys msg.dedup
    ∧ List.Perm (root.leaves.map Prod.fst) msg.dedup
    ∧ ∀ e ∈ calc_probas msg [], e.2 = (msg.count e.1 : ℚ) / (msg.length : ℚ) := by
  obtain ⟨hord, hkeys, hfind⟩ := calc_probas_spec msg hlen
  obtain ⟨hne, hbuilt, hleaves⟩ := tree_root_ok hroot
  have hnd := ordered_nodup _ hord
  have hkd : List.Perm (calc_probas msg []).keys msg.dedup := by
    rw [List.perm_ext_iff_of_nodup hnd (List.nodup_dedup msg)]
    intro c; rw [hkeys, List.mem_dedup]
  refine ⟨hkd, (hleaves.map Prod.fst).trans hkd, ?_⟩
  intro e he
  have h1 := find_of_mem_nodup _ hnd e.1 e.2 he
  have h2 := hfind e.1 ((hkeys e.1).mp (List.mem_map.mpr ⟨e, he, rfl⟩))
  rw [h1] at h2
  exact Option.some.inj h2

/-- The root `tree_create` builds for a message costs no more than any strict tree over the
distinct characters of the message, the characters weighted by their frequencies. -/
theorem tree_root_cheapest (msg : List Char) (hlen : msg.length < 2147483648)
    (root : node) (hroot : tree_root (calc_probas msg []) = .ok root)
    (other : node) (hs : other.strict = true)
    (hp : List.Perm (other.leaves.map Prod.fst) msg.dedup) :
    weighted_depth ((root.leaf_depths 0).map
          (fun e => ((msg.count e.1.1 : ℚ) / (msg.length : ℚ), e.2)))
      ≤ weighted_depth ((other.leaf_depths 0).map
          (fun e => ((msg.count e.1.1 : ℚ) / (msg.length : ℚ), e.2))) := by
  obtain ⟨hkd, _, hwt⟩ := tree_root_symbols msg hlen root hroot
  obtain ⟨hne, hbuilt, hleaves⟩ := tree_root_ok hroot
  obtain ⟨hstrict, _, hweights⟩ := built_parts hbuilt
  -- the cost of the root
  have hrc : weighted_depth ((root.leaf_depths 0).map
      (fun e => ((msg.count e.1.1 : ℚ) / (msg.length : ℚ), e.2))) = root.cost := by
    have := cost_leaf_depths root hstrict hweights 0
    simp only [Nat.cast_zero, zero_mul, add_zero] at this
    rw [← this]
    congr 1
    apply List.map_congr_left
    intro e he
    have : e.1 ∈ root.leaves := by
      rw [← leaf_depths_leaves root 0]; exact List.mem_map_of_mem _ he
    rw [hwt e.1 (hleaves.subset this)]
  rw [hrc]
  -- the loop
  obtain ⟨r, hr, _, _⟩ := tree_create_spec _ hne
  have hrr : r = root := by
    simp only [tree_root, hr, bind, Except.bind, pq_top, Except.ok.injEq] at hroot
    exact hroot
  subst hrr
  rw [tree_create_eq] at hr
  have hH := tree_create_loop_cost _ _ _
    (leaf_queue_heap (calc_probas msg []) [] is_heap_nil) hr
    ((other.leaf_depths 0).map (fun e => ((msg.count e.1.1 : ℚ) / (msg.length : ℚ), e.2)))
    ?_ ?_
  · have hz : ((leaf_queue [] (calc_probas msg [])).map node.cost).sum = 0 := by
      apply List.sum_eq_zero
      intro x hx
      obtain ⟨t, ht, rfl⟩ := List.mem_map.mp hx
      obtain ⟨e, _, rfl⟩ := leaf_queue_mem _ t ht
      simp [node.leaf, node.cost, node.proba]
    rw [hz, add_zero] at hH
    exact hH
  · have h1 : ((other.leaf_depths 0).map
        (fun e => ((msg.count e.1.1 : ℚ) / (msg.length : ℚ), e.2))).map Prod.fst
        = (other.leaves.map Prod.fst).map
            (fun c => (msg.count c : ℚ) / (msg.length : ℚ)) := by
      rw [← leaf_depths_leaves other 0]
      simp only [List.map_map]
      rfl
    have h2 : ((leaf_queue [] (calc_probas msg [])).map node.proba).Perm
        ((calc_probas msg []).keys.map (fun c => (msg.count c : ℚ) / (msg.length : ℚ))) := by
      have := (leaf_queue_perm [] (calc_probas msg [])).map node.proba
      simp only [List.nil_append, List.map_map] at this
      refine this.trans ?_
      unfold CharMap.keys
      rw [List.map_map]
      apply List.Perm.of_eq
      apply List.map_congr_left
      intro e he
      simp only [Function.comp, node.leaf, node.proba]
      exact hwt e he
    rw [h1]
    exact (hp.map _).trans ((hkd.map _).symm.trans h2.symm)
  · have := kraft_leaf_depths other hs 0
    simp only [pow_zero] at this
    rw [List.map_map]
    exact this

/-- Claim C18, amended.  For every message of fewer than 2^31 characters with at least two
distinct characters, none of them `'$'`, with exact rational weights: `tree_create` builds a
root, `encode_msg` returns a bitstring with the code table of that root, and that bitstring
is no longer than the one `encode_msg` returns with the code table `traverse_tree` reads off
any strict binary tree with `'$'` at every inner node whose leaves carry exactly the
distinct characters of the message, once each. -/
theorem C18_optimality (msg : List Char) (hlen : msg.length < 2147483648)
    (h2 : 2 ≤ msg.dedup.length) (hd : '$' ∉ msg) :
    ∃ root enc, tree_root (calc_probas msg []) = .ok root
      ∧ encode_msg msg (traverse_tree root [] []) = .ok enc
      ∧ ∀ other : node, other.strict = true → other.sentinel_ok = true →
          List.Perm (other.leaves.map Prod.fst) msg.dedup →
          ∃ enc', encode_msg msg (traverse_tree other [] []) = .ok enc'
            ∧ enc.length ≤ enc'.length := by
  obtain ⟨root, hroot, hbuilt, _, _⟩ := message_tree msg hlen h2
  obtain ⟨_, hsent, _⟩ := built_parts hbuilt
  have hne : msg ≠ [] := by
    intro h; subst h; simp at h2
  refine ⟨root, concat_codes (traverse_tree root [] []) msg, hroot, ?_, ?_⟩
  · exact (encode_length_tree root hsent msg hlen hd
      (tree_root_symbols msg hlen root hroot).2.1).1
  · intro other hs hso hp
    have hrl := (tree_root_symbols msg hlen root hroot).2.1
    have hle := tree_root_cheapest msg hlen root hroot other hs hp
    obtain ⟨_, h1⟩ := encode_length_tree root hsent msg hlen hd hrl
    obtain ⟨h2', h3⟩ := encode_length_tree other hso msg hlen hd hp
    refine ⟨_, h2', ?_⟩
    rw [h1, h3]
    have hpos : (0 : ℚ) < (msg.length : ℚ) := by
      have : 0 < msg.length := List.length_pos.mpr hne
      exact_mod_cast this
    have := mul_le_mul_of_nonneg_left hle (le_of_lt hpos)
    rw [← count_sum_cast msg hne, ← count_sum_cast msg hne] at this
    exact_mod_cast this

theorem C18_optimality_witness :
    ['a', 'a', 'b', 'c'].length < 2147483648 ∧ 2 ≤ ['a', 'a', 'b', 'c'].dedup.length
    ∧ '$' ∉ ['a', 'a', 'b', 'c']
    ∧ ∃ root enc, tree_root (calc_probas ['a', 'a', 'b', 'c'] []) = .ok root
      ∧ encode_msg ['a', 'a', 'b', 'c'] (traverse_tree root [] []) = .ok enc
      ∧ ∀ other : node, other.strict = true → other.sentinel_ok = true →
          List.Perm (other.leaves.map Prod.fst) ['a', 'a', 'b', 'c'].dedup →
          ∃ enc', encode_msg ['a', 'a', 'b', 'c'] (traverse_tree other [] []) = .ok enc'
            ∧ enc.length ≤ enc'.length :=
  ⟨by decide, by decide, by decide,
    C18_optimality ['a', 'a', 'b', 'c'] (by decide) (by decide) (by decide)⟩

/-- C18 fails as stated.  For the message `aab` the built root is
`(1, '$', (1/3, 'b'), (2/3, 'a'))` and the encoded message is `110`; the strict binary tree
with the same two leaves and `a` instead of `'$'` at its root gives `a` the empty code in
`traverse_tree`, and the message is encoded to `0`, which is shorter.  A message of 2^31
characters over `a` and `b` is counted as empty, so no tree is built and nothing is
encoded. -/
theorem C18_counterexample :
    (2 ≤ ['a', 'a', 'b'].dedup.length ∧ '$' ∉ ['a', 'a', 'b']
      ∧ tree_root (calc_probas ['a', 'a', 'b'] [])
        = .ok (node.mk 1 '$' (node.leaf (1 / 3) 'b') (node.leaf (2 / 3) 'a'))
      ∧ encode_msg ['a', 'a', 'b']
          (traverse_tree (node.mk 1 '$' (node.leaf (1 / 3) 'b') (node.leaf (2 / 3) 'a')) [] [])
        = .ok ['1', '1', '0']
      ∧ (node.mk 1 'a' (node.leaf (1 / 3) 'b') (node.leaf (2 / 3) 'a')).strict = true
      ∧ (node.mk 1 'a' (node.leaf (1 / 3) 'b') (node.leaf (2 / 3) 'a')).leaves.map Prod.fst
        = ['b', 'a']
      ∧ List.Perm ['b', 'a'] ['a', 'a', 'b'].dedup
      ∧ encode_msg ['a', 'a', 'b']
          (traverse_tree (node.mk 1 'a' (node.leaf (1 / 3) 'b') (node.leaf (2 / 3) 'a')) [] [])
        = .ok ['0'])
    ∧ ('$' ∉ List.replicate 2147483647 'a' ++ ['b']
      ∧ 2 ≤ (List.replicate 2147483647 'a' ++ ['b']).dedup.length
      ∧ tree_root (calc_probas (List.replicate 2147483647 'a' ++ ['b']) [])
        = .error Failure.empty_queue) := by
  refine ⟨⟨by decide, by decide, by decide!, by decide!, by decide!, by decide!, by decide,
    by decide!⟩, ?_, ?_, ?_⟩
  · intro h
    rw [List.mem_append, List.mem_replicate] at h
    rcases h with ⟨_, h⟩ | h
    · exact absurd h (by decide)
    · exact absurd (List.mem_singleton.mp h) (by decide)
  · apply two_le_length_of_ne (a := 'a') (b := 'b')
    · rw [List.mem_dedup, List.mem_append, List.mem_replicate]
      exact Or.inl ⟨by decide, rfl⟩
    · rw [List.mem_dedup, List.mem_append]
      exact Or.inr (List.mem_singleton.mpr rfl)
    · decide
  · rw [calc_probas_long _ (to_int_nonpos (by
      rw [List.length_append, List.length_replicate]; decide))]
    rfl

end Huff
